import Mathlib

/-!
RollerCoaster: the spline evaluator, the frame propagation, the rail mesh and the on-track
camera.  A shallow embedding of `src/Headers/track.hpp` and `src/Headers/camera.hpp`.

Conventions of the embedding.

* A `float` is idealised as an element of an arbitrary linearly ordered field `K` with a
  floor function (`ℚ` for evaluation, `ℝ` for analysis and square roots); rounding, overflow
  and infinities are not modelled, and the conversion `(int)` of an integral float is exact.
* A `glm::vec3` with finite components is a `Vec3 K`.  The only way the code produces a
  non-finite vector is `glm::normalize` of the zero vector (`0 * inversesqrt 0`), whose three
  components are all NaN, and every vector computed from a NaN vector is NaN again; such a
  vector is `none` in `NVec3 K = Option (Vec3 K)`.
* The functions `glm::inversesqrt` and `sqrt` are parameters `rsqrt sqrt : K → K`; the
  theorems that need them assume `IsInvSqrt rsqrt` or `IsSqrt sqrt`, which
  `fun x => (Real.sqrt x)⁻¹` and `Real.sqrt` satisfy.
* The functions `cos`, `sin` and `glm::radians` of `Camera::updateCameraVectors` are
  parameters as well; no theorem assumes anything about them.
* An access `controlPoints[c]` is `cps[c]?`: outside the vector it is a failure (`none`);
  `vertices.at(i)` outside the vector throws, which ends the constructor of `Track`.
* A loop that the code may never leave is run with a bound on its iterations (`fuel`).
-/

namespace RollerCoaster

/-! ## glm::vec3 -/

/-- A `glm::vec3` with finite components. -/
@[ext]
structure Vec3 (K : Type) where
  x : K
  y : K
  z : K
deriving DecidableEq

namespace Vec3

variable {K : Type} [LinearOrderedField K]

instance : Zero (Vec3 K) := ⟨⟨0, 0, 0⟩⟩
instance : Add (Vec3 K) := ⟨fun a b => ⟨a.x + b.x, a.y + b.y, a.z + b.z⟩⟩
instance : Sub (Vec3 K) := ⟨fun a b => ⟨a.x - b.x, a.y - b.y, a.z - b.z⟩⟩
instance : Neg (Vec3 K) := ⟨fun a => ⟨-a.x, -a.y, -a.z⟩⟩
instance : SMul K (Vec3 K) := ⟨fun c a => ⟨c * a.x, c * a.y, c * a.z⟩⟩

/-- The `glm::dot` product. -/
def dot (a b : Vec3 K) : K := a.x * b.x + a.y * b.y + a.z * b.z

/-- The `glm::cross` product. -/
def cross (a b : Vec3 K) : Vec3 K :=
  ⟨a.y * b.z - b.y * a.z, a.z * b.x - b.z * a.x, a.x * b.y - b.x * a.y⟩

end Vec3

/-! ## Track::interpolate and Track::get_point -/

section Spline

variable {K : Type} [LinearOrderedField K]

/-- The function `Track::interpolate` (track.hpp:130-137): the Catmull-Rom blend of four points. -/
def interpolate (pointA pointB pointC pointD : Vec3 K) (tau u : K) : Vec3 K :=
  ((-tau) * u + 2 * tau * u * u - tau * u * u * u) • pointA
    + (1 + (tau - 3) * u * u + (2 - tau) * u * u * u) • pointB
    + (tau * u + (3 - 2 * tau) * u * u + (tau - 2) * u * u * u) • pointC
    + ((-tau) * u * u + tau * u * u * u) • pointD

/-- The blend of the specification with tension 0.5, coefficient by coefficient as the
specification writes it. -/
def catmullRomHalf (P0 P1 P2 P3 : Vec3 K) (t : K) : Vec3 K :=
  (-(1 / 2) * t + t ^ 2 - (1 / 2) * t ^ 3) • P0
    + (1 - (5 / 2) * t ^ 2 + (3 / 2) * t ^ 3) • P1
    + ((1 / 2) * t + 2 * t ^ 2 - (3 / 2) * t ^ 3) • P2
    + (-(1 / 2) * t ^ 2 + (1 / 2) * t ^ 3) • P3

variable [FloorRing K]

/-- The integral part that `modf` stores through its pointer: `s` rounded towards zero. -/
def modfInt (s : K) : Int := if 0 ≤ s then ⌊s⌋ else ⌈s⌉

/-- The value `modf` returns: the fractional part of `s`, with the sign of `s`. -/
def modfFrac (s : K) : K := s - (modfInt s : K)

/-- The index `(int)std::abs(i + k) % controlPoints.size()` of `Track::get_point`. -/
def pointIndex (n : Nat) (i : Int) (k : Int) : Nat := (i + k).natAbs % n

/-- The function `Track::get_point` (track.hpp:89-99).  An access outside `controlPoints` fails. -/
def get_point (controlPoints : List (Vec3 K)) (s : K) : Option (Vec3 K) := do
  let i := modfInt s
  let u := modfFrac s
  let c0 := pointIndex controlPoints.length i 0
  let c1 := pointIndex controlPoints.length i 1
  let c2 := pointIndex controlPoints.length i 2
  let c3 := pointIndex controlPoints.length i 3
  let pA ← controlPoints[c0]?
  let pB ← controlPoints[c1]?
  let pC ← controlPoints[c2]?
  let pD ← controlPoints[c3]?
  pure (interpolate pA pB pC pD (1 / 2) u)

/-- The curve `f` has derivative `d` at `t`, component by component. -/
def HasVecDerivAt (f : ℝ → Vec3 ℝ) (d : Vec3 ℝ) (t : ℝ) : Prop :=
  HasDerivAt (fun u => (f u).x) d.x t ∧ HasDerivAt (fun u => (f u).y) d.y t ∧
    HasDerivAt (fun u => (f u).z) d.z t

/-- A track whose four control points all lie at `P`. -/
def flatTrack (P : Vec3 K) : List (Vec3 K) := [P, P, P, P]

/-- The unit-square loop of the specification's scenario. -/
def unitSquare : List (Vec3 ℚ) := [⟨0, 0, 0⟩, ⟨1, 0, 0⟩, ⟨1, 0, 1⟩, ⟨0, 0, 1⟩]

end Spline

/-! ## Vectors that may be NaN, glm::normalize, Orientation -/

section Frames

variable {K : Type} [LinearOrderedField K]

/-- A `glm::vec3` as the code computes it: `some v` when its components are finite, `none`
when they are NaN. -/
abbrev NVec3 (K : Type) := Option (Vec3 K)

/-- A binary vector operation applied to vectors that may be NaN: the result is NaN as soon
as one operand is. -/
def nlift2 (f : Vec3 K → Vec3 K → Vec3 K) (a b : NVec3 K) : NVec3 K :=
  match a, b with
  | some v, some w => some (f v w)
  | _, _ => none

/-- The product `c * v` of a float and a vector that may be NaN. -/
def nscale (c : K) (a : NVec3 K) : NVec3 K := a.map (fun v => c • v)

/-- The sum of two vectors that may be NaN. -/
def nadd (a b : NVec3 K) : NVec3 K := nlift2 (fun v w => v + w) a b

/-- The difference of two vectors that may be NaN. -/
def nsub (a b : NVec3 K) : NVec3 K := nlift2 (fun v w => v - w) a b

/-- The function `glm::normalize(v) = v * inversesqrt(dot(v, v))`.  For the zero vector this is
`0 * inf`, a vector of NaN. -/
def normalize (rsqrt : K → K) (v : Vec3 K) : NVec3 K :=
  if Vec3.dot v v = 0 then none else some (rsqrt (Vec3.dot v v) • v)

/-- The function `rsqrt` is the inverse square root on the positive numbers. -/
def IsInvSqrt (rsqrt : K → K) : Prop :=
  ∀ x, 0 < x → 0 < rsqrt x ∧ rsqrt x * rsqrt x * x = 1

/-- The function `sqrt` is the square root on the non-negative numbers. -/
def IsSqrt (sqrt : K → K) : Prop :=
  ∀ x, 0 ≤ x → 0 ≤ sqrt x ∧ sqrt x * sqrt x = x

/-- The type `struct Orientation` (track.hpp:13-24).  The field `u_value` is never written nor read
and is left out; `origin` is always a control point or a value of `get_point`. -/
structure Orientation (K : Type) where
  Front : NVec3 K
  Up : NVec3 K
  Right : NVec3 K
  origin : Vec3 K

/-- The frame propagation written out in `Track::create_track` (track.hpp:193-196) and
again, on the camera's own fields, in `Camera::ProcessTrackMovement` (camera.hpp:150-155):
the frame `future` at the new origin `p`, from the frame `current`. -/
def propagate (rsqrt : K → K) (current : Orientation K) (p : Vec3 K) : Orientation K :=
  let front : NVec3 K := normalize rsqrt (p - current.origin)
  let right : NVec3 K := (nlift2 Vec3.cross current.Up front).bind (normalize rsqrt)
  let up : NVec3 K := (nlift2 Vec3.cross front right).bind (normalize rsqrt)
  { Front := front, Up := up, Right := right, origin := p }

/-- The seed frame of `Track::create_track` (track.hpp:182-185) at the origin `o`. -/
def trackSeed (o : Vec3 K) : Orientation K :=
  { origin := o, Right := some ⟨0, 0, 1⟩, Front := some ⟨1, 0, 0⟩, Up := some ⟨0, 1, 0⟩ }

/-- The three vectors of the frame are finite, of length 1 and pairwise orthogonal. -/
def Orthonormal (o : Orientation K) : Prop :=
  ∃ f u r, o.Front = some f ∧ o.Up = some u ∧ o.Right = some r ∧
    Vec3.dot f f = 1 ∧ Vec3.dot u u = 1 ∧ Vec3.dot r r = 1 ∧
    Vec3.dot f u = 0 ∧ Vec3.dot f r = 0 ∧ Vec3.dot u r = 0

/-- The step from the frame `current` to the new origin `p` is non-degenerate: `p` differs
from the previous origin and the previous `Up` is finite and not parallel to the
displacement. -/
def NonDegenerate (current : Orientation K) (p : Vec3 K) : Prop :=
  p ≠ current.origin ∧ ∃ up, current.Up = some up ∧ Vec3.cross up (p - current.origin) ≠ 0

/-- The frame is finite with `cross(Front, Up) = Right`: right-handed in the order
(Front, Up, Right). -/
def RightHandedFUR (o : Orientation K) : Prop :=
  ∃ f u r, o.Front = some f ∧ o.Up = some u ∧ o.Right = some r ∧ Vec3.cross f u = r

/-- The frame is finite with `cross(Up, Front) = Right`, that is `cross(Front, Up) = -Right`
and `cross(Front, Right) = Up`: right-handed in the order (Front, Right, Up). -/
def RightHandedFRU (o : Orientation K) : Prop :=
  ∃ f u r, o.Front = some f ∧ o.Up = some u ∧ o.Right = some r ∧
    Vec3.cross u f = r ∧ Vec3.cross f u = -r ∧ Vec3.cross f r = u

/-- The frames met along the successive origins `ps`, starting from the frame `start`. -/
def framesAlong (rsqrt : K → K) (start : Orientation K) : List (Vec3 K) → List (Orientation K)
  | [] => []
  | p :: ps => propagate rsqrt start p :: framesAlong rsqrt (propagate rsqrt start p) ps

/-- Every step along the successive origins `ps` is non-degenerate. -/
def NonDegenerateRun (rsqrt : K → K) (start : Orientation K) : List (Vec3 K) → Prop
  | [] => True
  | p :: ps => NonDegenerate start p ∧ NonDegenerateRun rsqrt (propagate rsqrt start p) ps

end Frames

/-! ## The rail mesh: make_triangle, set_normals, makeRailPart, create_track -/

section Mesh

variable {K : Type} [LinearOrderedField K]

/-- Modelled from the spec: `struct Vertex` is declared in `heightmap.hpp`, which is not
among the sources; the specification gives it a position, a normal and texture coordinates.
A vertex declared without initialiser (`Vertex a, b, c;`) is taken to have zero fields. -/
structure Vertex (K : Type) where
  Position : NVec3 K
  Normal : NVec3 K
  TexCoords : K × K

/-- The value of a `Vertex` declared without initialiser. -/
def Vertex.init : Vertex K := { Position := some 0, Normal := some 0, TexCoords := (0, 0) }

/-- The function `Track::set_normals` (track.hpp:274-280). -/
def set_normals (p1 p2 p3 : Vertex K) : Vertex K × Vertex K × Vertex K :=
  let normal : NVec3 K :=
    nlift2 Vec3.cross (nsub p2.Position p1.Position) (nsub p3.Position p1.Position)
  ({ p1 with Normal := nadd p1.Normal normal },
   { p2 with Normal := nadd p2.Normal normal },
   { p3 with Normal := nadd p3.Normal normal })

/-- The function `Track::make_triangle` (track.hpp:206-242): the three vertices are pushed at the back of
`vertices`. -/
def make_triangle (vertices : List (Vertex K)) (pointA pointB pointC : NVec3 K)
    (flipNormal : Bool) : List (Vertex K) :=
  let a : Vertex K := { Vertex.init with Position := pointA, TexCoords := (0, 1) }
  let b : Vertex K := { Vertex.init with Position := pointB, TexCoords := (0, 0) }
  let c : Vertex K := { Vertex.init with Position := pointC, TexCoords := (1, 0) }
  let (a, b, c) := set_normals a b c
  let (a, b, c) :=
    if flipNormal then
      ({ a with Normal := a.Normal.map (fun n => -n) },
       { b with Normal := b.Normal.map (fun n => -n) },
       { c with Normal := c.Normal.map (fun n => -n) })
    else (a, b, c)
  vertices ++ [a, b, c]

/-- The function `Track::makeRailPart` (track.hpp:245-269); the parameter `offset` is not
used by the code. -/
def makeRailPart (vertices : List (Vertex K)) (ori_prev ori_cur : Orientation K) :
    List (Vertex K) :=
  let a1 := nsub (nsub (some ori_prev.origin) ori_prev.Right) (nscale (3 / 10) ori_prev.Up)
  let a2 := nsub (nsub (some ori_prev.origin) ori_prev.Right) (nscale (1 / 10) ori_prev.Up)
  let a3 := nsub (nadd (some ori_prev.origin) ori_prev.Right) (nscale (3 / 10) ori_prev.Up)
  let a4 := nsub (nadd (some ori_prev.origin) ori_prev.Right) (nscale (1 / 10) ori_prev.Up)
  let b1 := nsub (nsub (some ori_cur.origin) ori_cur.Right) (nscale (3 / 10) ori_cur.Up)
  let b2 := nsub (nsub (some ori_cur.origin) ori_cur.Right) (nscale (1 / 10) ori_cur.Up)
  let b3 := nsub (nadd (some ori_cur.origin) ori_cur.Right) (nscale (3 / 10) ori_cur.Up)
  let b4 := nsub (nadd (some ori_cur.origin) ori_cur.Right) (nscale (1 / 10) ori_cur.Up)
  -- left
  let vertices := make_triangle vertices a1 a2 b2 true
  let vertices := make_triangle vertices b2 b1 a1 true
  -- right
  let vertices := make_triangle vertices a3 a4 b4 true
  let vertices := make_triangle vertices b4 b3 a3 true
  -- top
  let vertices := make_triangle vertices a2 a4 b4 true
  let vertices := make_triangle vertices b4 b2 a2 true
  -- bottom
  let vertices := make_triangle vertices a1 a3 b3 true
  make_triangle vertices b3 b1 a1 true

/-- The first loop of `Track::create_track` (track.hpp:161-177): the control points are
twice the running sums of the loaded points, started at `(-2, 0, -2)`. -/
def loadControlPoints (currentpos : Vec3 K) (controlPoints : List (Vec3 K)) :
    List (Vec3 K) → List (Vec3 K)
  | [] => controlPoints
  | pt :: rest =>
    loadControlPoints (currentpos + pt) (controlPoints ++ [(2 : K) • (currentpos + pt)]) rest

/-- The sampling loop `for (u; u < temp - 3; u += step)` of `Track::create_track`
(track.hpp:192-200) with `bound = temp - 3`; it returns the last frame and the vertices.
The result is `none` when an access to the control points fails, and when the step is not
positive, in which case the loop does not end. -/
def railLoop [FloorRing K] (rsqrt : K → K) (controlPoints : List (Vec3 K)) (bound step : K) (u : K)
    (current : Orientation K) (vertices : List (Vertex K)) :
    Option (Orientation K × List (Vertex K)) :=
  if hu : u < bound then
    if hstep : 0 < step then
      match get_point controlPoints u with
      | none => none
      | some p =>
        let future := propagate rsqrt current p
        railLoop rsqrt controlPoints bound step (u + step) future
          (makeRailPart vertices current future)
    else none
  else some (current, vertices)
termination_by (⌈(bound - u) / step⌉).toNat
decreasing_by
  have e : (bound - (u + step)) / step = (bound - u) / step - 1 := by
    field_simp
    ring
  have hpos : 0 < ⌈(bound - u) / step⌉ := Int.ceil_pos.mpr (div_pos (sub_pos.mpr hu) hstep)
  rw [e, Int.ceil_sub_one]
  omega

/-- The number of times the body of `for (u; u < bound; u += step)` runs, that is the number
of sampled segments; `0` for a step that is not positive. -/
def sampledSegments [FloorRing K] (bound step : K) (u : K) : Nat :=
  if hu : u < bound then
    if hstep : 0 < step then sampledSegments bound step (u + step) + 1 else 0
  else 0
termination_by (⌈(bound - u) / step⌉).toNat
decreasing_by
  have e : (bound - (u + step)) / step = (bound - u) / step - 1 := by
    field_simp
    ring
  have hpos : 0 < ⌈(bound - u) / step⌉ := Int.ceil_pos.mpr (div_pos (sub_pos.mpr hu) hstep)
  rw [e, Int.ceil_sub_one]
  omega

/-- The function `Track::create_track` (track.hpp:145-201) for the loaded points `points`, with the first
sample `u0` and the sampling step `step`: the control points and the vertices. -/
def create_trackWith [FloorRing K] (rsqrt : K → K) (u0 step : K) (points : List (Vec3 K)) :
    Option (List (Vec3 K) × List (Vertex K)) := do
  let controlPoints := loadControlPoints ⟨-2, 0, -2⟩ [] points
  let origin ← controlPoints[0]?
  let current := trackSeed origin
  let temp : Int := controlPoints.length
  let (_, vertices) ← railLoop rsqrt controlPoints ((temp - 3 : Int) : K) step u0 current []
  pure (controlPoints, vertices)

/-- The function `Track::create_track` with the constants of the code: first sample `0.10f`, step `0.1`. -/
def create_track [FloorRing K] (rsqrt : K → K) (points : List (Vec3 K)) :
    Option (List (Vec3 K) × List (Vertex K)) :=
  create_trackWith rsqrt (1 / 10) (1 / 10) points

end Mesh

/-! ## The on-track camera: Camera::ProcessTrackMovement -/

section CameraDefs

variable {K : Type} [LinearOrderedField K]

/-- The fields of `class Camera` (camera.hpp:33-57).  `Position` is finite: on the track it
is `(0,0,0)` or a value of `get_point`. -/
structure Camera (K : Type) where
  Position : Vec3 K
  Front : NVec3 K
  Up : NVec3 K
  Right : NVec3 K
  WorldUp : Vec3 K
  prevPosition : Vec3 K
  prevFront : NVec3 K
  prevUp : NVec3 K
  prevRight : NVec3 K
  Yaw : K
  Pitch : K
  MovementSpeed : K
  MouseSensitivity : K
  Zoom : K
  u : K
  onTrack : Bool

/-- The constant `heightMax = 25.0f` (camera.hpp:56). -/
def heightMax : K := 25

/-- The constant `gravity = 9.8f` (camera.hpp:57). -/
def gravity : K := 49 / 5

/-- The result of running a loop with a bound on the number of iterations: the loop
returned, or the bound was reached with the loop still running, or an access to the control
points failed. -/
inductive Outcome (α : Type) where
  | returned (a : α)
  | outOfFuel
  | failed

/-- The function `Camera::get_distance` (camera.hpp:98-100). -/
def get_distance (sqrt : K → K) (PointA PointB : Vec3 K) : K :=
  sqrt ((PointB.x - PointA.x) ^ 2 + (PointB.y - PointA.y) ^ 2 + (PointB.z - PointA.z) ^ 2)

/-- The square root of a float: NaN (`none`) for a negative argument. -/
def nsqrt (sqrt : K → K) (x : K) : Option K := if x < 0 then none else some (sqrt x)

/-- The value of `track.controlPoints.size() - 3`, computed in the unsigned 64-bit type
`size_t`. -/
def trackBound (n : Nat) : Nat := (n + 2 ^ 64 - 3) % 2 ^ 64

/-- The frame of the camera as an `Orientation`, with `Position` as origin. -/
def Camera.frame (c : Camera K) : Orientation K :=
  { Front := c.Front, Up := c.Up, Right := c.Right, origin := c.Position }

/-- The assignments of the Off-track branch (camera.hpp:109-118). -/
def enterTrack (c : Camera K) : Camera K :=
  { c with
    u := 0
    Up := some ⟨0, 1, 0⟩
    Front := some ⟨0, 0, 1⟩
    Right := some ⟨1, 0, 0⟩
    Position := ⟨0, 0, 0⟩
    prevUp := some ⟨0, 1, 0⟩
    prevFront := some ⟨0, 0, 1⟩
    prevRight := some ⟨1, 0, 0⟩
    prevPosition := ⟨0, 0, 0⟩
    onTrack := true }

/-- The snapshot `prevUp = Up; prevFront = Front; prevRight = Right; prevPosition =
Position` (camera.hpp:122-125 and 143-146). -/
def snapshot (c : Camera K) : Camera K :=
  { c with prevUp := c.Up, prevFront := c.Front, prevRight := c.Right,
           prevPosition := c.Position }

/-- The lap reset (camera.hpp:134-138). -/
def lapReset (c : Camera K) : Camera K :=
  { c with
    u := 1
    Up := some ⟨0, 1, 0⟩
    Position := ⟨0, 0, 0⟩
    Front := some ⟨0, 0, 1⟩
    Right := some ⟨1, 0, 0⟩ }

variable [FloorRing K]

/-- One run of the body of `while (distance > 0)` (camera.hpp:133-158), from the remaining
budget `distance` and the camera `c`: the new budget and camera, or `none` when an access
to the control points fails. -/
def microStep (sqrt rsqrt : K → K) (controlPoints : List (Vec3 K)) (distance : K)
    (c : Camera K) : Option (K × Camera K) :=
  if ((trackBound controlPoints.length : Nat) : K) < c.u then
    some (distance, lapReset c)
  else
    let c := snapshot c
    let u := c.u + 1 / 200
    match get_point controlPoints u with
    | none => none
    | some p =>
      let front : NVec3 K := normalize rsqrt (p - c.prevPosition)
      let right : NVec3 K := (nlift2 Vec3.cross c.prevUp front).bind (normalize rsqrt)
      let up : NVec3 K := (nlift2 Vec3.cross front right).bind (normalize rsqrt)
      let c := { c with u := u, Position := p, Front := front, Right := right, Up := up }
      some (distance - get_distance sqrt c.prevPosition c.Position, c)

/-- The loop `while (distance > 0)` (camera.hpp:131-159), run for at most `fuel` micro-steps. -/
def budgetLoop (sqrt rsqrt : K → K) (controlPoints : List (Vec3 K)) :
    Nat → K → Camera K → Outcome (K × Camera K)
  | fuel, distance, c =>
    if 0 < distance then
      match fuel with
      | 0 => Outcome.outOfFuel
      | fuel + 1 =>
        match microStep sqrt rsqrt controlPoints distance c with
        | none => Outcome.failed
        | some (distance, c) => budgetLoop sqrt rsqrt controlPoints fuel distance c
    else Outcome.returned (distance, c)

/-- The function `Camera::ProcessTrackMovement` (camera.hpp:103-161), with at most `fuel` micro-steps. -/
def ProcessTrackMovement (sqrt rsqrt : K → K) (fuel : Nat) (deltaTime : K)
    (controlPoints : List (Vec3 K)) (c : Camera K) : Outcome (Camera K) :=
  if c.onTrack = false then Outcome.returned (enterTrack c)
  else
    let c := snapshot c
    match nsqrt sqrt (2 * gravity * (heightMax - c.Position.y)) with
    | none => Outcome.returned c
    | some velocity =>
      let distance := velocity * deltaTime / 4
      match budgetLoop sqrt rsqrt controlPoints fuel distance c with
      | Outcome.returned (_, c) => Outcome.returned c
      | Outcome.outOfFuel => Outcome.outOfFuel
      | Outcome.failed => Outcome.failed

/-- A camera with the defaults of the constructor (camera.hpp:60-67): yaw -90, pitch 0,
position `(0,0,0)`, world up `(0,1,0)`, and the vectors `updateCameraVectors` derives from
them; the fields the constructor leaves unset are 0. -/
def freshCamera : Camera K :=
  { Position := ⟨0, 0, 0⟩
    Front := some ⟨0, 0, -1⟩
    Up := some ⟨0, 1, 0⟩
    Right := some ⟨1, 0, 0⟩
    WorldUp := ⟨0, 1, 0⟩
    prevPosition := ⟨0, 0, 0⟩
    prevFront := some ⟨0, 0, 0⟩
    prevUp := some ⟨0, 0, 0⟩
    prevRight := some ⟨0, 0, 0⟩
    Yaw := -90
    Pitch := 0
    MovementSpeed := 5
    MouseSensitivity := 1 / 10
    Zoom := 45
    u := 0
    onTrack := false }

end CameraDefs

/-! ## Further definitions: blend weights, budget, free camera, track construction, ribbon -/

section MoreDefs

variable {K : Type} [LinearOrderedField K]

/-- The four scalar weights that `Track::interpolate` (track.hpp:134) puts on `pointA`,
`pointB`, `pointC` and `pointD`. -/
def blendWeights (tau u : K) : K × K × K × K :=
  ((-tau) * u + 2 * tau * u * u - tau * u * u * u,
   1 + (tau - 3) * u * u + (2 - tau) * u * u * u,
   tau * u + (3 - 2 * tau) * u * u + (tau - 2) * u * u * u,
   (-tau) * u * u + tau * u * u * u)

/-- The local variable `distance` of `Camera::ProcessTrackMovement` before the loop
(camera.hpp:127-129): NaN (`none`) when the square root is taken of a negative number. -/
def distanceBudget (sqrt : K → K) (deltaTime : K) (c : Camera K) : Option K :=
  (nsqrt sqrt (2 * gravity * (heightMax - c.Position.y))).map
    (fun velocity => velocity * deltaTime / 4)

/-- The budget as the specification writes it, with the height difference clamped at 0. -/
def clampedBudget (sqrt : K → K) (deltaTime : K) (c : Camera K) : K :=
  sqrt (2 * gravity * max 0 (heightMax - c.Position.y)) * deltaTime / 4

/-- The function `Camera::updateCameraVectors` (camera.hpp:199-210); `cos`, `sin` and
`radians` stand for the library functions of these names. -/
def updateCameraVectors (cos sin radians rsqrt : K → K) (c : Camera K) : Camera K :=
  let front : Vec3 K :=
    ⟨cos (radians c.Yaw) * cos (radians c.Pitch), sin (radians c.Pitch),
      sin (radians c.Yaw) * cos (radians c.Pitch)⟩
  let Front : NVec3 K := normalize rsqrt front
  let Right : NVec3 K := (nlift2 Vec3.cross Front (some c.WorldUp)).bind (normalize rsqrt)
  let Up : NVec3 K := (nlift2 Vec3.cross Right Front).bind (normalize rsqrt)
  { c with Front := Front, Right := Right, Up := Up }

/-- The function `Camera::ProcessMouseMovement` (camera.hpp:164-183). -/
def ProcessMouseMovement (cos sin radians rsqrt : K → K) (xoffset yoffset : K)
    (constrainPitch : Bool) (c : Camera K) : Camera K :=
  let xoffset := xoffset * c.MouseSensitivity
  let yoffset := yoffset * c.MouseSensitivity
  let c := { c with Yaw := c.Yaw + xoffset, Pitch := c.Pitch + yoffset }
  let c :=
    if constrainPitch then
      let c := if c.Pitch > 89 then { c with Pitch := 89 } else c
      if c.Pitch < -89 then { c with Pitch := -89 } else c
    else c
  updateCameraVectors cos sin radians rsqrt c

/-- Successive calls of `Camera::ProcessMouseMovement` with `constrainPitch = true`, one for
each pair of offsets. -/
def mouseMoves (cos sin radians rsqrt : K → K) : List (K × K) → Camera K → Camera K
  | [], c => c
  | (xoffset, yoffset) :: rest, c =>
    mouseMoves cos sin radians rsqrt rest
      (ProcessMouseMovement cos sin radians rsqrt xoffset yoffset true c)

/-- The function `Camera::ProcessMouseScroll` (camera.hpp:187-195). -/
def ProcessMouseScroll (yoffset : K) (c : Camera K) : Camera K :=
  let c := if c.Zoom ≥ 1 ∧ c.Zoom ≤ 45 then { c with Zoom := c.Zoom - yoffset } else c
  let c := if c.Zoom ≤ 1 then { c with Zoom := 1 } else c
  if c.Zoom ≥ 45 then { c with Zoom := 45 } else c

/-- The value of `x` clamped to the interval `[lo, hi]`. -/
def clamp (lo hi x : K) : K := max lo (min hi x)

/-- The data members of `class Track` that the constructor fills (track.hpp:38-41). -/
structure Track (K : Type) where
  controlPoints : List (Vec3 K)
  vertices : List (Vertex K)

/-- The result of running the constructor `Track::Track`: the track was built, or
`vertices.at(i)` threw `std::out_of_range`, or the behaviour is undefined (an access
outside `controlPoints`). -/
inductive Construction (α : Type) where
  | built (t : α)
  | outOfRange (i : Nat)
  | undefined

/-- The loop `for (int i = 0; i < 24; i++) printf(.., vertices.at(i) ..)` of the constructor
(track.hpp:58-60), with `n` iterations left from index `i`: the index at which
`vertices.at` throws, if any. -/
def printVertices (vertices : List (Vertex K)) : Nat → Nat → Option Nat
  | 0, _ => none
  | n + 1, i =>
    match vertices[i]? with
    | none => some i
    | some _ => printVertices vertices n (i + 1)

/-- The constructor `Track::Track` (track.hpp:50-63) on the points the loader yields. -/
def Track.construct [FloorRing K] (rsqrt : K → K) (points : List (Vec3 K)) :
    Construction (Track K) :=
  match create_track rsqrt points with
  | none => Construction.undefined
  | some (controlPoints, vertices) =>
    match printVertices vertices 24 0 with
    | some i => Construction.outOfRange i
    | none => Construction.built { controlPoints := controlPoints, vertices := vertices }

/-- The states of the camera that can be reached on the track `controlPoints`: the state
after the Off-track to On-track transition, and every state that a micro-step of the loop
or a returning call of `ProcessTrackMovement` leads to from a reachable state. -/
inductive Reachable [FloorRing K] (sqrt rsqrt : K → K) (controlPoints : List (Vec3 K)) :
    Camera K → Prop where
  | enter (c : Camera K) : c.onTrack = false → Reachable sqrt rsqrt controlPoints (enterTrack c)
  | micro (c c' : Camera K) (d d' : K) : Reachable sqrt rsqrt controlPoints c →
      microStep sqrt rsqrt controlPoints d c = some (d', c') →
      Reachable sqrt rsqrt controlPoints c'
  | call (c c' : Camera K) (fuel : Nat) (deltaTime : K) :
      Reachable sqrt rsqrt controlPoints c →
      ProcessTrackMovement sqrt rsqrt fuel deltaTime controlPoints c = Outcome.returned c' →
      Reachable sqrt rsqrt controlPoints c'

/-- The corner `origin - Right - 0.3 * Up` of the cross-section at a frame (`a1`, `b1`). -/
def railCorner1 (o : Orientation K) : NVec3 K :=
  nsub (nsub (some o.origin) o.Right) (nscale (3 / 10) o.Up)

/-- The corner `origin - Right - 0.1 * Up` of the cross-section at a frame (`a2`, `b2`). -/
def railCorner2 (o : Orientation K) : NVec3 K :=
  nsub (nsub (some o.origin) o.Right) (nscale (1 / 10) o.Up)

/-- The corner `origin + Right - 0.3 * Up` of the cross-section at a frame (`a3`, `b3`). -/
def railCorner3 (o : Orientation K) : NVec3 K :=
  nsub (nadd (some o.origin) o.Right) (nscale (3 / 10) o.Up)

/-- The corner `origin + Right - 0.1 * Up` of the cross-section at a frame (`a4`, `b4`). -/
def railCorner4 (o : Orientation K) : NVec3 K :=
  nsub (nadd (some o.origin) o.Right) (nscale (1 / 10) o.Up)

/-- The vertices of the rail segments between the consecutive frames of a list. -/
def ribbon : List (Orientation K) → List (Vertex K)
  | f0 :: f1 :: rest => makeRailPart [] f0 f1 ++ ribbon (f1 :: rest)
  | _ => []

/-- The centre of the 8 corner points of the segment between two frames. -/
def segmentCentre (ori_prev ori_cur : Orientation K) : NVec3 K :=
  nscale (1 / 8)
    (nadd (nadd (nadd (railCorner1 ori_prev) (railCorner2 ori_prev))
        (nadd (railCorner3 ori_prev) (railCorner4 ori_prev)))
      (nadd (nadd (railCorner1 ori_cur) (railCorner2 ori_cur))
        (nadd (railCorner3 ori_cur) (railCorner4 ori_cur))))

/-- The dot product of the normal stored on the `k`-th triangle of the segment between two
frames (vertices `3k`, `3k+1`, `3k+2` of `makeRailPart`) with the vector from the centre of
the segment to the centroid of the triangle; `none` when a vector involved is NaN or `k` is
not below 8.  The normal faces outward when this number is positive. -/
def triangleOutward (ori_prev ori_cur : Orientation K) (k : Nat) : Option K :=
  match (makeRailPart [] ori_prev ori_cur)[3 * k]?, (makeRailPart [] ori_prev ori_cur)[3 * k + 1]?,
    (makeRailPart [] ori_prev ori_cur)[3 * k + 2]? with
  | some a, some b, some c =>
    match a.Normal, a.Position, b.Position, c.Position, segmentCentre ori_prev ori_cur with
    | some n, some pa, some pb, some pc, some centre =>
      some (Vec3.dot n ((1 / 3 : K) • (pa + pb + pc) - centre))
    | _, _, _, _, _ => none
  | _, _, _ => none

end MoreDefs

section StraightDefs

variable {K : Type} [LinearOrderedField K]

/-- Five points as a loader may yield them; `create_track` turns them into `straightTrack`. -/
def straightPoints : List (Vec3 K) :=
  [⟨2, 0, 2⟩, ⟨1 / 2, 0, 0⟩, ⟨1 / 2, 0, 0⟩, ⟨1 / 2, 0, 0⟩, ⟨1 / 2, 0, 0⟩]

/-- A straight track: five control points on the x axis, one unit apart. -/
def straightTrack : List (Vec3 K) :=
  [⟨0, 0, 0⟩, ⟨1, 0, 0⟩, ⟨2, 0, 0⟩, ⟨3, 0, 0⟩, ⟨4, 0, 0⟩]

/-- The frame that the propagation yields along the straight track, at the origin
`(x, 0, 0)`: `Front = (1,0,0)`, `Up = (0,1,0)`, `Right = (0,0,-1)`. -/
def straightFrame (x : K) : Orientation K :=
  { Front := some ⟨1, 0, 0⟩, Up := some ⟨0, 1, 0⟩, Right := some ⟨0, 0, -1⟩, origin := ⟨x, 0, 0⟩ }

end StraightDefs

section ScenarioDefs

variable {K : Type} [LinearOrderedField K]

/-- An on-track camera at the height 26, above `heightMax`. -/
def highCamera : Camera K :=
  { enterTrack freshCamera with Position := ⟨0, 26, 0⟩ }

/-- Three control points, one fewer than a Catmull-Rom window. -/
def shortTrack : List (Vec3 K) := [⟨0, 0, 0⟩, ⟨1, 0, 0⟩, ⟨1, 0, 1⟩]

end ScenarioDefs

/-! ## Theorems: components of vectors -/

namespace Vec3

variable {K : Type} [LinearOrderedField K]

@[simp] theorem zero_x : (0 : Vec3 K).x = 0 := rfl
@[simp] theorem zero_y : (0 : Vec3 K).y = 0 := rfl
@[simp] theorem zero_z : (0 : Vec3 K).z = 0 := rfl
@[simp] theorem add_x (a b : Vec3 K) : (a + b).x = a.x + b.x := rfl
@[simp] theorem add_y (a b : Vec3 K) : (a + b).y = a.y + b.y := rfl
@[simp] theorem add_z (a b : Vec3 K) : (a + b).z = a.z + b.z := rfl
@[simp] theorem sub_x (a b : Vec3 K) : (a - b).x = a.x - b.x := rfl
@[simp] theorem sub_y (a b : Vec3 K) : (a - b).y = a.y - b.y := rfl
@[simp] theorem sub_z (a b : Vec3 K) : (a - b).z = a.z - b.z := rfl
@[simp] theorem neg_x (a : Vec3 K) : (-a).x = -a.x := rfl
@[simp] theorem neg_y (a : Vec3 K) : (-a).y = -a.y := rfl
@[simp] theorem neg_z (a : Vec3 K) : (-a).z = -a.z := rfl
@[simp] theorem smul_x (c : K) (a : Vec3 K) : (c • a).x = c * a.x := rfl
@[simp] theorem smul_y (c : K) (a : Vec3 K) : (c • a).y = c * a.y := rfl
@[simp] theorem smul_z (c : K) (a : Vec3 K) : (c • a).z = c * a.z := rfl

end Vec3

/-! ## Theorems: the spline evaluator -/

section SplineTheorems

variable {K : Type} [LinearOrderedField K]

theorem interpolate_half (A B C D : Vec3 K) (t : K) :
    interpolate A B C D (1 / 2) t = catmullRomHalf A B C D t := by
  ext <;> simp [interpolate, catmullRomHalf] <;> ring

theorem interpolate_zero (A B C D : Vec3 K) (tau : K) : interpolate A B C D tau 0 = B := by
  ext <;> simp [interpolate]

theorem interpolate_one (A B C D : Vec3 K) (tau : K) : interpolate A B C D tau 1 = C := by
  ext <;> simp [interpolate] <;> ring

theorem interpolate_same (P : Vec3 K) (tau u : K) : interpolate P P P P tau u = P := by
  ext <;> simp [interpolate] <;> ring

variable [FloorRing K]

theorem modfInt_of_nonneg {s : K} (hs : 0 ≤ s) : modfInt s = ⌊s⌋ := by
  simp [modfInt, hs]

theorem modfInt_nonneg {s : K} (hs : 0 ≤ s) : 0 ≤ modfInt s := by
  rw [modfInt_of_nonneg hs]; exact Int.floor_nonneg.mpr hs

theorem pointIndex_lt {n : Nat} (hn : 0 < n) (i k : Int) : pointIndex n i k < n :=
  Nat.mod_lt _ hn

theorem pointIndex_of_nonneg (n : Nat) {i k : Int} (h : 0 ≤ i + k) :
    pointIndex n i k = ((i + k) % (n : Int)).toNat := by
  obtain ⟨m, hm⟩ := Int.eq_ofNat_of_zero_le h
  simp only [pointIndex, hm, Int.natAbs_ofNat]
  rw [← Int.natCast_mod, Int.toNat_natCast]

/-- With at least one control point no access of `get_point` is out of range, so it returns
the blend of the four selected points. -/
theorem get_point_eq_some (cps : List (Vec3 K)) (s : K) (hn : 0 < cps.length) :
    ∃ pA pB pC pD,
      cps[pointIndex cps.length (modfInt s) 0]? = some pA ∧
      cps[pointIndex cps.length (modfInt s) 1]? = some pB ∧
      cps[pointIndex cps.length (modfInt s) 2]? = some pC ∧
      cps[pointIndex cps.length (modfInt s) 3]? = some pD ∧
      get_point cps s = some (interpolate pA pB pC pD (1 / 2) (modfFrac s)) := by
  have h0 := pointIndex_lt hn (modfInt s) 0
  have h1 := pointIndex_lt hn (modfInt s) 1
  have h2 := pointIndex_lt hn (modfInt s) 2
  have h3 := pointIndex_lt hn (modfInt s) 3
  refine ⟨cps[pointIndex cps.length (modfInt s) 0], cps[pointIndex cps.length (modfInt s) 1],
    cps[pointIndex cps.length (modfInt s) 2], cps[pointIndex cps.length (modfInt s) 3],
    List.getElem?_eq_getElem h0, List.getElem?_eq_getElem h1, List.getElem?_eq_getElem h2,
    List.getElem?_eq_getElem h3, ?_⟩
  simp [get_point, List.getElem?_eq_getElem, h0, h1, h2, h3]

theorem modfInt_natCast (n : Nat) : modfInt (n : K) = (n : Int) := by
  rw [modfInt_of_nonneg (Nat.cast_nonneg n)]; exact Int.floor_natCast n

theorem modfFrac_natCast (n : Nat) : modfFrac (n : K) = 0 := by
  simp [modfFrac, modfInt_natCast]

theorem modfInt_add_natCast {s : K} (hs : 0 ≤ s) (n : Nat) :
    modfInt (s + (n : K)) = modfInt s + (n : Int) := by
  rw [modfInt_of_nonneg hs, modfInt_of_nonneg (add_nonneg hs (Nat.cast_nonneg n)),
    Int.floor_add_nat]

theorem modfFrac_add_natCast {s : K} (hs : 0 ≤ s) (n : Nat) :
    modfFrac (s + (n : K)) = modfFrac s := by
  simp only [modfFrac, modfInt_add_natCast hs]; push_cast; ring

theorem pointIndex_add_length (n : Nat) {i k : Int} (hi : 0 ≤ i) (hk : 0 ≤ k) :
    pointIndex n (i + (n : Int)) k = pointIndex n i k := by
  rw [pointIndex_of_nonneg n (by omega), pointIndex_of_nonneg n (by omega)]
  congr 1
  rw [show i + (n : Int) + k = i + k + (n : Int) by ring, Int.add_emod_self]

/-- At an integer parameter `n` the evaluator returns the SECOND point of its window, the
control point of index `(n + 1) mod N`. -/
theorem get_point_natCast (cps : List (Vec3 K)) (n : Nat) (hn : 0 < cps.length) :
    get_point cps (n : K) = cps[(n + 1) % cps.length]? := by
  obtain ⟨pA, pB, pC, pD, -, hB, -, -, h⟩ := get_point_eq_some cps (n : K) hn
  rw [h, modfFrac_natCast, interpolate_zero, ← hB, modfInt_natCast]
  rfl

/-- Evaluation of `get_point` at `i + t` with `i` a natural number and `0 ≤ t < 1`, for a
list of four control points. -/
theorem get_point_four (a b c d : Vec3 K) (i : Nat) (t : K) (h0 : 0 ≤ t) (h1 : t < 1) :
    get_point [a, b, c, d] ((i : K) + t)
      = (do
          let pA ← [a, b, c, d][i % 4]?
          let pB ← [a, b, c, d][(i + 1) % 4]?
          let pC ← [a, b, c, d][(i + 2) % 4]?
          let pD ← [a, b, c, d][(i + 3) % 4]?
          pure (interpolate pA pB pC pD (1 / 2) t)) := by
  have hs : (0 : K) ≤ (i : K) + t := add_nonneg (Nat.cast_nonneg i) h0
  have hfl : modfInt ((i : K) + t) = (i : Int) := by
    rw [modfInt_of_nonneg hs, Int.floor_eq_iff]
    constructor
    · simpa using h0
    · simpa using h1
  have hfr : modfFrac ((i : K) + t) = t := by simp [modfFrac, hfl]
  have e0 : pointIndex 4 (i : Int) 0 = i % 4 := by simp [pointIndex]
  have e1 : pointIndex 4 (i : Int) 1 = (i + 1) % 4 := by
    simp only [pointIndex]; congr 1
  have e2 : pointIndex 4 (i : Int) 2 = (i + 2) % 4 := by
    simp only [pointIndex]; congr 1
  have e3 : pointIndex 4 (i : Int) 3 = (i + 3) % 4 := by
    simp only [pointIndex]; congr 1
  simp only [get_point, hfl, hfr, List.length_cons, List.length_nil, e0, e1, e2, e3]

/-- C1, the code at the failing input: on the unit-square loop `get_point(0)` is
`controlPoints[1] = (1,0,0)`, the second point of the window, and not
`controlPoints[0 mod 4] = (0,0,0)`. -/
theorem get_point_zero_unitSquare :
    get_point unitSquare ((0 : Nat) : ℚ) = some ⟨1, 0, 0⟩ ∧
      unitSquare[0 % unitSquare.length]? = some ⟨0, 0, 0⟩ ∧
      get_point unitSquare ((0 : Nat) : ℚ) ≠ unitSquare[0 % unitSquare.length]? := by
  have h : get_point unitSquare ((0 : Nat) : ℚ) = some ⟨1, 0, 0⟩ := by
    rw [get_point_natCast unitSquare 0 (by decide)]; rfl
  refine ⟨h, rfl, ?_⟩
  rw [h]
  decide

/-- C2: closed-loop periodicity.  With at least 4 control points and `s ≥ 0`,
`get_point(s + N) = get_point(s)`, where `N` is the number of control points. -/
theorem get_point_add_length (cps : List (Vec3 K)) (s : K) (hN : 4 ≤ cps.length)
    (hs : 0 ≤ s) :
    ∃ p, get_point cps s = some p ∧ get_point cps (s + (cps.length : K)) = some p := by
  have hi := modfInt_nonneg hs
  obtain ⟨pA, pB, pC, pD, -, -, -, -, h⟩ := get_point_eq_some cps s (by omega)
  refine ⟨_, h, ?_⟩
  rw [← h]
  simp only [get_point, modfInt_add_natCast hs, modfFrac_add_natCast hs]
  rw [pointIndex_add_length _ hi (le_refl 0), pointIndex_add_length _ hi Int.one_nonneg,
    pointIndex_add_length _ hi (by norm_num), pointIndex_add_length _ hi (by norm_num)]

/-- C2 on the unit-square loop: `get_point(4.5) = get_point(0.5)`. -/
theorem get_point_add_length_unitSquare :
    4 ≤ unitSquare.length ∧ (0 : ℚ) ≤ 1 / 2 ∧
      get_point unitSquare (9 / 2) = get_point unitSquare (1 / 2) := by
  refine ⟨by decide, by norm_num, ?_⟩
  obtain ⟨p, h1, h2⟩ := get_point_add_length unitSquare (1 / 2) (by decide) (by norm_num)
  have e : (1 / 2 : ℚ) + ((unitSquare.length : Nat) : ℚ) = 9 / 2 := by
    norm_num [unitSquare]
  rw [e] at h2
  rw [h1, h2]

/-- C3: with at least 4 control points and `s ≥ 0`, writing `i = floor s` and `t = s - i`,
`t` lies in `[0,1)` and `get_point(s)` is the tension-0.5 Catmull-Rom blend of the control
points of index `(i + k) mod N`, `k = 0..3`. -/
theorem get_point_eq_catmullRomHalf (cps : List (Vec3 K)) (s : K) (hN : 4 ≤ cps.length)
    (hs : 0 ≤ s) :
    0 ≤ s - (⌊s⌋ : K) ∧ s - (⌊s⌋ : K) < 1 ∧
      ∃ P0 P1 P2 P3,
        cps[((⌊s⌋ + 0) % (cps.length : Int)).toNat]? = some P0 ∧
        cps[((⌊s⌋ + 1) % (cps.length : Int)).toNat]? = some P1 ∧
        cps[((⌊s⌋ + 2) % (cps.length : Int)).toNat]? = some P2 ∧
        cps[((⌊s⌋ + 3) % (cps.length : Int)).toNat]? = some P3 ∧
        get_point cps s = some (catmullRomHalf P0 P1 P2 P3 (s - (⌊s⌋ : K))) := by
  have hfl : 0 ≤ ⌊s⌋ := Int.floor_nonneg.mpr hs
  refine ⟨sub_nonneg.mpr (Int.floor_le s), by linarith [Int.lt_floor_add_one s], ?_⟩
  obtain ⟨pA, pB, pC, pD, hA, hB, hC, hD, h⟩ := get_point_eq_some cps s (by omega)
  rw [modfInt_of_nonneg hs] at hA hB hC hD
  rw [pointIndex_of_nonneg _ (by omega)] at hA hB hC hD
  refine ⟨pA, pB, pC, pD, hA, hB, hC, hD, ?_⟩
  rw [h, interpolate_half, modfFrac, modfInt_of_nonneg hs]

/-- C3 on the unit-square loop at `s = 1/2`. -/
theorem get_point_eq_catmullRomHalf_unitSquare :
    4 ≤ unitSquare.length ∧ (0 : ℚ) ≤ 1 / 2 ∧
      get_point unitSquare (1 / 2)
        = some (catmullRomHalf ⟨0, 0, 0⟩ ⟨1, 0, 0⟩ ⟨1, 0, 1⟩ ⟨0, 0, 1⟩ (1 / 2)) := by
  refine ⟨by decide, by norm_num, ?_⟩
  obtain ⟨-, -, P0, P1, P2, P3, h0, h1, h2, h3, h⟩ :=
    get_point_eq_catmullRomHalf unitSquare (1 / 2) (by decide) (by norm_num)
  have hfl : ⌊(1 / 2 : ℚ)⌋ = 0 := by
    rw [Int.floor_eq_iff]; constructor <;> norm_num
  rw [hfl] at h0 h1 h2 h3 h
  simp [unitSquare] at h0 h1 h2 h3
  subst h0 h1 h2 h3
  simpa using h

/-- C5, the code at the failing input: on the unit-square loop `get_point(0.5)` is
`(9/8, 0, 1/2)`, a point of the piece that runs from `points[1] = (1,0,0)` (reached at
`s = 0`) to `points[2] = (1,0,1)` (reached at `s = 1`); it is not on the piece joining
`points[0]` to `points[1]`, whose `z` coordinate is never positive; and `get_point(1.5)` is
`(1/2, 0, 9/8)`, between `points[2]` and `points[3]`. -/
theorem get_point_half_unitSquare :
    get_point unitSquare (1 / 2) = some ⟨9 / 8, 0, 1 / 2⟩ ∧
      get_point unitSquare 0 = unitSquare[1]? ∧
      get_point unitSquare 1 = unitSquare[2]? ∧
      (∀ t : ℚ, 0 ≤ t → t ≤ 1 →
        (interpolate (⟨0, 0, 1⟩ : Vec3 ℚ) ⟨0, 0, 0⟩ ⟨1, 0, 0⟩ ⟨1, 0, 1⟩ (1 / 2) t).z ≤ 0) ∧
      get_point unitSquare (3 / 2) = some ⟨1 / 2, 0, 9 / 8⟩ := by
  refine ⟨?_, ?_, ?_, ?_, ?_⟩
  · have h := get_point_four (⟨0, 0, 0⟩ : Vec3 ℚ) ⟨1, 0, 0⟩ ⟨1, 0, 1⟩ ⟨0, 0, 1⟩ 0 (1 / 2)
      (by norm_num) (by norm_num)
    simp only [Nat.cast_zero, zero_add] at h
    rw [unitSquare, h]
    simp [interpolate, Vec3.ext_iff]
    norm_num
  · have h := get_point_natCast unitSquare 0 (by decide)
    simpa using h
  · have h := get_point_natCast unitSquare 1 (by decide)
    simpa using h
  · intro t h0 h1
    simp [interpolate]
    nlinarith [mul_nonneg h0 (sub_nonneg.mpr h1)]
  · have h := get_point_four (⟨0, 0, 0⟩ : Vec3 ℚ) ⟨1, 0, 0⟩ ⟨1, 0, 1⟩ ⟨0, 0, 1⟩ 1 (1 / 2)
      (by norm_num) (by norm_num)
    rw [show ((1 : Nat) : ℚ) + 1 / 2 = 3 / 2 by norm_num] at h
    rw [unitSquare, h]
    simp [interpolate, Vec3.ext_iff]
    norm_num

/-- On a track whose control points all lie at `P` the evaluator returns `P` everywhere. -/
theorem get_point_flatTrack (P : Vec3 K) (s : K) : get_point (flatTrack P) s = some P := by
  obtain ⟨pA, pB, pC, pD, hA, hB, hC, hD, h⟩ :=
    get_point_eq_some (flatTrack P) s (by simp [flatTrack])
  have hmem : ∀ (i : Nat) (q : Vec3 K), (flatTrack P)[i]? = some q → q = P := by
    intro i q hq
    have := List.getElem?_mem hq
    simp [flatTrack] at this
    exact this
  rw [h, hmem _ _ hA, hmem _ _ hB, hmem _ _ hC, hmem _ _ hD, interpolate_same]

end SplineTheorems

/-! ## Theorems: smoothness of the Catmull-Rom segments -/

section Smoothness

theorem hasDerivAt_cubic (a b c d t : ℝ) :
    HasDerivAt (fun u : ℝ => a + b * u + c * u ^ 2 + d * u ^ 3)
      (b + 2 * c * t + 3 * d * t ^ 2) t := by
  have h1 : HasDerivAt (fun u : ℝ => u) 1 t := hasDerivAt_id t
  have h := (((h1.const_mul b).const_add a).add ((h1.pow 2).const_mul c)).add
    ((h1.pow 3).const_mul d)
  convert h using 1
  simp; ring

theorem hasVecDerivAt_interpolate (A B C D : Vec3 ℝ) (tau t : ℝ) :
    HasVecDerivAt (fun u => interpolate A B C D tau u)
      ((-tau + 4 * tau * t - 3 * tau * t ^ 2) • A
        + (2 * (tau - 3) * t + 3 * (2 - tau) * t ^ 2) • B
        + (tau + 2 * (3 - 2 * tau) * t + 3 * (tau - 2) * t ^ 2) • C
        + (-2 * tau * t + 3 * tau * t ^ 2) • D) t := by
  refine ⟨?_, ?_, ?_⟩
  · have h := hasDerivAt_cubic B.x (tau * (C.x - A.x))
      (2 * tau * A.x + (tau - 3) * B.x + (3 - 2 * tau) * C.x - tau * D.x)
      (-tau * A.x + (2 - tau) * B.x + (tau - 2) * C.x + tau * D.x) t
    convert h using 1
    · funext u; simp [interpolate]; ring
    · simp; ring
  · have h := hasDerivAt_cubic B.y (tau * (C.y - A.y))
      (2 * tau * A.y + (tau - 3) * B.y + (3 - 2 * tau) * C.y - tau * D.y)
      (-tau * A.y + (2 - tau) * B.y + (tau - 2) * C.y + tau * D.y) t
    convert h using 1
    · funext u; simp [interpolate]; ring
    · simp; ring
  · have h := hasDerivAt_cubic B.z (tau * (C.z - A.z))
      (2 * tau * A.z + (tau - 3) * B.z + (3 - 2 * tau) * C.z - tau * D.z)
      (-tau * A.z + (2 - tau) * B.z + (tau - 2) * C.z + tau * D.z) t
    convert h using 1
    · funext u; simp [interpolate]; ring
    · simp; ring

/-- C4: the curve of `Track::interpolate` is C1 across successive segments.  For five points
and any tension, the segment over `(P0,P1,P2,P3)` starts at `P1` and its polynomial at
`t = 1` is `P2`, where the segment over `(P1,P2,P3,P4)` starts; the derivative of the first
segment at `t = 1` and that of the next at `t = 0` are both `tau * (P3 - P1)`. -/
theorem interpolate_C1_continuous (P0 P1 P2 P3 P4 : Vec3 ℝ) (tau : ℝ) :
    interpolate P0 P1 P2 P3 tau 0 = P1 ∧
      interpolate P0 P1 P2 P3 tau 1 = P2 ∧
      interpolate P1 P2 P3 P4 tau 0 = P2 ∧
      HasVecDerivAt (fun u => interpolate P0 P1 P2 P3 tau u) (tau • (P3 - P1)) 1 ∧
      HasVecDerivAt (fun u => interpolate P1 P2 P3 P4 tau u) (tau • (P3 - P1)) 0 := by
  refine ⟨interpolate_zero _ _ _ _ _, interpolate_one _ _ _ _ _, interpolate_zero _ _ _ _ _,
    ?_, ?_⟩
  · have h := hasVecDerivAt_interpolate P0 P1 P2 P3 tau 1
    have e : ((-tau + 4 * tau * 1 - 3 * tau * 1 ^ 2) • P0
        + (2 * (tau - 3) * 1 + 3 * (2 - tau) * 1 ^ 2) • P1
        + (tau + 2 * (3 - 2 * tau) * 1 + 3 * (tau - 2) * 1 ^ 2) • P2
        + (-2 * tau * 1 + 3 * tau * 1 ^ 2) • P3) = tau • (P3 - P1) := by
      ext <;> simp <;> ring
    rw [e] at h
    exact h
  · have h := hasVecDerivAt_interpolate P1 P2 P3 P4 tau 0
    have e : ((-tau + 4 * tau * 0 - 3 * tau * 0 ^ 2) • P1
        + (2 * (tau - 3) * 0 + 3 * (2 - tau) * 0 ^ 2) • P2
        + (tau + 2 * (3 - 2 * tau) * 0 + 3 * (tau - 2) * 0 ^ 2) • P3
        + (-2 * tau * 0 + 3 * tau * 0 ^ 2) • P4) = tau • (P3 - P1) := by
      ext <;> simp <;> ring
    rw [e] at h
    exact h

end Smoothness


/-! ## Theorems: frame propagation -/

section FrameTheorems

variable {K : Type} [LinearOrderedField K]

theorem dot_self_nonneg (v : Vec3 K) : 0 ≤ Vec3.dot v v := by
  simp only [Vec3.dot]
  nlinarith [mul_self_nonneg v.x, mul_self_nonneg v.y, mul_self_nonneg v.z]

theorem dot_self_eq_zero {v : Vec3 K} (h : Vec3.dot v v = 0) : v = 0 := by
  simp only [Vec3.dot] at h
  have hx : v.x = 0 := by
    nlinarith [mul_self_nonneg v.x, mul_self_nonneg v.y, mul_self_nonneg v.z]
  have hy : v.y = 0 := by
    nlinarith [mul_self_nonneg v.x, mul_self_nonneg v.y, mul_self_nonneg v.z]
  have hz : v.z = 0 := by
    nlinarith [mul_self_nonneg v.x, mul_self_nonneg v.y, mul_self_nonneg v.z]
  ext <;> simp [hx, hy, hz]

theorem dot_self_pos {v : Vec3 K} (h : v ≠ 0) : 0 < Vec3.dot v v :=
  lt_of_le_of_ne (dot_self_nonneg v) (fun e => h (dot_self_eq_zero e.symm))

theorem dot_smul_smul (a b : K) (v w : Vec3 K) :
    Vec3.dot (a • v) (b • w) = a * b * Vec3.dot v w := by
  simp only [Vec3.dot, Vec3.smul_x, Vec3.smul_y, Vec3.smul_z]; ring

theorem cross_smul_right (b : K) (v w : Vec3 K) :
    Vec3.cross v (b • w) = b • Vec3.cross v w := by
  ext <;> simp [Vec3.cross] <;> ring

theorem dot_cross_right (v w : Vec3 K) : Vec3.dot w (Vec3.cross v w) = 0 := by
  simp only [Vec3.dot, Vec3.cross]; ring

theorem dot_cross_left (v w : Vec3 K) : Vec3.dot v (Vec3.cross v w) = 0 := by
  simp only [Vec3.dot, Vec3.cross]; ring

theorem dot_comm (v w : Vec3 K) : Vec3.dot v w = Vec3.dot w v := by
  simp only [Vec3.dot]; ring

theorem dot_cross_cross (v w : Vec3 K) :
    Vec3.dot (Vec3.cross v w) (Vec3.cross v w)
      = Vec3.dot v v * Vec3.dot w w - Vec3.dot v w ^ 2 := by
  simp only [Vec3.dot, Vec3.cross]; ring

theorem cross_cross_self (f r : Vec3 K) :
    Vec3.cross (Vec3.cross f r) f = Vec3.dot f f • r - Vec3.dot f r • f := by
  ext <;> simp [Vec3.cross, Vec3.dot] <;> ring

theorem cross_self_cross (f r : Vec3 K) :
    Vec3.cross f (Vec3.cross f r) = Vec3.dot f r • f - Vec3.dot f f • r := by
  ext <;> simp [Vec3.cross, Vec3.dot] <;> ring

theorem smul_ne_zero_vec {a : K} {v : Vec3 K} (ha : a ≠ 0) (hv : v ≠ 0) : a • v ≠ 0 := by
  intro h
  apply hv
  have hx := congrArg Vec3.x h
  have hy := congrArg Vec3.y h
  have hz := congrArg Vec3.z h
  simp only [Vec3.smul_x, Vec3.smul_y, Vec3.smul_z, Vec3.zero_x, Vec3.zero_y, Vec3.zero_z,
    mul_eq_zero] at hx hy hz
  ext
  · exact hx.resolve_left ha
  · exact hy.resolve_left ha
  · exact hz.resolve_left ha

theorem rsqrt_one {rsqrt : K → K} (h : IsInvSqrt rsqrt) : rsqrt 1 = 1 := by
  obtain ⟨hpos, hsq⟩ := h 1 one_pos
  nlinarith

/-- The normalisation of a non-zero vector is finite and of length 1. -/
theorem normalize_of_ne_zero {rsqrt : K → K} (h : IsInvSqrt rsqrt) {v : Vec3 K} (hv : v ≠ 0) :
    normalize rsqrt v = some (rsqrt (Vec3.dot v v) • v) ∧
      Vec3.dot (rsqrt (Vec3.dot v v) • v) (rsqrt (Vec3.dot v v) • v) = 1 ∧
      0 < rsqrt (Vec3.dot v v) := by
  have hpos := dot_self_pos hv
  obtain ⟨hr, hsq⟩ := h _ hpos
  refine ⟨?_, ?_, hr⟩
  · simp [normalize, ne_of_gt hpos]
  · rw [dot_smul_smul]; exact hsq

/-- The normalisation of the zero vector is a vector of NaN. -/
theorem normalize_zero (rsqrt : K → K) : normalize rsqrt (0 : Vec3 K) = none := by
  simp [normalize, Vec3.dot]

/-- The frame after a non-degenerate step: `Front` and `Right` are finite unit vectors,
orthogonal to each other, and `Up` is their cross product. -/
theorem propagate_frame {rsqrt : K → K} (h : IsInvSqrt rsqrt) (current : Orientation K)
    (p : Vec3 K) (hnd : NonDegenerate current p) :
    ∃ f r, (propagate rsqrt current p).Front = some f ∧
      (propagate rsqrt current p).Right = some r ∧
      (propagate rsqrt current p).Up = some (Vec3.cross f r) ∧
      (propagate rsqrt current p).origin = p ∧
      Vec3.dot f f = 1 ∧ Vec3.dot r r = 1 ∧ Vec3.dot f r = 0 := by
  obtain ⟨hp, up, hup, hcross⟩ := hnd
  have hd : p - current.origin ≠ 0 := by
    intro e
    apply hp
    have hx := congrArg Vec3.x e
    have hy := congrArg Vec3.y e
    have hz := congrArg Vec3.z e
    simp only [Vec3.sub_x, Vec3.sub_y, Vec3.sub_z, Vec3.zero_x, Vec3.zero_y, Vec3.zero_z,
      sub_eq_zero] at hx hy hz
    ext <;> assumption
  obtain ⟨hF, hFF, ha⟩ := normalize_of_ne_zero h hd
  set f := rsqrt (Vec3.dot (p - current.origin) (p - current.origin)) • (p - current.origin)
    with hf
  have hw : Vec3.cross up f ≠ 0 := by
    rw [hf, cross_smul_right]
    exact smul_ne_zero_vec (ne_of_gt ha) hcross
  obtain ⟨hR, hRR, -⟩ := normalize_of_ne_zero h hw
  set r := rsqrt (Vec3.dot (Vec3.cross up f) (Vec3.cross up f)) • Vec3.cross up f with hr
  have hfr : Vec3.dot f r = 0 := by
    have e : Vec3.dot f r
        = rsqrt (Vec3.dot (Vec3.cross up f) (Vec3.cross up f)) * Vec3.dot f (Vec3.cross up f) := by
      rw [hr]; simp only [Vec3.dot, Vec3.smul_x, Vec3.smul_y, Vec3.smul_z]; ring
    rw [e, dot_cross_right, mul_zero]
  have hcc : Vec3.dot (Vec3.cross f r) (Vec3.cross f r) = 1 := by
    rw [dot_cross_cross, hFF, hRR, hfr]; norm_num
  have hne : Vec3.cross f r ≠ 0 := by
    intro e
    rw [e] at hcc
    simp [Vec3.dot] at hcc
  have hU : normalize rsqrt (Vec3.cross f r) = some (Vec3.cross f r) := by
    rw [(normalize_of_ne_zero h hne).1, hcc, rsqrt_one h]
    congr 1
    ext <;> simp
  refine ⟨f, r, ?_, ?_, ?_, rfl, hFF, hRR, hfr⟩
  · simp only [propagate]; exact hF
  · simp only [propagate, hF, hup, nlift2, Option.bind]; exact hR
  · simp only [propagate, hF, hup, nlift2, Option.bind, hR]; exact hU

/-- A non-degenerate step yields an orthonormal frame. -/
theorem propagate_orthonormal {rsqrt : K → K} (h : IsInvSqrt rsqrt) (current : Orientation K)
    (p : Vec3 K) (hnd : NonDegenerate current p) :
    Orthonormal (propagate rsqrt current p) := by
  obtain ⟨f, r, hF, hR, hU, -, hff, hrr, hfr⟩ := propagate_frame h current p hnd
  refine ⟨f, Vec3.cross f r, r, hF, hU, hR, hff, ?_, hrr, dot_cross_left f r, hfr, ?_⟩
  · rw [dot_cross_cross, hff, hrr, hfr]; norm_num
  · rw [dot_comm]; exact dot_cross_right f r

theorem propagate_rightHandedFRU {rsqrt : K → K} (h : IsInvSqrt rsqrt)
    (current : Orientation K) (p : Vec3 K) (hnd : NonDegenerate current p) :
    RightHandedFRU (propagate rsqrt current p) := by
  obtain ⟨f, r, hF, hR, hU, -, hff, hrr, hfr⟩ := propagate_frame h current p hnd
  refine ⟨f, Vec3.cross f r, r, hF, hU, hR, ?_, ?_, rfl⟩
  · rw [cross_cross_self, hff, hfr]; ext <;> simp
  · rw [cross_self_cross, hff, hfr]; ext <;> simp

theorem framesAlong_orthonormal {rsqrt : K → K} (h : IsInvSqrt rsqrt) (ps : List (Vec3 K)) :
    ∀ start : Orientation K, NonDegenerateRun rsqrt start ps →
      ∀ o ∈ framesAlong rsqrt start ps, Orthonormal o := by
  induction ps with
  | nil => intro start _ o ho; simp [framesAlong] at ho
  | cons p ps ih =>
    intro start hrun o ho
    obtain ⟨hnd, hrest⟩ := hrun
    simp only [framesAlong, List.mem_cons] at ho
    rcases ho with rfl | ho
    · exact propagate_orthonormal h start p hnd
    · exact ih _ hrest o ho

theorem propagate_zero_displacement (rsqrt : K → K) (current : Orientation K) :
    propagate rsqrt current current.origin
      = { Front := none, Up := none, Right := none, origin := current.origin } := by
  have e : current.origin - current.origin = (0 : Vec3 K) := by ext <;> simp
  simp only [propagate, e, normalize_zero]
  cases current.Up <;> rfl

theorem rightHandedFRU_enterTrack (c : Camera K) : RightHandedFRU (enterTrack c).frame := by
  refine ⟨⟨0, 0, 1⟩, ⟨0, 1, 0⟩, ⟨1, 0, 0⟩, rfl, rfl, rfl, ?_, ?_, ?_⟩ <;>
    ext <;> simp [Vec3.cross]

theorem rightHandedFRU_lapReset (c : Camera K) : RightHandedFRU (lapReset c).frame := by
  refine ⟨⟨0, 0, 1⟩, ⟨0, 1, 0⟩, ⟨1, 0, 0⟩, rfl, rfl, rfl, ?_, ?_, ?_⟩ <;>
    ext <;> simp [Vec3.cross]

/-- The seed frame of the track builder has `cross(Front, Up) = Right`, the opposite
handedness of every frame propagated from it. -/
theorem rightHandedFUR_trackSeed (o : Vec3 K) : RightHandedFUR (trackSeed o) := by
  refine ⟨⟨1, 0, 0⟩, ⟨0, 1, 0⟩, ⟨0, 0, 1⟩, rfl, rfl, rfl, ?_⟩
  ext <;> simp [Vec3.cross]

variable [FloorRing K]

/-- One run of the body of the sampling loop of `create_track`: the frame `future` handed to
`makeRailPart` and to the next iteration is `propagate current p`. -/
theorem railLoop_step (rsqrt : K → K) (cps : List (Vec3 K)) (bound step u : K)
    (current : Orientation K) (vertices : List (Vertex K)) (p : Vec3 K)
    (hu : u < bound) (hstep : 0 < step) (hp : get_point cps u = some p) :
    railLoop rsqrt cps bound step u current vertices
      = railLoop rsqrt cps bound step (u + step) (propagate rsqrt current p)
          (makeRailPart vertices current (propagate rsqrt current p)) := by
  rw [railLoop]
  simp only [hu, hstep, dite_true, hp]

/-- One advancing micro-step of the camera: the new frame of the camera is
`propagate` of its frame, and the budget drops by the distance moved. -/
theorem microStep_advance (sqrt rsqrt : K → K) (cps : List (Vec3 K)) (d : K) (c : Camera K)
    (p : Vec3 K) (hu : ¬ ((trackBound cps.length : Nat) : K) < c.u)
    (hp : get_point cps (c.u + 1 / 200) = some p) :
    ∃ c', microStep sqrt rsqrt cps d c = some (d - get_distance sqrt c.Position p, c') ∧
      c'.frame = propagate rsqrt c.frame p ∧ c'.u = c.u + 1 / 200 ∧ c'.Position = p ∧
      c'.prevPosition = c.Position ∧ c'.onTrack = c.onTrack := by
  simp only [microStep, hu, if_false, snapshot, hp]
  exact ⟨_, rfl, rfl, rfl, rfl, rfl, rfl⟩

/-- A micro-step with `u` beyond the bound resets the lap and leaves the budget alone. -/
theorem microStep_reset (sqrt rsqrt : K → K) (cps : List (Vec3 K)) (d : K) (c : Camera K)
    (hu : ((trackBound cps.length : Nat) : K) < c.u) :
    microStep sqrt rsqrt cps d c = some (d, lapReset c) := by
  simp only [microStep, hu, if_true]

theorem microStep_zero_displacement (sqrt rsqrt : K → K) (cps : List (Vec3 K)) (d : K)
    (c : Camera K) (hu : ¬ ((trackBound cps.length : Nat) : K) < c.u)
    (hp : get_point cps (c.u + 1 / 200) = some c.Position) :
    ∃ c', microStep sqrt rsqrt cps d c
        = some (d - get_distance sqrt c.Position c.Position, c') ∧
      c'.Front = none ∧ c'.Up = none ∧ c'.Right = none ∧ c'.Position = c.Position := by
  obtain ⟨c', hc', hfr, -, hpos, -, -⟩ :=
    microStep_advance sqrt rsqrt cps d c c.Position hu hp
  have e := propagate_zero_displacement rsqrt c.frame
  rw [show c.frame.origin = c.Position from rfl] at e
  rw [e] at hfr
  refine ⟨c', hc', ?_, ?_, ?_, hpos⟩
  · exact congrArg Orientation.Front hfr
  · exact congrArg Orientation.Up hfr
  · exact congrArg Orientation.Right hfr

/-- C6: frame propagation yields an orthonormal frame at every non-degenerate step.  Along
any sequence of non-degenerate steps every frame is orthonormal; the frame computed by one
run of the sampling loop of `Track::create_track` is orthonormal; and so is the frame of the
camera after an advancing micro-step of `Camera::ProcessTrackMovement`. -/
theorem frame_propagation_orthonormal (rsqrt : K → K) (h : IsInvSqrt rsqrt) :
    (∀ (start : Orientation K) (ps : List (Vec3 K)), NonDegenerateRun rsqrt start ps →
      ∀ o ∈ framesAlong rsqrt start ps, Orthonormal o) ∧
    (∀ (cps : List (Vec3 K)) (bound step u : K) (current : Orientation K)
      (vertices : List (Vertex K)) (p : Vec3 K), u < bound → 0 < step →
      get_point cps u = some p → NonDegenerate current p →
      ∃ future, Orthonormal future ∧ future.origin = p ∧
        railLoop rsqrt cps bound step u current vertices
          = railLoop rsqrt cps bound step (u + step) future
              (makeRailPart vertices current future)) ∧
    (∀ (sqrt : K → K) (cps : List (Vec3 K)) (d : K) (c : Camera K) (p : Vec3 K),
      ¬ ((trackBound cps.length : Nat) : K) < c.u →
      get_point cps (c.u + 1 / 200) = some p → NonDegenerate c.frame p →
      ∃ d' c', microStep sqrt rsqrt cps d c = some (d', c') ∧ c'.Position = p ∧
        Orthonormal c'.frame) := by
  refine ⟨fun start ps hrun => framesAlong_orthonormal h ps start hrun, ?_, ?_⟩
  · intro cps bound step u current vertices p hu hstep hp hnd
    exact ⟨propagate rsqrt current p, propagate_orthonormal h current p hnd, rfl,
      railLoop_step rsqrt cps bound step u current vertices p hu hstep hp⟩
  · intro sqrt cps d c p hu hp hnd
    obtain ⟨c', hc', hfr, -, hpos, -, -⟩ := microStep_advance sqrt rsqrt cps d c p hu hp
    exact ⟨_, c', hc', hpos, hfr ▸ propagate_orthonormal h c.frame p hnd⟩

/-- C7, as the code has it: every frame produced by a non-degenerate propagation step (in
the sampling loop of `Track::create_track` and in the micro-step of the camera alike), and
the frames the camera is reset to, have `cross(Up, Front) = Right`, that is
`cross(Front, Up) = -Right` and `cross(Front, Right) = Up`: they are right-handed in the
order (Front, Right, Up). -/
theorem frames_rightHanded_front_right_up (rsqrt : K → K) (h : IsInvSqrt rsqrt) :
    (∀ (current : Orientation K) (p : Vec3 K), NonDegenerate current p →
      RightHandedFRU (propagate rsqrt current p)) ∧
    (∀ (cps : List (Vec3 K)) (bound step u : K) (current : Orientation K)
      (vertices : List (Vertex K)) (p : Vec3 K), u < bound → 0 < step →
      get_point cps u = some p → NonDegenerate current p →
      ∃ future, RightHandedFRU future ∧
        railLoop rsqrt cps bound step u current vertices
          = railLoop rsqrt cps bound step (u + step) future
              (makeRailPart vertices current future)) ∧
    (∀ (sqrt : K → K) (cps : List (Vec3 K)) (d : K) (c : Camera K) (p : Vec3 K),
      ¬ ((trackBound cps.length : Nat) : K) < c.u →
      get_point cps (c.u + 1 / 200) = some p → NonDegenerate c.frame p →
      ∃ d' c', microStep sqrt rsqrt cps d c = some (d', c') ∧ RightHandedFRU c'.frame) ∧
    (∀ c : Camera K, RightHandedFRU (enterTrack c).frame ∧ RightHandedFRU (lapReset c).frame) := by
  refine ⟨fun current p hnd => propagate_rightHandedFRU h current p hnd, ?_, ?_,
    fun c => ⟨rightHandedFRU_enterTrack c, rightHandedFRU_lapReset c⟩⟩
  · intro cps bound step u current vertices p hu hstep hp hnd
    exact ⟨propagate rsqrt current p, propagate_rightHandedFRU h current p hnd,
      railLoop_step rsqrt cps bound step u current vertices p hu hstep hp⟩
  · intro sqrt cps d c p hu hp hnd
    obtain ⟨c', hc', hfr, -, -, -, -⟩ := microStep_advance sqrt rsqrt cps d c p hu hp
    exact ⟨_, c', hc', hfr ▸ propagate_rightHandedFRU h c.frame p hnd⟩

/-- C8, as the code has it: a propagation step with zero displacement is not skipped.
`Front` is the normalisation of the zero vector, a vector of NaN, and the `Right` and `Up`
computed from it are NaN as well, whatever the previous frame was; this is so for the frame
computed by one run of the sampling loop of `Track::create_track` and for the camera after a
micro-step of `Camera::ProcessTrackMovement`, which then consumes the budget
`get_distance(Position, Position)`. -/
theorem zero_displacement_frame_nan (rsqrt : K → K) :
    (∀ current : Orientation K,
      propagate rsqrt current current.origin
        = { Front := none, Up := none, Right := none, origin := current.origin }) ∧
    (∀ (cps : List (Vec3 K)) (bound step u : K) (current : Orientation K)
      (vertices : List (Vertex K)), u < bound → 0 < step →
      get_point cps u = some current.origin →
      railLoop rsqrt cps bound step u current vertices
        = railLoop rsqrt cps bound step (u + step)
            { Front := none, Up := none, Right := none, origin := current.origin }
            (makeRailPart vertices current
              { Front := none, Up := none, Right := none, origin := current.origin })) ∧
    (∀ (sqrt : K → K) (cps : List (Vec3 K)) (d : K) (c : Camera K),
      ¬ ((trackBound cps.length : Nat) : K) < c.u →
      get_point cps (c.u + 1 / 200) = some c.Position →
      ∃ c', microStep sqrt rsqrt cps d c
          = some (d - get_distance sqrt c.Position c.Position, c') ∧
        c'.Front = none ∧ c'.Up = none ∧ c'.Right = none ∧ c'.Position = c.Position) := by
  refine ⟨propagate_zero_displacement rsqrt, ?_, ?_⟩
  · intro cps bound step u current vertices hu hstep hp
    rw [railLoop_step rsqrt cps bound step u current vertices _ hu hstep hp,
      propagate_zero_displacement]
  · intro sqrt cps d c hu hp
    exact microStep_zero_displacement sqrt rsqrt cps d c hu hp

end FrameTheorems

/-! ## Theorems: the rail mesh -/

section MeshTheorems

variable {K : Type} [LinearOrderedField K]

theorem make_triangle_append (vertices : List (Vertex K)) (pA pB pC : NVec3 K)
    (flipNormal : Bool) :
    make_triangle vertices pA pB pC flipNormal
      = vertices ++ make_triangle [] pA pB pC flipNormal := by
  simp [make_triangle]

theorem make_triangle_length (pA pB pC : NVec3 K) (flipNormal : Bool) :
    (make_triangle ([] : List (Vertex K)) pA pB pC flipNormal).length = 3 := by
  simp [make_triangle]

/-- The function `makeRailPart` keeps the vertices already present and appends the vertices of the
segment. -/
theorem makeRailPart_append (vertices : List (Vertex K)) (ori_prev ori_cur : Orientation K) :
    makeRailPart vertices ori_prev ori_cur = vertices ++ makeRailPart [] ori_prev ori_cur := by
  simp only [makeRailPart]
  rw [make_triangle_append (make_triangle _ _ _ _ _), make_triangle_append (make_triangle _ _ _ _ _),
    make_triangle_append (make_triangle _ _ _ _ _), make_triangle_append (make_triangle _ _ _ _ _),
    make_triangle_append (make_triangle _ _ _ _ _), make_triangle_append (make_triangle _ _ _ _ _),
    make_triangle_append (make_triangle _ _ _ _ _), make_triangle_append vertices]
  conv_rhs =>
    rw [make_triangle_append (make_triangle _ _ _ _ _),
      make_triangle_append (make_triangle _ _ _ _ _),
      make_triangle_append (make_triangle _ _ _ _ _),
      make_triangle_append (make_triangle _ _ _ _ _),
      make_triangle_append (make_triangle _ _ _ _ _),
      make_triangle_append (make_triangle _ _ _ _ _),
      make_triangle_append (make_triangle _ _ _ _ _)]
  simp only [List.append_assoc]

/-- A rail segment has 24 vertices. -/
theorem makeRailPart_length (ori_prev ori_cur : Orientation K) :
    (makeRailPart ([] : List (Vertex K)) ori_prev ori_cur).length = 24 := by
  simp only [makeRailPart]
  rw [make_triangle_append (make_triangle _ _ _ _ _), make_triangle_append (make_triangle _ _ _ _ _),
    make_triangle_append (make_triangle _ _ _ _ _), make_triangle_append (make_triangle _ _ _ _ _),
    make_triangle_append (make_triangle _ _ _ _ _), make_triangle_append (make_triangle _ _ _ _ _),
    make_triangle_append (make_triangle _ _ _ _ _)]
  simp only [List.length_append, make_triangle_length]

theorem loadControlPoints_length (currentpos : Vec3 K) (controlPoints points : List (Vec3 K)) :
    (loadControlPoints currentpos controlPoints points).length
      = controlPoints.length + points.length := by
  induction points generalizing currentpos controlPoints with
  | nil => simp [loadControlPoints]
  | cons pt rest ih =>
    simp only [loadControlPoints, ih, List.length_append, List.length_cons, List.length_nil]
    omega

variable [FloorRing K]

theorem ceil_step_measure {bound step u : K} (hu : u < bound) (hstep : 0 < step) :
    (⌈(bound - u) / step⌉).toNat = (⌈(bound - (u + step)) / step⌉).toNat + 1 := by
  have e : (bound - (u + step)) / step = (bound - u) / step - 1 := by
    field_simp
    ring
  have hpos : 0 < ⌈(bound - u) / step⌉ := Int.ceil_pos.mpr (div_pos (sub_pos.mpr hu) hstep)
  rw [e, Int.ceil_sub_one]
  omega

theorem ceil_measure_zero {bound step u : K} (hu : ¬ u < bound) (hstep : 0 < step) :
    (⌈(bound - u) / step⌉).toNat = 0 := by
  have h : (bound - u) / step ≤ 0 :=
    div_nonpos_of_nonpos_of_nonneg (by linarith [not_lt.mp hu]) (le_of_lt hstep)
  have h2 : ⌈(bound - u) / step⌉ ≤ 0 := Int.ceil_le.mpr (by simpa using h)
  omega

/-- The number of sampled segments, in closed form: the number of `k ≥ 0` with
`u + k * step < bound`. -/
theorem sampledSegments_eq_ceil (bound step : K) (hstep : 0 < step) :
    ∀ (n : Nat) (u : K), (⌈(bound - u) / step⌉).toNat = n →
      sampledSegments bound step u = n := by
  intro n
  induction n with
  | zero =>
    intro u hn
    rw [sampledSegments]
    by_cases hu : u < bound
    · have := ceil_step_measure hu hstep
      omega
    · simp only [hu, dite_false]
  | succ m ih =>
    intro u hn
    rw [sampledSegments]
    by_cases hu : u < bound
    · have hm := ceil_step_measure hu hstep
      simp only [hu, hstep, dite_true]
      rw [ih (u + step) (by omega)]
    · have := ceil_measure_zero hu hstep
      omega

/-- The sampling loop returns, keeps the vertices it started with and appends 24 vertices
for each of its iterations. -/
theorem railLoop_vertices (rsqrt : K → K) (cps : List (Vec3 K)) (bound step : K)
    (hN : 0 < cps.length) (hstep : 0 < step) :
    ∀ (n : Nat) (u : K) (current : Orientation K) (vertices : List (Vertex K)),
      (⌈(bound - u) / step⌉).toNat = n →
      ∃ last new, railLoop rsqrt cps bound step u current vertices
          = some (last, vertices ++ new) ∧ new.length = 24 * n := by
  intro n
  induction n with
  | zero =>
    intro u current vertices hn
    by_cases hu : u < bound
    · have := ceil_step_measure hu hstep
      omega
    · refine ⟨current, [], ?_, rfl⟩
      rw [railLoop]
      simp only [hu, dite_false, List.append_nil]
  | succ m ih =>
    intro u current vertices hn
    by_cases hu : u < bound
    · have hm := ceil_step_measure hu hstep
      obtain ⟨pA, pB, pC, pD, -, -, -, -, hp⟩ := get_point_eq_some cps u hN
      rw [railLoop_step rsqrt cps bound step u current vertices _ hu hstep hp]
      obtain ⟨last, new, hrun, hlen⟩ := ih (u + step)
        (propagate rsqrt current (interpolate pA pB pC pD (1 / 2) (modfFrac u)))
        (makeRailPart vertices current
          (propagate rsqrt current (interpolate pA pB pC pD (1 / 2) (modfFrac u))))
        (by omega)
      rw [makeRailPart_append] at hrun
      refine ⟨last, makeRailPart [] current
        (propagate rsqrt current (interpolate pA pB pC pD (1 / 2) (modfFrac u))) ++ new, ?_, ?_⟩
      · rw [makeRailPart_append, hrun, List.append_assoc]
      · rw [List.length_append, makeRailPart_length, hlen]; ring
    · have := ceil_measure_zero hu hstep
      omega

/-- C9: the mesh has exactly 24 vertices per sampled segment.  Every call of `makeRailPart`
keeps the vertices present and appends exactly 24; and for at least 4 loaded points and a
positive sampling step `Track::create_track` returns, with as many control points as loaded
points and `24 * (number of sampled segments)` vertices, where the number of sampled
segments, the number of runs of the loop body, is the number of samples
`u0, u0 + step, ...` below `N - 3`. -/
theorem create_track_vertex_count (rsqrt : K → K) (u0 step : K) (points : List (Vec3 K))
    (hN : 4 ≤ points.length) (hstep : 0 < step) :
    (∀ (vertices : List (Vertex K)) (ori_prev ori_cur : Orientation K),
      ∃ new, new.length = 24 ∧ makeRailPart vertices ori_prev ori_cur = vertices ++ new) ∧
    ∃ cps vertices, create_trackWith rsqrt u0 step points = some (cps, vertices) ∧
      cps.length = points.length ∧
      vertices.length = 24 * sampledSegments (((cps.length : Int) - 3 : Int) : K) step u0 ∧
      sampledSegments (((cps.length : Int) - 3 : Int) : K) step u0
        = (⌈((((cps.length : Int) - 3 : Int) : K) - u0) / step⌉).toNat := by
  refine ⟨fun vertices ori_prev ori_cur =>
    ⟨_, makeRailPart_length ori_prev ori_cur, makeRailPart_append vertices ori_prev ori_cur⟩, ?_⟩
  have hlen : (loadControlPoints (⟨-2, 0, -2⟩ : Vec3 K) [] points).length = points.length := by
    rw [loadControlPoints_length]; simp
  have hpos : 0 < (loadControlPoints (⟨-2, 0, -2⟩ : Vec3 K) [] points).length := by omega
  obtain ⟨last, new, hrun, hnew⟩ := railLoop_vertices rsqrt
    (loadControlPoints (⟨-2, 0, -2⟩ : Vec3 K) [] points)
    ((((loadControlPoints (⟨-2, 0, -2⟩ : Vec3 K) [] points).length : Int) - 3 : Int) : K) step
    hpos hstep _ u0
    (trackSeed ((loadControlPoints (⟨-2, 0, -2⟩ : Vec3 K) [] points)[0])) [] rfl
  have hcount := sampledSegments_eq_ceil
    ((((loadControlPoints (⟨-2, 0, -2⟩ : Vec3 K) [] points).length : Int) - 3 : Int) : K) step
    hstep _ u0 rfl
  refine ⟨_, new, ?_, hlen, ?_, hcount⟩
  · simp only [create_trackWith, List.getElem?_eq_getElem hpos]
    simp only [Option.bind_eq_bind, Option.some_bind, hrun, List.nil_append]
    rfl
  · rw [hnew, hcount]

end MeshTheorems


/-! ## Theorems: the distance-budget loop of the camera -/

section CameraTheorems

variable {K : Type} [LinearOrderedField K]

theorem trackBound_of_ge {n : Nat} (h : 4 ≤ n) (h2 : n < 2 ^ 64) : trackBound n = n - 3 := by
  unfold trackBound
  norm_num at h2 ⊢
  omega

theorem one_le_trackBound {n : Nat} (h : 4 ≤ n) (h2 : n < 2 ^ 64) :
    (1 : K) ≤ ((trackBound n : Nat) : K) := by
  rw [trackBound_of_ge h h2]
  have : 1 ≤ n - 3 := by omega
  exact_mod_cast this

theorem sqrt_zero_of_isSqrt {sqrt : K → K} (h : IsSqrt sqrt) : sqrt 0 = 0 := by
  obtain ⟨-, h2⟩ := h 0 (le_refl 0)
  exact mul_self_eq_zero.mp h2

variable [FloorRing K]

theorem budgetLoop_done (sqrt rsqrt : K → K) (cps : List (Vec3 K)) (fuel : Nat) {d : K}
    (c : Camera K) (hd : ¬ 0 < d) :
    budgetLoop sqrt rsqrt cps fuel d c = Outcome.returned (d, c) := by
  unfold budgetLoop
  simp only [hd, if_false]

theorem budgetLoop_zero (sqrt rsqrt : K → K) (cps : List (Vec3 K)) {d : K}
    (c : Camera K) (hd : 0 < d) :
    budgetLoop sqrt rsqrt cps 0 d c = Outcome.outOfFuel := by
  unfold budgetLoop
  simp only [hd, if_true]

theorem budgetLoop_succ (sqrt rsqrt : K → K) (cps : List (Vec3 K)) (fuel : Nat) {d d' : K}
    {c c' : Camera K} (hd : 0 < d) (hs : microStep sqrt rsqrt cps d c = some (d', c')) :
    budgetLoop sqrt rsqrt cps (fuel + 1) d c = budgetLoop sqrt rsqrt cps fuel d' c' := by
  conv_lhs => unfold budgetLoop
  simp only [hd, if_true, hs]

/-- What one micro-step does: it resets the lap and leaves the budget alone, or it advances
`u` by 0.005 and takes the distance moved, which may be zero, from the budget. -/
theorem microStep_cases (sqrt rsqrt : K → K) (cps : List (Vec3 K)) (d d' : K)
    (c c' : Camera K) (hs : microStep sqrt rsqrt cps d c = some (d', c')) :
    (((trackBound cps.length : Nat) : K) < c.u ∧ d' = d ∧ c' = lapReset c) ∨
    (¬ ((trackBound cps.length : Nat) : K) < c.u ∧ c'.u = c.u + 1 / 200 ∧
      get_point cps (c.u + 1 / 200) = some c'.Position ∧
      d' = d - get_distance sqrt c.Position c'.Position) := by
  by_cases hu : ((trackBound cps.length : Nat) : K) < c.u
  · left
    rw [microStep_reset sqrt rsqrt cps d c hu] at hs
    simp only [Option.some.injEq, Prod.mk.injEq] at hs
    exact ⟨hu, hs.1.symm, hs.2.symm⟩
  · right
    cases hp : get_point cps (c.u + 1 / 200) with
    | none =>
      have hnone : microStep sqrt rsqrt cps d c = none := by
        simp only [microStep, hu, if_false, snapshot, hp]
      rw [hnone] at hs
      cases hs
    | some p =>
      obtain ⟨c'', hc'', -, hu', hpos, -, -⟩ := microStep_advance sqrt rsqrt cps d c p hu hp
      rw [hc''] at hs
      simp only [Option.some.injEq, Prod.mk.injEq] at hs
      obtain ⟨h1, h2⟩ := hs
      subst h2
      exact ⟨hu, hu', by rw [hpos], by rw [hpos, ← h1]⟩

/-- The loop returns when every advancing micro-step of the run moves the camera by at least
`δ > 0`: a lap reset takes nothing from the budget but is followed by an advancing step. -/
theorem budgetLoop_returns (sqrt rsqrt : K → K) (cps : List (Vec3 K)) (hN : 4 ≤ cps.length)
    (hN2 : cps.length < 2 ^ 64) (Inv : Camera K → Prop) (δ : K)
    (hInv : ∀ (d : K) (c : Camera K) (d' : K) (c' : Camera K), Inv c →
      microStep sqrt rsqrt cps d c = some (d', c') → Inv c')
    (hmove : ∀ (c : Camera K) (p : Vec3 K), Inv c →
      ¬ ((trackBound cps.length : Nat) : K) < c.u →
      get_point cps (c.u + 1 / 200) = some p → δ ≤ get_distance sqrt c.Position p) :
    ∀ (n : Nat) (d : K) (c : Camera K), Inv c → d ≤ (n : K) * δ →
      ∃ fuel r, fuel ≤ 2 * n ∧ budgetLoop sqrt rsqrt cps fuel d c = Outcome.returned r := by
  have hpos : 0 < cps.length := by omega
  have advance : ∀ (n : Nat) (d : K) (c : Camera K), Inv c → 0 < d → d ≤ ((n + 1 : Nat) : K) * δ →
      ¬ ((trackBound cps.length : Nat) : K) < c.u →
      ∃ d' c', microStep sqrt rsqrt cps d c = some (d', c') ∧ Inv c' ∧ d' ≤ (n : K) * δ := by
    intro n d c hc _ hdn hu
    obtain ⟨pA, pB, pC, pD, -, -, -, -, hp⟩ := get_point_eq_some cps (c.u + 1 / 200) hpos
    obtain ⟨c', hc', -, -, -, -, -⟩ := microStep_advance sqrt rsqrt cps d c _ hu hp
    refine ⟨_, c', hc', hInv d c _ c' hc hc', ?_⟩
    have hm := hmove c _ hc hu hp
    push_cast at hdn
    linarith
  intro n
  induction n with
  | zero =>
    intro d c _ hd
    refine ⟨0, (d, c), le_refl _, budgetLoop_done sqrt rsqrt cps 0 c ?_⟩
    simp only [Nat.cast_zero, zero_mul] at hd
    exact not_lt.mpr hd
  | succ n ih =>
    intro d c hc hdn
    by_cases hd : 0 < d
    · by_cases hu : ((trackBound cps.length : Nat) : K) < c.u
      · have hreset := microStep_reset sqrt rsqrt cps d c hu
        have hc1 : Inv (lapReset c) := hInv d c d _ hc hreset
        have hu1 : ¬ ((trackBound cps.length : Nat) : K) < (lapReset c).u := by
          have := one_le_trackBound (K := K) hN hN2
          simp only [lapReset, not_lt]
          exact this
        obtain ⟨d', c', hs, hc', hd'⟩ := advance n d (lapReset c) hc1 hd hdn hu1
        obtain ⟨fuel, r, hf, hr⟩ := ih d' c' hc' hd'
        refine ⟨fuel + 2, r, by omega, ?_⟩
        rw [budgetLoop_succ sqrt rsqrt cps (fuel + 1) hd hreset,
          budgetLoop_succ sqrt rsqrt cps fuel hd hs, hr]
      · obtain ⟨d', c', hs, hc', hd'⟩ := advance n d c hc hd hdn hu
        obtain ⟨fuel, r, hf, hr⟩ := ih d' c' hc' hd'
        refine ⟨fuel + 1, r, by omega, ?_⟩
        rw [budgetLoop_succ sqrt rsqrt cps fuel hd hs, hr]
    · exact ⟨0, (d, c), Nat.zero_le _, budgetLoop_done sqrt rsqrt cps 0 c hd⟩

theorem le_ceil_toNat_mul (d δ : K) (hδ : 0 < δ) : d ≤ ((⌈d / δ⌉.toNat : Nat) : K) * δ := by
  have h1 : d / δ ≤ ((⌈d / δ⌉ : Int) : K) := Int.le_ceil _
  have h2 : (⌈d / δ⌉ : Int) ≤ ((⌈d / δ⌉.toNat : Nat) : Int) := Int.self_le_toNat _
  have h3 : ((⌈d / δ⌉ : Int) : K) ≤ ((⌈d / δ⌉.toNat : Nat) : K) := by exact_mod_cast h2
  have h4 : d / δ ≤ ((⌈d / δ⌉.toNat : Nat) : K) := le_trans h1 h3
  calc d = d / δ * δ := by field_simp
    _ ≤ ((⌈d / δ⌉.toNat : Nat) : K) * δ := mul_le_mul_of_nonneg_right h4 (le_of_lt hδ)

/-- On a track whose control points all lie at `(0,0,0)`, a camera at `(0,0,0)` with a
positive budget never leaves the loop: no micro-step takes anything from the budget. -/
theorem budgetLoop_flatTrack_zero (sqrt rsqrt : K → K) (hsqrt : IsSqrt sqrt) (d : K)
    (hd : 0 < d) :
    ∀ (fuel : Nat) (c : Camera K), c.Position = 0 →
      budgetLoop sqrt rsqrt (flatTrack (0 : Vec3 K)) fuel d c = Outcome.outOfFuel := by
  intro fuel
  induction fuel with
  | zero => intro c _; exact budgetLoop_zero sqrt rsqrt _ c hd
  | succ fuel ih =>
    intro c hc
    by_cases hu : ((trackBound (flatTrack (0 : Vec3 K)).length : Nat) : K) < c.u
    · rw [budgetLoop_succ sqrt rsqrt _ fuel hd (microStep_reset sqrt rsqrt _ d c hu)]
      exact ih _ rfl
    · obtain ⟨c', hc', -, -, hpos, -, -⟩ :=
        microStep_advance sqrt rsqrt _ d c 0 hu (get_point_flatTrack 0 _)
      have hdist : get_distance sqrt c.Position 0 = 0 := by
        rw [hc]
        simp [get_distance, sqrt_zero_of_isSqrt hsqrt]
      rw [hdist, sub_zero] at hc'
      rw [budgetLoop_succ sqrt rsqrt _ fuel hd hc']
      exact ih c' hpos

/-- C10, as the code has it.  For a track of at least 4 control points and an on-track
camera: (1) when `deltaTime = 0` or `Position.y ≥ heightMax` the budget is 0 or NaN, the loop
body never runs and the call returns the snapshot of the camera; (2) when every advancing
micro-step of the run moves the camera by at least some `δ > 0`, the call returns (a lap
reset takes nothing from the budget but is followed by an advancing step); (3) every
micro-step either resets `u` to 1 and leaves the budget alone, or advances `u` by 0.005 and
takes exactly the distance moved from the budget, nothing when that distance is zero. -/
theorem ProcessTrackMovement_returns (sqrt rsqrt : K → K) (hsqrt : IsSqrt sqrt)
    (cps : List (Vec3 K)) (hN : 4 ≤ cps.length) (hN2 : cps.length < 2 ^ 64) :
    (∀ (c : Camera K) (deltaTime : K) (fuel : Nat), c.onTrack = true →
      (deltaTime = 0 ∨ heightMax ≤ c.Position.y) →
      ProcessTrackMovement sqrt rsqrt fuel deltaTime cps c = Outcome.returned (snapshot c)) ∧
    (∀ (c : Camera K) (deltaTime : K) (Inv : Camera K → Prop) (δ : K), c.onTrack = true →
      0 < δ → Inv (snapshot c) →
      (∀ (d : K) (c : Camera K) (d' : K) (c' : Camera K), Inv c →
        microStep sqrt rsqrt cps d c = some (d', c') → Inv c') →
      (∀ (c : Camera K) (p : Vec3 K), Inv c →
        ¬ ((trackBound cps.length : Nat) : K) < c.u →
        get_point cps (c.u + 1 / 200) = some p → δ ≤ get_distance sqrt c.Position p) →
      ∃ fuel c', ProcessTrackMovement sqrt rsqrt fuel deltaTime cps c = Outcome.returned c') ∧
    (∀ (d d' : K) (c c' : Camera K), microStep sqrt rsqrt cps d c = some (d', c') →
      (((trackBound cps.length : Nat) : K) < c.u ∧ d' = d ∧ c' = lapReset c ∧ c'.u = 1) ∨
      (¬ ((trackBound cps.length : Nat) : K) < c.u ∧ c'.u = c.u + 1 / 200 ∧
        d' = d - get_distance sqrt c.Position c'.Position)) := by
  refine ⟨?_, ?_, ?_⟩
  · intro c deltaTime fuel hon h
    simp only [ProcessTrackMovement, hon, Bool.true_eq_false, if_false, nsqrt]
    by_cases hneg : 2 * gravity * (heightMax - (snapshot c).Position.y) < 0
    · simp only [hneg, if_true]
    · simp only [hneg, if_false]
      have hbudget : ¬ 0 < sqrt (2 * gravity * (heightMax - (snapshot c).Position.y))
          * deltaTime / 4 := by
        rcases h with h0 | hy
        · rw [h0]; simp
        · have hy' : heightMax - (snapshot c).Position.y ≤ 0 := by
            simp only [snapshot]; linarith
          have hg : (0 : K) < 2 * gravity := by simp only [gravity]; norm_num
          have hrad : 2 * gravity * (heightMax - (snapshot c).Position.y) = 0 :=
            le_antisymm (mul_nonpos_of_nonneg_of_nonpos (le_of_lt hg) hy') (not_lt.mp hneg)
          rw [hrad, sqrt_zero_of_isSqrt hsqrt]; simp
      rw [budgetLoop_done sqrt rsqrt cps fuel _ hbudget]
  · intro c deltaTime Inv δ hon hδ hc hInv hmove
    simp only [ProcessTrackMovement, hon, Bool.true_eq_false, if_false, nsqrt]
    by_cases hneg : 2 * gravity * (heightMax - (snapshot c).Position.y) < 0
    · exact ⟨0, snapshot c, by simp only [hneg, if_true]⟩
    · simp only [hneg, if_false]
      obtain ⟨fuel, r, -, hr⟩ := budgetLoop_returns sqrt rsqrt cps hN hN2 Inv δ hInv hmove _
        (sqrt (2 * gravity * (heightMax - (snapshot c).Position.y)) * deltaTime / 4)
        (snapshot c) hc (le_ceil_toNat_mul _ δ hδ)
      exact ⟨fuel, r.2, by rw [hr]⟩
  · intro d d' c c' hs
    rcases microStep_cases sqrt rsqrt cps d d' c c' hs with ⟨hu, h1, h2⟩ | ⟨hu, h1, -, h2⟩
    · exact Or.inl ⟨hu, h1, h2, by rw [h2]; rfl⟩
    · exact Or.inr ⟨hu, h1, h2⟩

end CameraTheorems


/-! ## Theorems: the track and the camera over the real numbers -/

section RealFrames

theorem isInvSqrt_real : IsInvSqrt (fun x : ℝ => (Real.sqrt x)⁻¹) := by
  intro x hx
  have hs : 0 < Real.sqrt x := Real.sqrt_pos.mpr hx
  refine ⟨inv_pos.mpr hs, ?_⟩
  have e : Real.sqrt x * Real.sqrt x = x := Real.mul_self_sqrt (le_of_lt hx)
  show (Real.sqrt x)⁻¹ * (Real.sqrt x)⁻¹ * x = 1
  rw [← mul_inv, e]
  exact inv_mul_cancel₀ (ne_of_gt hx)

theorem isSqrt_real : IsSqrt (fun x : ℝ => Real.sqrt x) := by
  intro x hx
  exact ⟨Real.sqrt_nonneg x, Real.mul_self_sqrt hx⟩

theorem nonDegenerate_seed_x :
    NonDegenerate (trackSeed (0 : Vec3 ℝ)) ⟨1, 0, 0⟩ := by
  refine ⟨?_, ⟨0, 1, 0⟩, rfl, ?_⟩
  · intro e
    have := congrArg Vec3.x e
    simp [trackSeed] at this
  · intro e
    have := congrArg Vec3.z e
    simp [trackSeed, Vec3.cross] at this

/-- C6 at a concrete step over the reals: from the seed frame of the track at the origin to
the new origin `(1,0,0)`. -/
theorem frame_propagation_orthonormal_seed :
    IsInvSqrt (fun x : ℝ => (Real.sqrt x)⁻¹) ∧
      NonDegenerateRun (fun x : ℝ => (Real.sqrt x)⁻¹) (trackSeed (0 : Vec3 ℝ)) [⟨1, 0, 0⟩] ∧
      ∀ o ∈ framesAlong (fun x : ℝ => (Real.sqrt x)⁻¹) (trackSeed (0 : Vec3 ℝ)) [⟨1, 0, 0⟩],
        Orthonormal o :=
  ⟨isInvSqrt_real, ⟨nonDegenerate_seed_x, trivial⟩,
    (frame_propagation_orthonormal _ isInvSqrt_real).1 _ _ ⟨nonDegenerate_seed_x, trivial⟩⟩

/-- C7 at a concrete step over the reals: the frame after the step from the seed frame of
the track at the origin to `(1,0,0)`. -/
theorem frames_rightHanded_front_right_up_seed :
    IsInvSqrt (fun x : ℝ => (Real.sqrt x)⁻¹) ∧
      NonDegenerate (trackSeed (0 : Vec3 ℝ)) ⟨1, 0, 0⟩ ∧
      RightHandedFRU
        (propagate (fun x : ℝ => (Real.sqrt x)⁻¹) (trackSeed (0 : Vec3 ℝ)) ⟨1, 0, 0⟩) :=
  ⟨isInvSqrt_real, nonDegenerate_seed_x,
    (frames_rightHanded_front_right_up _ isInvSqrt_real).1 _ _ nonDegenerate_seed_x⟩

/-- C7 fails as stated: the frame the camera is given when it enters the track, and the
frame after each lap reset, have `cross(Front, Up) = (-1,0,0)` while `Right = (1,0,0)`. -/
theorem camera_reset_not_rightHandedFUR :
    ¬ RightHandedFUR (enterTrack (freshCamera : Camera ℚ)).frame ∧
      ¬ RightHandedFUR (lapReset (freshCamera : Camera ℚ)).frame := by
  constructor <;>
  · rintro ⟨f, u, r, hf, hu, hr, hc⟩
    simp only [enterTrack, lapReset, Camera.frame, Option.some.injEq] at hf hu hr
    subst hf hu hr
    have hx := congrArg Vec3.x hc
    simp [Vec3.cross] at hx
    norm_num at hx

/-- C8 at a concrete step over the reals: the camera that entered a track whose control
points all lie at `(0,0,0)` does not move in its first micro-step and gets NaN vectors. -/
theorem zero_displacement_frame_nan_flatTrack :
    ∃ c', microStep (fun x : ℝ => Real.sqrt x) (fun x : ℝ => (Real.sqrt x)⁻¹)
        (flatTrack (0 : Vec3 ℝ)) 1 (enterTrack freshCamera)
          = some (1 - get_distance (fun x : ℝ => Real.sqrt x)
              (enterTrack (freshCamera : Camera ℝ)).Position
              (enterTrack (freshCamera : Camera ℝ)).Position, c') ∧
      c'.Front = none ∧ c'.Up = none ∧ c'.Right = none ∧
      c'.Position = (enterTrack (freshCamera : Camera ℝ)).Position :=
  (zero_displacement_frame_nan (fun x : ℝ => (Real.sqrt x)⁻¹)).2.2
    (fun x : ℝ => Real.sqrt x) (flatTrack 0) 1 (enterTrack freshCamera)
    (by simp [flatTrack, trackBound, enterTrack])
    (by rw [get_point_flatTrack]; rfl)

/-- C8 fails as stated: at a step of zero displacement from the seed frame of the track the
new `Front` is a vector of NaN, not the previous `Front = (1,0,0)`; and the camera that
entered a track whose control points all lie at `(0,0,0)` has, after its first micro-step,
a NaN `Front`, `Up` and `Right` instead of the previous ones. -/
theorem zero_displacement_not_retained :
    (propagate (fun x : ℝ => (Real.sqrt x)⁻¹) (trackSeed (0 : Vec3 ℝ))
        (trackSeed (0 : Vec3 ℝ)).origin).Front = none ∧
      (trackSeed (0 : Vec3 ℝ)).Front = some ⟨1, 0, 0⟩ ∧
      (∃ d c', microStep (fun x : ℝ => Real.sqrt x) (fun x : ℝ => (Real.sqrt x)⁻¹)
          (flatTrack (0 : Vec3 ℝ)) 1 (enterTrack freshCamera) = some (d, c') ∧
        c'.Position = (enterTrack (freshCamera : Camera ℝ)).Position ∧
        c'.Front = none ∧ c'.Up = none ∧ c'.Right = none ∧
        (enterTrack (freshCamera : Camera ℝ)).Front = some ⟨0, 0, 1⟩) := by
  refine ⟨?_, rfl, ?_⟩
  · rw [propagate_zero_displacement]
  · have hu : ¬ ((trackBound (flatTrack (0 : Vec3 ℝ)).length : Nat) : ℝ)
        < (enterTrack (freshCamera : Camera ℝ)).u := by
      simp [flatTrack, trackBound, enterTrack]
    have hp : get_point (flatTrack (0 : Vec3 ℝ)) ((enterTrack (freshCamera : Camera ℝ)).u + 1 / 200)
        = some (enterTrack (freshCamera : Camera ℝ)).Position := by
      rw [get_point_flatTrack]; rfl
    obtain ⟨c', hc', hF, hU, hR, hP⟩ :=
      microStep_zero_displacement (fun x : ℝ => Real.sqrt x) (fun x : ℝ => (Real.sqrt x)⁻¹)
        (flatTrack 0) 1 (enterTrack freshCamera) hu hp
    exact ⟨_, c', hc', hP, hF, hU, hR, rfl⟩

/-- C9 over the reals, with the constants of the code: four loaded points give a mesh of
`24 * 9 = 216` vertices. -/
theorem create_track_vertex_count_four :
    4 ≤ ([⟨0, 0, 0⟩, ⟨1, 0, 0⟩, ⟨1, 0, 1⟩, ⟨0, 0, 1⟩] : List (Vec3 ℝ)).length ∧
      (0 : ℝ) < 1 / 10 ∧
      ∃ cps vertices,
        create_track (fun x : ℝ => (Real.sqrt x)⁻¹)
          [⟨0, 0, 0⟩, ⟨1, 0, 0⟩, ⟨1, 0, 1⟩, ⟨0, 0, 1⟩] = some (cps, vertices) ∧
        vertices.length = 216 := by
  refine ⟨by decide, by norm_num, ?_⟩
  obtain ⟨-, cps, vertices, hrun, hlen, hv, hcount⟩ :=
    create_track_vertex_count (fun x : ℝ => (Real.sqrt x)⁻¹) (1 / 10) (1 / 10)
      ([⟨0, 0, 0⟩, ⟨1, 0, 0⟩, ⟨1, 0, 1⟩, ⟨0, 0, 1⟩] : List (Vec3 ℝ)) (by decide) (by norm_num)
  refine ⟨cps, vertices, hrun, ?_⟩
  rw [hv, hcount, hlen]
  have e : ((((([⟨0, 0, 0⟩, ⟨1, 0, 0⟩, ⟨1, 0, 1⟩, ⟨0, 0, 1⟩] : List (Vec3 ℝ)).length : Int)
      - 3 : Int) : ℝ) - 1 / 10) / (1 / 10) = ((9 : Int) : ℝ) := by
    simp only [List.length_cons, List.length_nil]
    norm_num
  rw [e, Int.ceil_intCast]
  rfl

/-- C10 over the reals: on a track whose control points all lie at `(1,0,0)`, the camera
just after a lap reset returns from a step with `deltaTime = 1`; every advancing micro-step
moves it by 1 from `(0,0,0)` and is followed by a lap reset. -/
theorem ProcessTrackMovement_returns_flatTrack :
    ∃ fuel c', ProcessTrackMovement (fun x : ℝ => Real.sqrt x) (fun x : ℝ => (Real.sqrt x)⁻¹)
      fuel 1 (flatTrack (⟨1, 0, 0⟩ : Vec3 ℝ)) (lapReset (enterTrack freshCamera))
        = Outcome.returned c' := by
  have hb : ((trackBound (flatTrack (⟨1, 0, 0⟩ : Vec3 ℝ)).length : Nat) : ℝ) = 1 := by
    simp [flatTrack, trackBound]
  refine (ProcessTrackMovement_returns (fun x : ℝ => Real.sqrt x)
    (fun x : ℝ => (Real.sqrt x)⁻¹) isSqrt_real (flatTrack (⟨1, 0, 0⟩ : Vec3 ℝ))
    (by simp [flatTrack]) (by simp [flatTrack])).2.1
    (lapReset (enterTrack freshCamera)) 1
    (fun c => (c.u = 1 ∧ c.Position = 0) ∨ c.u = 1 + 1 / 200) 1 rfl one_pos
    (Or.inl ⟨rfl, rfl⟩) ?_ ?_
  · intro d c d' c' hc hs
    rcases microStep_cases _ _ _ d d' c c' hs with ⟨-, -, h2⟩ | ⟨hu, h1, -, -⟩
    · left; rw [h2]; exact ⟨rfl, rfl⟩
    · right
      rcases hc with ⟨hcu, -⟩ | hcu
      · rw [h1, hcu]
      · exfalso; apply hu; rw [hb, hcu]; norm_num
  · intro c p hc hu hp
    rcases hc with ⟨-, hpos⟩ | hcu
    · rw [get_point_flatTrack] at hp
      cases hp
      rw [hpos]
      simp [get_distance]
    · exfalso; apply hu; rw [hb, hcu]; norm_num

/-- C10 fails as stated: on a track whose four control points all lie at `(0,0,0)`, the
camera that has just entered the track, at height 0 below `heightMax`, with `deltaTime = 1`
has the positive budget `sqrt(490) / 4` and never returns: whatever the number of
micro-steps allowed, the loop is still running. -/
theorem ProcessTrackMovement_diverges_flatTrack :
    4 ≤ (flatTrack (0 : Vec3 ℝ)).length ∧ (0 : ℝ) ≤ 1 ∧
      (enterTrack (freshCamera : Camera ℝ)).onTrack = true ∧
      (∀ fuel : Nat,
        ProcessTrackMovement (fun x : ℝ => Real.sqrt x) (fun x : ℝ => (Real.sqrt x)⁻¹)
          fuel 1 (flatTrack (0 : Vec3 ℝ)) (enterTrack freshCamera) = Outcome.outOfFuel) ∧
      ¬ ∃ fuel c',
        ProcessTrackMovement (fun x : ℝ => Real.sqrt x) (fun x : ℝ => (Real.sqrt x)⁻¹)
          fuel 1 (flatTrack (0 : Vec3 ℝ)) (enterTrack freshCamera) = Outcome.returned c' := by
  have hall : ∀ fuel : Nat,
      ProcessTrackMovement (fun x : ℝ => Real.sqrt x) (fun x : ℝ => (Real.sqrt x)⁻¹)
        fuel 1 (flatTrack (0 : Vec3 ℝ)) (enterTrack freshCamera) = Outcome.outOfFuel := by
    intro fuel
    have hrad : ¬ (2 * gravity * (heightMax - (0 : ℝ)) < 0) := by
      simp only [gravity, heightMax]; norm_num
    have hd : 0 < Real.sqrt (2 * gravity * (heightMax - (0 : ℝ))) * 1 / 4 := by
      have : 0 < Real.sqrt (2 * gravity * (heightMax - (0 : ℝ))) :=
        Real.sqrt_pos.mpr (by simp only [gravity, heightMax]; norm_num)
      linarith
    simp only [ProcessTrackMovement, enterTrack, snapshot, Bool.true_eq_false, if_false, nsqrt,
      hrad]
    rw [budgetLoop_flatTrack_zero (fun x : ℝ => Real.sqrt x) _ isSqrt_real _ hd fuel _ rfl]
  refine ⟨by simp [flatTrack], by norm_num, rfl, hall, ?_⟩
  rintro ⟨fuel, c', h⟩
  rw [hall fuel] at h
  cases h

end RealFrames


/-! ## Theorems: the blend weights -/

section WeightTheorems

variable {K : Type} [LinearOrderedField K]

/-- C19: the four blend weights of `Track::interpolate` sum to 1 for every tension and every
`u`; `interpolate` is the combination of its four points with these weights; hence it
commutes with translations, `interpolate(A + d, B + d, C + d, D + d, tau, u) =
interpolate(A, B, C, D, tau, u) + d`, and four equal points interpolate to that point. -/
theorem interpolate_translation (tau u : K) :
    (blendWeights tau u).1 + (blendWeights tau u).2.1 + (blendWeights tau u).2.2.1
        + (blendWeights tau u).2.2.2 = 1 ∧
      (∀ A B C D : Vec3 K, interpolate A B C D tau u
        = (blendWeights tau u).1 • A + (blendWeights tau u).2.1 • B
          + (blendWeights tau u).2.2.1 • C + (blendWeights tau u).2.2.2 • D) ∧
      (∀ A B C D d : Vec3 K, interpolate (A + d) (B + d) (C + d) (D + d) tau u
        = interpolate A B C D tau u + d) ∧
      (∀ P : Vec3 K, interpolate P P P P tau u = P) := by
  refine ⟨?_, ?_, ?_, ?_⟩
  · simp only [blendWeights]; ring
  · intro A B C D; rfl
  · intro A B C D d
    ext <;> simp [interpolate] <;> ring
  · intro P; exact interpolate_same P tau u

end WeightTheorems

/-! ## Theorems: the transition onto the track, the budget, the free camera -/

section FreeCameraTheorems

variable {K : Type} [LinearOrderedField K]

theorem updateCameraVectors_pitch (cos sin radians rsqrt : K → K) (c : Camera K) :
    (updateCameraVectors cos sin radians rsqrt c).Pitch = c.Pitch ∧
      (updateCameraVectors cos sin radians rsqrt c).MouseSensitivity = c.MouseSensitivity := by
  simp [updateCameraVectors]

theorem clamp_mem {lo hi : K} (h : lo ≤ hi) (x : K) : lo ≤ clamp lo hi x ∧ clamp lo hi x ≤ hi := by
  simp only [clamp]
  exact ⟨le_max_left _ _, max_le h (min_le_left _ _)⟩

/-- The pitch and the mouse sensitivity after one call of `ProcessMouseMovement` with
`constrainPitch = true`. -/
theorem ProcessMouseMovement_pitch (cos sin radians rsqrt : K → K) (xoffset yoffset : K)
    (c : Camera K) :
    (ProcessMouseMovement cos sin radians rsqrt xoffset yoffset true c).Pitch
        = clamp (-89) 89 (c.Pitch + yoffset * c.MouseSensitivity) ∧
      (ProcessMouseMovement cos sin radians rsqrt xoffset yoffset true c).MouseSensitivity
        = c.MouseSensitivity := by
  simp only [ProcessMouseMovement, if_true, (updateCameraVectors_pitch _ _ _ _ _).1,
    (updateCameraVectors_pitch _ _ _ _ _).2, clamp]
  refine ⟨?_, ?_⟩
  · by_cases h1 : c.Pitch + yoffset * c.MouseSensitivity > 89
    · have h2 : ¬ ((89 : K) < -89) := by norm_num
      simp only [h1, if_true, h2, if_false]
      rw [min_eq_left (le_of_lt h1), max_eq_right (by norm_num)]
    · simp only [h1, if_false]
      rw [min_eq_right (not_lt.mp h1)]
      by_cases h3 : c.Pitch + yoffset * c.MouseSensitivity < -89
      · simp only [h3, if_true]
        rw [max_eq_left (le_of_lt h3)]
      · simp only [h3, if_false]
        rw [max_eq_right (not_lt.mp h3)]
  · split_ifs <;> rfl

theorem mouseMoves_pitch (cos sin radians rsqrt : K → K) (moves : List (K × K)) :
    ∀ c : Camera K, -89 ≤ c.Pitch ∧ c.Pitch ≤ 89 →
      -89 ≤ (mouseMoves cos sin radians rsqrt moves c).Pitch ∧
        (mouseMoves cos sin radians rsqrt moves c).Pitch ≤ 89 := by
  induction moves with
  | nil => intro c h; exact h
  | cons m rest ih =>
    intro c _
    obtain ⟨x, y⟩ := m
    simp only [mouseMoves]
    apply ih
    rw [(ProcessMouseMovement_pitch cos sin radians rsqrt x y c).1]
    exact clamp_mem (by norm_num) _

/-- C13: after `Camera::ProcessMouseMovement` with `constrainPitch = true` the pitch is
`old Pitch + MouseSensitivity * yoffset` clamped to `[-89, 89]`, so it lies in `[-89, 89]`
whatever the camera and the offsets were, and it stays there along any sequence of such
calls; four calls with `yoffset = 500` on a camera of pitch 0 and sensitivity 0.1, which
ask for 200 degrees in all, end with pitch 89. -/
theorem ProcessMouseMovement_pitch_clamped (cos sin radians rsqrt : K → K) :
    (∀ (c : Camera K) (xoffset yoffset : K),
      (ProcessMouseMovement cos sin radians rsqrt xoffset yoffset true c).Pitch
          = clamp (-89) 89 (c.Pitch + c.MouseSensitivity * yoffset) ∧
        -89 ≤ (ProcessMouseMovement cos sin radians rsqrt xoffset yoffset true c).Pitch ∧
        (ProcessMouseMovement cos sin radians rsqrt xoffset yoffset true c).Pitch ≤ 89) ∧
    (∀ (c : Camera K) (m : K × K) (moves : List (K × K)),
      -89 ≤ (mouseMoves cos sin radians rsqrt (m :: moves) c).Pitch ∧
        (mouseMoves cos sin radians rsqrt (m :: moves) c).Pitch ≤ 89) ∧
    (mouseMoves cos sin radians rsqrt [(0, 500), (0, 500), (0, 500), (0, 500)]
      (freshCamera : Camera K)).Pitch = 89 := by
  refine ⟨?_, ?_, ?_⟩
  · intro c xoffset yoffset
    have h := (ProcessMouseMovement_pitch cos sin radians rsqrt xoffset yoffset c).1
    rw [mul_comm yoffset] at h
    rw [h]
    exact ⟨rfl, clamp_mem (by norm_num) _⟩
  · intro c m moves
    obtain ⟨x, y⟩ := m
    simp only [mouseMoves]
    apply mouseMoves_pitch
    rw [(ProcessMouseMovement_pitch cos sin radians rsqrt x y c).1]
    exact clamp_mem (by norm_num) _
  · have step : ∀ (c : Camera K) (p : K), c.MouseSensitivity = 1 / 10 → c.Pitch = p →
        (ProcessMouseMovement cos sin radians rsqrt 0 500 true c).MouseSensitivity = 1 / 10 ∧
        (ProcessMouseMovement cos sin radians rsqrt 0 500 true c).Pitch
          = clamp (-89) 89 (p + 50) := by
      intro c p hs hp
      obtain ⟨h1, h2⟩ := ProcessMouseMovement_pitch cos sin radians rsqrt 0 500 c
      rw [h1, h2, hs, hp]
      exact ⟨rfl, by norm_num⟩
    simp only [mouseMoves]
    obtain ⟨s1, p1⟩ := step freshCamera 0 rfl rfl
    obtain ⟨s2, p2⟩ := step _ _ s1 p1
    obtain ⟨s3, p3⟩ := step _ _ s2 p2
    obtain ⟨-, p4⟩ := step _ _ s3 p3
    rw [p4]
    simp only [clamp]
    norm_num

/-- C14: after `Camera::ProcessMouseScroll` the zoom lies in `[1, 45]` whatever it was
before; when it started in `[1, 45]` the result is `Zoom - yoffset` clamped to `[1, 45]`. -/
theorem ProcessMouseScroll_zoom (c : Camera K) (yoffset : K) :
    1 ≤ (ProcessMouseScroll yoffset c).Zoom ∧ (ProcessMouseScroll yoffset c).Zoom ≤ 45 ∧
      (1 ≤ c.Zoom → c.Zoom ≤ 45 →
        (ProcessMouseScroll yoffset c).Zoom = clamp 1 45 (c.Zoom - yoffset)) := by
  have key : ∀ z : K, 1 ≤ (if (if z ≤ 1 then (1 : K) else z) ≥ 45 then (45 : K)
        else (if z ≤ 1 then (1 : K) else z)) ∧
      (if (if z ≤ 1 then (1 : K) else z) ≥ 45 then (45 : K)
        else (if z ≤ 1 then (1 : K) else z)) ≤ 45 ∧
      (if (if z ≤ 1 then (1 : K) else z) ≥ 45 then (45 : K)
        else (if z ≤ 1 then (1 : K) else z)) = clamp 1 45 z := by
    intro z
    simp only [clamp]
    by_cases h1 : z ≤ 1
    · have h2 : ¬ ((1 : K) ≥ 45) := by norm_num
      simp only [h1, if_true, h2, if_false]
      refine ⟨le_refl _, by norm_num, ?_⟩
      rw [min_eq_right (le_trans h1 (by norm_num)), max_eq_left h1]
    · simp only [h1, if_false]
      by_cases h3 : z ≥ 45
      · simp only [h3, if_true]
        refine ⟨by norm_num, le_refl _, ?_⟩
        rw [min_eq_left h3, max_eq_right (by norm_num)]
      · simp only [h3, if_false]
        have h4 : z ≤ 45 := le_of_lt (not_le.mp h3)
        refine ⟨le_of_lt (not_le.mp h1), h4, ?_⟩
        rw [min_eq_right h4, max_eq_right (le_of_lt (not_le.mp h1))]
  have hz : (ProcessMouseScroll yoffset c).Zoom
      = (if (if (if c.Zoom ≥ 1 ∧ c.Zoom ≤ 45 then c.Zoom - yoffset else c.Zoom) ≤ 1
            then (1 : K) else (if c.Zoom ≥ 1 ∧ c.Zoom ≤ 45 then c.Zoom - yoffset else c.Zoom))
            ≥ 45 then (45 : K)
          else (if (if c.Zoom ≥ 1 ∧ c.Zoom ≤ 45 then c.Zoom - yoffset else c.Zoom) ≤ 1
            then (1 : K)
            else (if c.Zoom ≥ 1 ∧ c.Zoom ≤ 45 then c.Zoom - yoffset else c.Zoom))) := by
    simp only [ProcessMouseScroll]
    split_ifs <;> rfl
  rw [hz]
  obtain ⟨k1, k2, k3⟩ := key (if c.Zoom ≥ 1 ∧ c.Zoom ≤ 45 then c.Zoom - yoffset else c.Zoom)
  refine ⟨k1, k2, ?_⟩
  intro h1 h45
  rw [k3, if_pos ⟨h1, h45⟩]

/-- C14 on a camera with zoom 45: a scroll of 50, which would bring the zoom to -5, leaves
it at 1; a scroll of -6, which would bring it to 51, leaves it at 45. -/
theorem ProcessMouseScroll_zoom_scenario :
    (1 : ℚ) ≤ (freshCamera : Camera ℚ).Zoom ∧ (freshCamera : Camera ℚ).Zoom ≤ 45 ∧
      (freshCamera : Camera ℚ).Zoom - 50 < 0 ∧ 50 < (freshCamera : Camera ℚ).Zoom - (-6) ∧
      (ProcessMouseScroll (50 : ℚ) freshCamera).Zoom = 1 ∧
      (ProcessMouseScroll (-6 : ℚ) freshCamera).Zoom = 45 := by
  have h1 : (1 : ℚ) ≤ (freshCamera : Camera ℚ).Zoom := by simp only [freshCamera]; norm_num
  have h2 : (freshCamera : Camera ℚ).Zoom ≤ 45 := by simp only [freshCamera]; norm_num
  refine ⟨h1, h2, by simp only [freshCamera]; norm_num, by simp only [freshCamera]; norm_num,
    ?_, ?_⟩
  · rw [(ProcessMouseScroll_zoom freshCamera 50).2.2 h1 h2]
    simp only [freshCamera, clamp]; norm_num
  · rw [(ProcessMouseScroll_zoom freshCamera (-6)).2.2 h1 h2]
    simp only [freshCamera, clamp]; norm_num

end FreeCameraTheorems

/-! ## Theorems: entering the track, the distance budget, the window of u -/

section TrackCameraTheorems

variable {K : Type} [LinearOrderedField K]

theorem distanceBudget_of_le (sqrt : K → K) (deltaTime : K) (c : Camera K)
    (h : c.Position.y ≤ heightMax) :
    distanceBudget sqrt deltaTime c = some (clampedBudget sqrt deltaTime c) := by
  have hg : (0 : K) < 2 * gravity := by simp only [gravity]; norm_num
  have hd : 0 ≤ heightMax - c.Position.y := sub_nonneg.mpr h
  have hrad : ¬ (2 * gravity * (heightMax - c.Position.y) < 0) :=
    not_lt.mpr (mul_nonneg (le_of_lt hg) hd)
  simp only [distanceBudget, nsqrt, hrad, if_false, Option.map_some', clampedBudget,
    max_eq_right hd]

theorem distanceBudget_of_gt (sqrt : K → K) (deltaTime : K) (c : Camera K)
    (h : heightMax < c.Position.y) : distanceBudget sqrt deltaTime c = none := by
  have hg : (0 : K) < 2 * gravity := by simp only [gravity]; norm_num
  have hrad : 2 * gravity * (heightMax - c.Position.y) < 0 :=
    mul_neg_of_pos_of_neg hg (sub_neg.mpr h)
  simp only [distanceBudget, nsqrt, hrad, if_true, Option.map_none']

theorem clampedBudget_of_ge (sqrt : K → K) (hsqrt : IsSqrt sqrt) (deltaTime : K) (c : Camera K)
    (h : heightMax ≤ c.Position.y) : clampedBudget sqrt deltaTime c = 0 := by
  simp only [clampedBudget, max_eq_left (sub_nonpos.mpr h), mul_zero,
    sqrt_zero_of_isSqrt hsqrt, zero_mul, zero_div]

theorem trackBound_cast {n : Nat} (h : 4 ≤ n) (h2 : n < 2 ^ 64) :
    ((trackBound n : Nat) : K) = (n : K) - 3 := by
  rw [trackBound_of_ge h h2, Nat.cast_sub (by omega)]
  norm_num

variable [FloorRing K]

/-- C12: with `onTrack = false`, `Camera::ProcessTrackMovement` only performs the transition
onto the track.  It returns, without any micro-step, the camera with `onTrack = true`,
`u = 0`, `Position = (0,0,0)`, `Front = (0,0,1)`, `Up = (0,1,0)`, `Right = (1,0,0)` and the
`prev` fields equal to these; the other fields are kept, and the result is the same for
every `deltaTime`, every track and every bound on the micro-steps. -/
theorem ProcessTrackMovement_offTrack (sqrt rsqrt : K → K) (fuel : Nat) (deltaTime : K)
    (cps : List (Vec3 K)) (c : Camera K) (h : c.onTrack = false) :
    ∃ c', ProcessTrackMovement sqrt rsqrt fuel deltaTime cps c = Outcome.returned c' ∧
      c'.onTrack = true ∧ c'.u = 0 ∧ c'.Position = ⟨0, 0, 0⟩ ∧
      c'.Front = some ⟨0, 0, 1⟩ ∧ c'.Up = some ⟨0, 1, 0⟩ ∧ c'.Right = some ⟨1, 0, 0⟩ ∧
      c'.prevPosition = c'.Position ∧ c'.prevFront = c'.Front ∧ c'.prevUp = c'.Up ∧
      c'.prevRight = c'.Right ∧
      c'.Yaw = c.Yaw ∧ c'.Pitch = c.Pitch ∧ c'.Zoom = c.Zoom ∧ c'.WorldUp = c.WorldUp ∧
      c'.MovementSpeed = c.MovementSpeed ∧ c'.MouseSensitivity = c.MouseSensitivity ∧
      (∀ (sqrt2 rsqrt2 : K → K) (fuel2 : Nat) (deltaTime2 : K) (cps2 : List (Vec3 K)),
        ProcessTrackMovement sqrt2 rsqrt2 fuel2 deltaTime2 cps2 c = Outcome.returned c') := by
  refine ⟨enterTrack c, ?_, rfl, rfl, rfl, rfl, rfl, rfl, rfl, rfl, rfl, rfl, rfl, rfl, rfl,
    rfl, rfl, rfl, ?_⟩
  · simp only [ProcessTrackMovement, h, if_true]
  · intro sqrt2 rsqrt2 fuel2 deltaTime2 cps2
    simp only [ProcessTrackMovement, h, if_true]

theorem ProcessTrackMovement_onTrack (sqrt rsqrt : K → K) (fuel : Nat) (deltaTime : K)
    (cps : List (Vec3 K)) (c : Camera K) (h : c.onTrack = true) :
    ProcessTrackMovement sqrt rsqrt fuel deltaTime cps c
      = match distanceBudget sqrt deltaTime c with
        | none => Outcome.returned (snapshot c)
        | some distance =>
          match budgetLoop sqrt rsqrt cps fuel distance (snapshot c) with
          | Outcome.returned (_, c) => Outcome.returned c
          | Outcome.outOfFuel => Outcome.outOfFuel
          | Outcome.failed => Outcome.failed := by
  simp only [ProcessTrackMovement, h, Bool.true_eq_false, if_false, distanceBudget, nsqrt,
    snapshot]
  split_ifs <;> rfl

/-- C11, as the code has it.  In an On-track step the call runs the loop on the budget
`sqrt(2 * g * (heightMax - Position.y)) * deltaTime / 4` with `g = 9.8` and
`heightMax = 25`.  For `Position.y ≤ heightMax` this is the budget of the specification,
with the height difference clamped at 0, and it is 0 at `Position.y = heightMax`.  For
`Position.y > heightMax` nothing is clamped: the square root of a negative number is taken
and the budget is NaN.  In both cases of `Position.y ≥ heightMax` the loop body does not
run and the step leaves `u`, `Position`, `Front`, `Up` and `Right` unchanged. -/
theorem distanceBudget_spec (sqrt : K → K) (hsqrt : IsSqrt sqrt) (deltaTime : K)
    (cps : List (Vec3 K)) (c : Camera K) (hon : c.onTrack = true) :
    ((gravity : K) = 98 / 10 ∧ (heightMax : K) = 25) ∧
    (∀ (rsqrt : K → K) (fuel : Nat),
      ProcessTrackMovement sqrt rsqrt fuel deltaTime cps c
        = match distanceBudget sqrt deltaTime c with
          | none => Outcome.returned (snapshot c)
          | some distance =>
            match budgetLoop sqrt rsqrt cps fuel distance (snapshot c) with
            | Outcome.returned (_, c) => Outcome.returned c
            | Outcome.outOfFuel => Outcome.outOfFuel
            | Outcome.failed => Outcome.failed) ∧
    (c.Position.y ≤ heightMax →
      distanceBudget sqrt deltaTime c = some (clampedBudget sqrt deltaTime c)) ∧
    (c.Position.y = heightMax → distanceBudget sqrt deltaTime c = some 0) ∧
    (heightMax < c.Position.y →
      distanceBudget sqrt deltaTime c = none ∧ clampedBudget sqrt deltaTime c = 0) ∧
    (heightMax ≤ c.Position.y → ∀ (rsqrt : K → K) (fuel : Nat),
      ∃ c', ProcessTrackMovement sqrt rsqrt fuel deltaTime cps c = Outcome.returned c' ∧
        c'.u = c.u ∧ c'.Position = c.Position ∧ c'.Front = c.Front ∧ c'.Up = c.Up ∧
        c'.Right = c.Right) := by
  refine ⟨⟨by simp only [gravity]; norm_num, rfl⟩,
    fun rsqrt fuel => ProcessTrackMovement_onTrack sqrt rsqrt fuel deltaTime cps c hon,
    distanceBudget_of_le sqrt deltaTime c, ?_,
    fun h => ⟨distanceBudget_of_gt sqrt deltaTime c h,
      clampedBudget_of_ge sqrt hsqrt deltaTime c (le_of_lt h)⟩, ?_⟩
  · intro h
    rw [distanceBudget_of_le sqrt deltaTime c (le_of_eq h),
      clampedBudget_of_ge sqrt hsqrt deltaTime c (le_of_eq h.symm)]
  · intro h rsqrt fuel
    refine ⟨snapshot c, ?_, rfl, rfl, rfl, rfl, rfl⟩
    rw [ProcessTrackMovement_onTrack sqrt rsqrt fuel deltaTime cps c hon]
    rcases lt_or_eq_of_le h with hlt | heq
    · rw [distanceBudget_of_gt sqrt deltaTime c hlt]
    · rw [distanceBudget_of_le sqrt deltaTime c (le_of_eq heq.symm),
        clampedBudget_of_ge sqrt hsqrt deltaTime c h]
      simp only []
      rw [budgetLoop_done sqrt rsqrt cps fuel _ (lt_irrefl 0)]

theorem modfInt_of_neg {s : K} (hs : s < 0) : modfInt s = ⌈s⌉ := by
  simp [modfInt, not_le.mpr hs]

/-- C16, as the code has it.  For every `s` and at least 4 control points, `get_point(s)`
is the tension-0.5 blend of the control points of index `|i + k| mod N`, `k = 0..3`, at the
local coordinate `s - i`, where `i` is `s` rounded towards zero; every index is below `N`.
For `s ≥ 0`, `i = floor(s)`, the indices are `(floor(s) + k) mod N` and the coordinate lies
in `[0,1)`; for `s < 0`, `i = ceil(s)` and the coordinate lies in `(-1, 0]`. -/
theorem get_point_any_parameter (cps : List (Vec3 K)) (s : K) (hN : 4 ≤ cps.length) :
    (∃ P0 P1 P2 P3,
      cps[(modfInt s + 0).natAbs % cps.length]? = some P0 ∧
      cps[(modfInt s + 1).natAbs % cps.length]? = some P1 ∧
      cps[(modfInt s + 2).natAbs % cps.length]? = some P2 ∧
      cps[(modfInt s + 3).natAbs % cps.length]? = some P3 ∧
      get_point cps s = some (catmullRomHalf P0 P1 P2 P3 (s - (modfInt s : K)))) ∧
    (∀ k : Int, (modfInt s + k).natAbs % cps.length < cps.length) ∧
    (0 ≤ s → modfInt s = ⌊s⌋ ∧ 0 ≤ s - (modfInt s : K) ∧ s - (modfInt s : K) < 1 ∧
      ∀ k : Int, 0 ≤ k →
        (modfInt s + k).natAbs % cps.length = ((⌊s⌋ + k) % (cps.length : Int)).toNat) ∧
    (s < 0 → modfInt s = ⌈s⌉ ∧ -1 < s - (modfInt s : K) ∧ s - (modfInt s : K) ≤ 0) := by
  have hpos : 0 < cps.length := by omega
  refine ⟨?_, fun k => Nat.mod_lt _ hpos, ?_, ?_⟩
  · obtain ⟨pA, pB, pC, pD, hA, hB, hC, hD, h⟩ := get_point_eq_some cps s hpos
    exact ⟨pA, pB, pC, pD, hA, hB, hC, hD, by rw [h, interpolate_half]; rfl⟩
  · intro hs
    rw [modfInt_of_nonneg hs]
    refine ⟨rfl, sub_nonneg.mpr (Int.floor_le s), by linarith [Int.lt_floor_add_one s], ?_⟩
    intro k hk
    have hfl : 0 ≤ ⌊s⌋ := Int.floor_nonneg.mpr hs
    exact pointIndex_of_nonneg cps.length (by omega)
  · intro hs
    rw [modfInt_of_neg hs]
    exact ⟨rfl, by linarith [Int.ceil_lt_add_one s], sub_nonpos.mpr (Int.le_ceil s)⟩

theorem microStep_window (sqrt rsqrt : K → K) (cps : List (Vec3 K)) (hN : 4 ≤ cps.length)
    (hN2 : cps.length < 2 ^ 64) (d d' : K) (c c' : Camera K)
    (hs : microStep sqrt rsqrt cps d c = some (d', c'))
    (hc : 0 ≤ c.u ∧ c.u ≤ (cps.length : K) - 3 + 1 / 200) :
    0 ≤ c'.u ∧ c'.u ≤ (cps.length : K) - 3 + 1 / 200 := by
  have hb := trackBound_cast (K := K) hN hN2
  have h1 : (1 : K) ≤ (cps.length : K) - 3 := by
    rw [← hb]; exact one_le_trackBound hN hN2
  rcases microStep_cases sqrt rsqrt cps d d' c c' hs with ⟨-, -, h2⟩ | ⟨hu, h2, -, -⟩
  · rw [h2]
    simp only [lapReset]
    constructor <;> linarith
  · rw [h2]
    rw [hb] at hu
    constructor <;> linarith [hc.1, not_lt.mp hu]

theorem budgetLoop_window (sqrt rsqrt : K → K) (cps : List (Vec3 K)) (hN : 4 ≤ cps.length)
    (hN2 : cps.length < 2 ^ 64) :
    ∀ (fuel : Nat) (d : K) (c : Camera K) (r : K × Camera K),
      budgetLoop sqrt rsqrt cps fuel d c = Outcome.returned r →
      (0 ≤ c.u ∧ c.u ≤ (cps.length : K) - 3 + 1 / 200) →
      0 ≤ r.2.u ∧ r.2.u ≤ (cps.length : K) - 3 + 1 / 200 := by
  intro fuel
  induction fuel with
  | zero =>
    intro d c r hr hc
    by_cases hd : 0 < d
    · rw [budgetLoop_zero sqrt rsqrt cps c hd] at hr
      cases hr
    · rw [budgetLoop_done sqrt rsqrt cps 0 c hd] at hr
      cases hr
      exact hc
  | succ fuel ih =>
    intro d c r hr hc
    by_cases hd : 0 < d
    · cases hs : microStep sqrt rsqrt cps d c with
      | none =>
        unfold budgetLoop at hr
        simp only [hd, if_true, hs] at hr
        cases hr
      | some p =>
        obtain ⟨d', c'⟩ := p
        rw [budgetLoop_succ sqrt rsqrt cps fuel hd hs] at hr
        exact ih d' c' r hr (microStep_window sqrt rsqrt cps hN hN2 d d' c c' hs hc)
    · rw [budgetLoop_done sqrt rsqrt cps _ c hd] at hr
      cases hr
      exact hc

end TrackCameraTheorems

/-! ## Theorems: short tracks and the connected ribbon -/

section PrintTheorems

theorem printVertices_none {K : Type} (vertices : List (Vertex K)) :
    ∀ (n i : Nat), i + n ≤ vertices.length → printVertices vertices n i = none := by
  intro n
  induction n with
  | zero => intro i _; rfl
  | succ n ih =>
    intro i h
    have hi : i < vertices.length := by omega
    simp only [printVertices, List.getElem?_eq_getElem hi]
    exact ih (i + 1) (by omega)

end PrintTheorems

section RibbonTheorems

variable {K : Type} [LinearOrderedField K]

theorem ribbon_cons_cons (f0 f1 : Orientation K) (rest : List (Orientation K)) :
    ribbon (f0 :: f1 :: rest) = makeRailPart [] f0 f1 ++ ribbon (f1 :: rest) := by
  simp only [ribbon]

/-- The `k`-th block of 24 vertices of a ribbon is the segment between the frames `k` and
`k + 1` of the list. -/
theorem ribbon_getElem (j : Nat) (hj : j < 24) :
    ∀ (k : Nat) (fs : List (Orientation K)) (p c : Orientation K),
      fs[k]? = some p → fs[k + 1]? = some c →
      (ribbon fs)[24 * k + j]? = (makeRailPart [] p c)[j]? := by
  intro k
  induction k with
  | zero =>
    intro fs p c hp hc
    match fs, hp, hc with
    | f0 :: f1 :: rest, hp, hc =>
      simp only [List.getElem?_cons_zero, List.getElem?_cons_succ, Option.some.injEq] at hp hc
      subst hp hc
      rw [ribbon_cons_cons, Nat.mul_zero, Nat.zero_add,
        List.getElem?_append_left (by rw [makeRailPart_length]; exact hj)]
  | succ k ih =>
    intro fs p c hp hc
    match fs, hp, hc with
    | f0 :: f1 :: rest, hp, hc =>
      rw [List.getElem?_cons_succ] at hp hc
      rw [ribbon_cons_cons, List.getElem?_append_right (by rw [makeRailPart_length]; omega),
        makeRailPart_length, show 24 * (k + 1) + j - 24 = 24 * k + j by omega]
      exact ih (f1 :: rest) p c hp hc

theorem ribbon_length : ∀ fs : List (Orientation K), (ribbon fs).length = 24 * (fs.length - 1)
  | [] => rfl
  | [_] => rfl
  | f0 :: f1 :: rest => by
    rw [ribbon_cons_cons, List.length_append, makeRailPart_length, ribbon_length (f1 :: rest)]
    simp only [List.length_cons]
    omega

/-- The positions of the vertices of a segment that hold its corners: `a1`, `a2`, `b2` at
0, 1, 2; `b1` at 4; `a3`, `a4`, `b4` at 6, 7, 8; `b3` at 10. -/
theorem makeRailPart_corners (p c : Orientation K) :
    ((makeRailPart [] p c)[0]?).map Vertex.Position = some (railCorner1 p) ∧
    ((makeRailPart [] p c)[1]?).map Vertex.Position = some (railCorner2 p) ∧
    ((makeRailPart [] p c)[6]?).map Vertex.Position = some (railCorner3 p) ∧
    ((makeRailPart [] p c)[7]?).map Vertex.Position = some (railCorner4 p) ∧
    ((makeRailPart [] p c)[4]?).map Vertex.Position = some (railCorner1 c) ∧
    ((makeRailPart [] p c)[2]?).map Vertex.Position = some (railCorner2 c) ∧
    ((makeRailPart [] p c)[10]?).map Vertex.Position = some (railCorner3 c) ∧
    ((makeRailPart [] p c)[8]?).map Vertex.Position = some (railCorner4 c) := by
  simp [makeRailPart, make_triangle, set_normals, railCorner1, railCorner2, railCorner3,
    railCorner4]

theorem loadControlPoints_head (points : List (Vec3 K)) (h : 0 < points.length) :
    (loadControlPoints (⟨-2, 0, -2⟩ : Vec3 K) [] points).length = points.length ∧
      ∃ o, (loadControlPoints (⟨-2, 0, -2⟩ : Vec3 K) [] points)[0]? = some o := by
  have hlen : (loadControlPoints (⟨-2, 0, -2⟩ : Vec3 K) [] points).length = points.length := by
    rw [loadControlPoints_length]; simp
  exact ⟨hlen, _, List.getElem?_eq_getElem (by omega)⟩

variable [FloorRing K]

theorem railLoop_ribbon (rsqrt : K → K) (cps : List (Vec3 K)) (bound step : K)
    (hN : 0 < cps.length) (hstep : 0 < step) :
    ∀ (n : Nat) (u : K) (current : Orientation K) (vertices : List (Vertex K)),
      (⌈(bound - u) / step⌉).toNat = n →
      ∃ last frames, railLoop rsqrt cps bound step u current vertices
          = some (last, vertices ++ ribbon (current :: frames)) ∧ frames.length = n := by
  intro n
  induction n with
  | zero =>
    intro u current vertices hn
    by_cases hu : u < bound
    · have := ceil_step_measure hu hstep
      omega
    · refine ⟨current, [], ?_, rfl⟩
      rw [railLoop]
      simp only [hu, dite_false, ribbon, List.append_nil]
  | succ m ih =>
    intro u current vertices hn
    by_cases hu : u < bound
    · have hm := ceil_step_measure hu hstep
      obtain ⟨pA, pB, pC, pD, -, -, -, -, hp⟩ := get_point_eq_some cps u hN
      rw [railLoop_step rsqrt cps bound step u current vertices _ hu hstep hp]
      obtain ⟨last, frames, hrun, hlen⟩ := ih (u + step)
        (propagate rsqrt current (interpolate pA pB pC pD (1 / 2) (modfFrac u)))
        (makeRailPart vertices current
          (propagate rsqrt current (interpolate pA pB pC pD (1 / 2) (modfFrac u))))
        (by omega)
      refine ⟨last,
        propagate rsqrt current (interpolate pA pB pC pD (1 / 2) (modfFrac u)) :: frames, ?_, ?_⟩
      · rw [hrun, makeRailPart_append, List.append_assoc, ribbon_cons_cons]
      · simp only [List.length_cons, hlen]
    · have := ceil_measure_zero hu hstep
      omega

theorem create_trackWith_of_railLoop (rsqrt : K → K) (u0 step : K) (points : List (Vec3 K))
    (o : Vec3 K) (last : Orientation K) (vertices : List (Vertex K))
    (h0 : (loadControlPoints (⟨-2, 0, -2⟩ : Vec3 K) [] points)[0]? = some o)
    (hrun : railLoop rsqrt (loadControlPoints (⟨-2, 0, -2⟩ : Vec3 K) [] points)
      ((((loadControlPoints (⟨-2, 0, -2⟩ : Vec3 K) [] points).length : Int) - 3 : Int) : K)
      step u0 (trackSeed o) [] = some (last, vertices)) :
    create_trackWith rsqrt u0 step points
      = some (loadControlPoints (⟨-2, 0, -2⟩ : Vec3 K) [] points, vertices) := by
  simp only [create_trackWith, h0]
  simp only [Option.bind_eq_bind, Option.some_bind, hrun]
  rfl

/-- C15, as the code has it.  A control-point sequence of length 1, 2 or 3 is not rejected
by `Track::get_point`, which returns a position for every `s` (its four indices wrap around
the short sequence).  `Track::create_track` on 1, 2 or 3 loaded points samples no segment
and leaves the mesh empty, and the constructor then aborts with the `std::out_of_range` of
`vertices.at(0)`; with at least 4 loaded points the constructor builds the track. -/
theorem short_track_construction (rsqrt : K → K) :
    (∀ (cps : List (Vec3 K)) (s : K), 1 ≤ cps.length → cps.length ≤ 3 →
      ∃ p, get_point cps s = some p) ∧
    (∀ points : List (Vec3 K), 1 ≤ points.length → points.length ≤ 3 →
      ∃ cps, cps.length = points.length ∧ create_track rsqrt points = some (cps, []) ∧
        Track.construct rsqrt points = Construction.outOfRange 0) ∧
    (∀ points : List (Vec3 K), 4 ≤ points.length →
      ∃ t, Track.construct rsqrt points = Construction.built t ∧
        t.controlPoints.length = points.length ∧ 24 ≤ t.vertices.length) := by
  refine ⟨?_, ?_, ?_⟩
  · intro cps s h1 _
    obtain ⟨pA, pB, pC, pD, -, -, -, -, h⟩ := get_point_eq_some cps s (by omega)
    exact ⟨_, h⟩
  · intro points h1 h3
    obtain ⟨hlen, o, ho⟩ := loadControlPoints_head points (by omega)
    have hb : ¬ ((1 / 10 : K) < ((((loadControlPoints (⟨-2, 0, -2⟩ : Vec3 K) [] points).length
        : Int) - 3 : Int) : K)) := by
      rw [hlen, not_lt]
      have : ((points.length : Int) - 3 : Int) ≤ 0 := by omega
      have h2 : ((((points.length : Int) - 3 : Int)) : K) ≤ 0 := by exact_mod_cast this
      linarith
    have hrun : railLoop rsqrt (loadControlPoints (⟨-2, 0, -2⟩ : Vec3 K) [] points)
        ((((loadControlPoints (⟨-2, 0, -2⟩ : Vec3 K) [] points).length : Int) - 3 : Int) : K)
        (1 / 10) (1 / 10) (trackSeed o) [] = some (trackSeed o, []) := by
      rw [railLoop]
      simp only [hb, dite_false]
    have hct := create_trackWith_of_railLoop rsqrt (1 / 10) (1 / 10) points o _ _ ho hrun
    refine ⟨_, hlen, hct, ?_⟩
    simp only [Track.construct, create_track, hct]
    rfl
  · intro points h4
    obtain ⟨hlen, o, ho⟩ := loadControlPoints_head points (by omega)
    have hb : (1 / 10 : K) < ((((loadControlPoints (⟨-2, 0, -2⟩ : Vec3 K) [] points).length
        : Int) - 3 : Int) : K) := by
      rw [hlen]
      have : (1 : Int) ≤ ((points.length : Int) - 3 : Int) := by omega
      have h2 : (1 : K) ≤ ((((points.length : Int) - 3 : Int)) : K) := by exact_mod_cast this
      linarith
    obtain ⟨last, frames, hrun, hfr⟩ := railLoop_ribbon rsqrt
      (loadControlPoints (⟨-2, 0, -2⟩ : Vec3 K) [] points)
      ((((loadControlPoints (⟨-2, 0, -2⟩ : Vec3 K) [] points).length : Int) - 3 : Int) : K)
      (1 / 10) (by omega) (by norm_num) _ (1 / 10) (trackSeed o) [] rfl
    have hm := ceil_step_measure hb (by norm_num : (0 : K) < 1 / 10)
    have hct := create_trackWith_of_railLoop rsqrt (1 / 10) (1 / 10) points o _ _ ho hrun
    have hlen24 : 24 ≤ ([] ++ ribbon (trackSeed o :: frames)).length := by
      rw [List.nil_append, ribbon_length, List.length_cons]
      omega
    have hpv := printVertices_none ([] ++ ribbon (trackSeed o :: frames)) 24 0 (by omega)
    refine ⟨⟨_, _⟩, ?_, hlen, hlen24⟩
    simp only [Track.construct, create_track, hct, hpv]

end RibbonTheorems

/-! ## Theorems: the normals of a rail segment -/

section NormalTheorems

variable {K : Type} [LinearOrderedField K]

theorem normalize_unit {rsqrt : K → K} (h : IsInvSqrt rsqrt) {v : Vec3 K}
    (hv : Vec3.dot v v = 1) : normalize rsqrt v = some v := by
  have hne : Vec3.dot v v ≠ 0 := by rw [hv]; exact one_ne_zero
  have hone : (1 : K) • v = v := by ext <;> simp
  rw [normalize, if_neg hne, hv, rsqrt_one h, hone]

theorem normalize_x {rsqrt : K → K} (h : IsInvSqrt rsqrt) {d : K} (hd : 0 < d) :
    normalize rsqrt (⟨d, 0, 0⟩ : Vec3 K) = some ⟨1, 0, 0⟩ := by
  have hdot : Vec3.dot (⟨d, 0, 0⟩ : Vec3 K) ⟨d, 0, 0⟩ = d * d := by
    simp [Vec3.dot]
  have hpos : 0 < d * d := mul_pos hd hd
  obtain ⟨hr, hsq⟩ := h (d * d) hpos
  have h1 : rsqrt (d * d) * d = 1 := by
    have hp : 0 < rsqrt (d * d) * d := mul_pos hr hd
    nlinarith
  have hv : rsqrt (d * d) • (⟨d, 0, 0⟩ : Vec3 K) = ⟨1, 0, 0⟩ := by
    ext <;> simp [h1]
  rw [normalize, hdot, if_neg (ne_of_gt hpos), hv]

/-- The frame after a step along the x axis from a frame whose `Up` is `(0,1,0)`. -/
theorem propagate_along_x {rsqrt : K → K} (h : IsInvSqrt rsqrt) (current : Orientation K)
    (x0 x1 : K) (ho : current.origin = ⟨x0, 0, 0⟩) (hup : current.Up = some ⟨0, 1, 0⟩)
    (hx : x0 < x1) : propagate rsqrt current ⟨x1, 0, 0⟩ = straightFrame x1 := by
  have hd : (⟨x1, 0, 0⟩ : Vec3 K) - current.origin = ⟨x1 - x0, 0, 0⟩ := by
    rw [ho]; ext <;> simp
  have hc1 : Vec3.cross (⟨0, 1, 0⟩ : Vec3 K) ⟨1, 0, 0⟩ = ⟨0, 0, -1⟩ := by
    ext <;> simp [Vec3.cross]
  have hc2 : Vec3.cross (⟨1, 0, 0⟩ : Vec3 K) ⟨0, 0, -1⟩ = ⟨0, 1, 0⟩ := by
    ext <;> simp [Vec3.cross]
  have hn1 : normalize rsqrt (⟨0, 0, -1⟩ : Vec3 K) = some ⟨0, 0, -1⟩ :=
    normalize_unit h (by simp [Vec3.dot])
  have hn2 : normalize rsqrt (⟨0, 1, 0⟩ : Vec3 K) = some ⟨0, 1, 0⟩ :=
    normalize_unit h (by simp [Vec3.dot])
  simp only [propagate, hd, normalize_x h (sub_pos.mpr hx), hup, nlift2, hc1, Option.bind,
    hn1, hc2, hn2, straightFrame]

/-- The eight triangles of the segment between two frames of the straight track, `h` apart:
the normals stored on the left and top faces (triangles 0, 1, 4, 5) face outward, those on
the right and bottom faces (triangles 2, 3, 6, 7) face inward. -/
theorem triangleOutward_straight (x h : K) :
    List.map (triangleOutward (straightFrame x) (straightFrame (x + h))) [0, 1, 2, 3, 4, 5, 6, 7]
      = [some (h / 5), some (h / 5), some (-(h / 5)), some (-(h / 5)),
         some (h / 5), some (h / 5), some (-(h / 5)), some (-(h / 5))] := by
  simp only [List.map, triangleOutward, makeRailPart, make_triangle, set_normals, Vertex.init,
    straightFrame, segmentCentre, railCorner1, railCorner2, railCorner3, railCorner4, nsub, nadd,
    nscale, nlift2, Option.map, List.nil_append, List.append_assoc, List.cons_append,
    List.getElem?_cons_zero, List.getElem?_cons_succ, if_true]
  simp [Vec3.dot, Vec3.cross]
  refine ⟨?_, ?_, ?_, ?_, ?_, ?_, ?_, ?_⟩ <;> ring

end NormalTheorems

/-! ## Theorems: evaluations of the spline on the test tracks -/

section EvaluationTheorems

variable {K : Type} [LinearOrderedField K]

theorem loadControlPoints_straightPoints :
    loadControlPoints (⟨-2, 0, -2⟩ : Vec3 K) [] straightPoints = straightTrack := by
  simp only [straightPoints, straightTrack, loadControlPoints, List.nil_append,
    List.cons_append]
  simp [Vec3.ext_iff]
  norm_num

variable [FloorRing K]

/-- On the straight track the first segment of the spline runs from `(1,0,0)` to `(2,0,0)`
at unit speed. -/
theorem get_point_straightTrack (t : K) (h0 : 0 ≤ t) (h1 : t < 1) :
    get_point (straightTrack : List (Vec3 K)) t = some ⟨1 + t, 0, 0⟩ := by
  have hfl : modfInt t = 0 := by
    rw [modfInt_of_nonneg h0, Int.floor_eq_iff]
    constructor
    · simpa using h0
    · simpa using h1
  have hfr : modfFrac t = t := by simp [modfFrac, hfl]
  have e : interpolate (⟨0, 0, 0⟩ : Vec3 K) ⟨1, 0, 0⟩ ⟨2, 0, 0⟩ ⟨3, 0, 0⟩ (1 / 2) t
      = ⟨1 + t, 0, 0⟩ := by
    ext
    · simp [interpolate]; ring
    · simp [interpolate]
    · simp [interpolate]
  simp only [get_point, hfl, hfr, straightTrack, List.length_cons, List.length_nil, pointIndex]
  rw [← e]
  rfl

/-- The value of `get_point` on the unit-square loop at `s = -1/2`: `modf` gives the
integral part 0 and the fraction `-1/2`. -/
theorem get_point_unitSquare_neg_half :
    modfInt (-1 / 2 : ℚ) = 0 ∧ modfFrac (-1 / 2 : ℚ) = -1 / 2 ∧
      get_point unitSquare (-1 / 2) = some ⟨5 / 8, 0, 1 / 4⟩ := by
  have hfl : modfInt (-1 / 2 : ℚ) = 0 := by
    rw [modfInt_of_neg (by norm_num), Int.ceil_eq_iff]
    constructor <;> norm_num
  have hfr : modfFrac (-1 / 2 : ℚ) = -1 / 2 := by simp [modfFrac, hfl]
  refine ⟨hfl, hfr, ?_⟩
  simp only [get_point, hfl, hfr, unitSquare, List.length_cons, List.length_nil, pointIndex]
  simp [interpolate, Vec3.ext_iff]
  norm_num

end EvaluationTheorems

/-! ## Theorems: the remaining claims on concrete inputs -/

section Scenarios

/-- C11 over the reals: for the camera that has just entered the track (height 0) and
`deltaTime = 1` the budget is the clamped budget of the specification. -/
theorem distanceBudget_spec_enterTrack :
    IsSqrt (fun x : ℝ => Real.sqrt x) ∧ (enterTrack (freshCamera : Camera ℝ)).onTrack = true ∧
      (enterTrack (freshCamera : Camera ℝ)).Position.y ≤ heightMax ∧
      distanceBudget (fun x : ℝ => Real.sqrt x) 1 (enterTrack freshCamera)
        = some (clampedBudget (fun x : ℝ => Real.sqrt x) 1 (enterTrack freshCamera)) := by
  have hy : (enterTrack (freshCamera : Camera ℝ)).Position.y ≤ heightMax := by
    simp only [enterTrack, heightMax]; norm_num
  exact ⟨isSqrt_real, rfl, hy,
    (distanceBudget_spec (fun x : ℝ => Real.sqrt x) isSqrt_real 1 (flatTrack 0)
      (enterTrack freshCamera) rfl).2.2.1 hy⟩

/-- C11 fails as stated: for an on-track camera at the height 26, above `heightMax = 25`,
the speed is not clamped: the square root of `2 * 9.8 * (25 - 26) < 0` is taken and the
budget is NaN, not the 0 of the clamped formula. -/
theorem distanceBudget_not_clamped :
    (highCamera : Camera ℝ).onTrack = true ∧
      (heightMax : ℝ) ≤ (highCamera : Camera ℝ).Position.y ∧
      2 * gravity * (heightMax - (highCamera : Camera ℝ).Position.y) < 0 ∧
      distanceBudget (fun x : ℝ => Real.sqrt x) 1 highCamera = none ∧
      clampedBudget (fun x : ℝ => Real.sqrt x) 1 highCamera = 0 ∧
      distanceBudget (fun x : ℝ => Real.sqrt x) 1 highCamera
        ≠ some (clampedBudget (fun x : ℝ => Real.sqrt x) 1 highCamera) := by
  have hy : (heightMax : ℝ) < (highCamera : Camera ℝ).Position.y := by
    simp only [highCamera, heightMax]; norm_num
  have hn := distanceBudget_of_gt (fun x : ℝ => Real.sqrt x) 1 highCamera hy
  refine ⟨rfl, le_of_lt hy, ?_, hn,
    clampedBudget_of_ge (fun x : ℝ => Real.sqrt x) isSqrt_real 1 highCamera (le_of_lt hy), ?_⟩
  · simp only [highCamera, heightMax, gravity]; norm_num
  · rw [hn]; exact fun h => Option.noConfusion h

/-- C12 over the reals: the camera with the defaults of the constructor, which is off the
track, enters the track without moving, also with no micro-step allowed. -/
theorem ProcessTrackMovement_offTrack_fresh :
    (freshCamera : Camera ℝ).onTrack = false ∧
      ∃ c', ProcessTrackMovement (fun x : ℝ => Real.sqrt x) (fun x : ℝ => (Real.sqrt x)⁻¹) 0 1
          (flatTrack (0 : Vec3 ℝ)) freshCamera = Outcome.returned c' ∧
        c'.onTrack = true ∧ c'.u = 0 ∧ c'.Position = ⟨0, 0, 0⟩ := by
  refine ⟨rfl, ?_⟩
  obtain ⟨c', h1, h2, h3, h4, -⟩ := ProcessTrackMovement_offTrack (fun x : ℝ => Real.sqrt x)
    (fun x : ℝ => (Real.sqrt x)⁻¹) 0 1 (flatTrack (0 : Vec3 ℝ)) freshCamera rfl
  exact ⟨c', h1, h2, h3, h4⟩

/-- C15 over the reals: the constructor on three loaded points aborts with the
`std::out_of_range` of `vertices.at(0)`, the mesh being empty. -/
theorem short_track_construction_three :
    1 ≤ ([⟨2, 0, 2⟩, ⟨1 / 2, 0, 0⟩, ⟨0, 0, 1 / 2⟩] : List (Vec3 ℝ)).length ∧
      ([⟨2, 0, 2⟩, ⟨1 / 2, 0, 0⟩, ⟨0, 0, 1 / 2⟩] : List (Vec3 ℝ)).length ≤ 3 ∧
      ∃ cps, create_track (fun x : ℝ => (Real.sqrt x)⁻¹)
          [⟨2, 0, 2⟩, ⟨1 / 2, 0, 0⟩, ⟨0, 0, 1 / 2⟩] = some (cps, []) ∧
        Track.construct (fun x : ℝ => (Real.sqrt x)⁻¹)
          [⟨2, 0, 2⟩, ⟨1 / 2, 0, 0⟩, ⟨0, 0, 1 / 2⟩] = Construction.outOfRange 0 := by
  refine ⟨by decide, by decide, ?_⟩
  obtain ⟨cps, -, h1, h2⟩ := (short_track_construction (fun x : ℝ => (Real.sqrt x)⁻¹)).2.1
    [⟨2, 0, 2⟩, ⟨1 / 2, 0, 0⟩, ⟨0, 0, 1 / 2⟩] (by decide) (by decide)
  exact ⟨cps, h1, h2⟩

/-- C15 fails as stated: on the three control points `(0,0,0)`, `(1,0,0)`, `(1,0,1)`
`get_point(0)` does not fail, it returns the position `(1,0,0)`. -/
theorem get_point_shortTrack :
    (shortTrack : List (Vec3 ℚ)).length = 3 ∧
      get_point (shortTrack : List (Vec3 ℚ)) ((0 : Nat) : ℚ) = some ⟨1, 0, 0⟩ := by
  refine ⟨rfl, ?_⟩
  rw [get_point_natCast shortTrack 0 (by decide)]
  rfl

/-- C16 on the unit-square loop at `s = -1/2`: the code rounds to 0, takes the control
points 0, 1, 2, 3 and the local coordinate `-1/2`. -/
theorem get_point_any_parameter_unitSquare :
    4 ≤ unitSquare.length ∧ (-1 / 2 : ℚ) < 0 ∧ modfInt (-1 / 2 : ℚ) = ⌈(-1 / 2 : ℚ)⌉ ∧
      -1 < (-1 / 2 : ℚ) - (modfInt (-1 / 2 : ℚ) : ℚ) ∧
      (-1 / 2 : ℚ) - (modfInt (-1 / 2 : ℚ) : ℚ) ≤ 0 := by
  have h := (get_point_any_parameter unitSquare (-1 / 2 : ℚ) (by decide)).2.2.2
    (by norm_num)
  exact ⟨by decide, by norm_num, h⟩

/-- C16 fails as stated: on the unit-square loop at `s = -1/2` the claim takes
`floor(s) = -1`, the control points 3, 0, 1, 2 and the local coordinate `1/2`, which gives
`(1/2, 0, -1/8)`; the code rounds towards zero, takes the control points 0, 1, 2, 3 and the
local coordinate `-1/2`, outside `[0,1)`, and returns `(5/8, 0, 1/4)`. -/
theorem get_point_negative_not_floor :
    ⌊(-1 / 2 : ℚ)⌋ = -1 ∧ modfInt (-1 / 2 : ℚ) = 0 ∧ modfFrac (-1 / 2 : ℚ) = -1 / 2 ∧
      get_point unitSquare (-1 / 2) = some ⟨5 / 8, 0, 1 / 4⟩ ∧
      catmullRomHalf (⟨0, 0, 1⟩ : Vec3 ℚ) ⟨0, 0, 0⟩ ⟨1, 0, 0⟩ ⟨1, 0, 1⟩
        ((-1 / 2 : ℚ) - ((⌊(-1 / 2 : ℚ)⌋ : Int) : ℚ)) = ⟨1 / 2, 0, -1 / 8⟩ ∧
      get_point unitSquare (-1 / 2)
        ≠ some (catmullRomHalf (⟨0, 0, 1⟩ : Vec3 ℚ) ⟨0, 0, 0⟩ ⟨1, 0, 0⟩ ⟨1, 0, 1⟩
          ((-1 / 2 : ℚ) - ((⌊(-1 / 2 : ℚ)⌋ : Int) : ℚ))) := by
  have hfl : ⌊(-1 / 2 : ℚ)⌋ = -1 := by
    rw [Int.floor_eq_iff]; constructor <;> norm_num
  obtain ⟨h1, h2, h3⟩ := get_point_unitSquare_neg_half
  have hc : catmullRomHalf (⟨0, 0, 1⟩ : Vec3 ℚ) ⟨0, 0, 0⟩ ⟨1, 0, 0⟩ ⟨1, 0, 1⟩
      ((-1 / 2 : ℚ) - ((⌊(-1 / 2 : ℚ)⌋ : Int) : ℚ)) = ⟨1 / 2, 0, -1 / 8⟩ := by
    rw [hfl]
    simp [catmullRomHalf, Vec3.ext_iff]
    norm_num
  refine ⟨hfl, h1, h2, h3, hc, ?_⟩
  rw [h3, hc]
  intro h
  have hx := congrArg (fun v : Option (Vec3 ℚ) => v.map Vec3.x) h
  simp at hx
  norm_num at hx

/-- C17, the code on the straight track.  The five loaded points give the control points
`(0,0,0), (1,0,0), .., (4,0,0)`; the first two samples are `get_point(0.1) = (1.1,0,0)` and
`get_point(0.2) = (1.2,0,0)`; the frames propagated to them from the seed frame both have
`Front = (1,0,0)`, `Up = (0,1,0)`, `Right = (0,0,-1)`, and the second call of `makeRailPart`
is made on these two frames.  Of the 8 triangles of that segment, the normals stored on the
left and top faces have the dot product `1/50` with the vector from the centre of the
segment to the centroid of the triangle, those stored on the right and bottom faces have
`-1/50`: they face inward. -/
theorem rail_normals_straightTrack :
    loadControlPoints (⟨-2, 0, -2⟩ : Vec3 ℝ) [] straightPoints = straightTrack ∧
      get_point (straightTrack : List (Vec3 ℝ)) (1 / 10) = some ⟨11 / 10, 0, 0⟩ ∧
      get_point (straightTrack : List (Vec3 ℝ)) (1 / 10 + 1 / 10) = some ⟨12 / 10, 0, 0⟩ ∧
      propagate (fun x : ℝ => (Real.sqrt x)⁻¹) (trackSeed 0) ⟨11 / 10, 0, 0⟩
        = straightFrame (11 / 10) ∧
      propagate (fun x : ℝ => (Real.sqrt x)⁻¹) (straightFrame (11 / 10)) ⟨12 / 10, 0, 0⟩
        = straightFrame (12 / 10) ∧
      railLoop (fun x : ℝ => (Real.sqrt x)⁻¹) straightTrack 2 (1 / 10) (1 / 10) (trackSeed 0) []
        = railLoop (fun x : ℝ => (Real.sqrt x)⁻¹) straightTrack 2 (1 / 10)
            (1 / 10 + 1 / 10 + 1 / 10) (straightFrame (12 / 10))
            (makeRailPart (makeRailPart [] (trackSeed 0) (straightFrame (11 / 10)))
              (straightFrame (11 / 10)) (straightFrame (12 / 10))) ∧
      List.map (triangleOutward (straightFrame (11 / 10 : ℝ)) (straightFrame (12 / 10)))
          [0, 1, 2, 3, 4, 5, 6, 7]
        = [some (1 / 50), some (1 / 50), some (-(1 / 50)), some (-(1 / 50)),
           some (1 / 50), some (1 / 50), some (-(1 / 50)), some (-(1 / 50))] := by
  have hp1 : get_point (straightTrack : List (Vec3 ℝ)) (1 / 10) = some ⟨11 / 10, 0, 0⟩ := by
    rw [get_point_straightTrack (1 / 10) (by norm_num) (by norm_num)]
    norm_num
  have hp2 : get_point (straightTrack : List (Vec3 ℝ)) (1 / 10 + 1 / 10)
      = some ⟨12 / 10, 0, 0⟩ := by
    rw [get_point_straightTrack (1 / 10 + 1 / 10) (by norm_num) (by norm_num)]
    norm_num
  have hf1 : propagate (fun x : ℝ => (Real.sqrt x)⁻¹) (trackSeed 0) ⟨11 / 10, 0, 0⟩
      = straightFrame (11 / 10) :=
    propagate_along_x isInvSqrt_real (trackSeed 0) 0 (11 / 10) rfl rfl (by norm_num)
  have hf2 : propagate (fun x : ℝ => (Real.sqrt x)⁻¹) (straightFrame (11 / 10))
      ⟨12 / 10, 0, 0⟩ = straightFrame (12 / 10) :=
    propagate_along_x isInvSqrt_real (straightFrame (11 / 10)) (11 / 10) (12 / 10) rfl rfl
      (by norm_num)
  refine ⟨loadControlPoints_straightPoints, hp1, hp2, hf1, hf2, ?_, ?_⟩
  · rw [railLoop_step _ straightTrack 2 (1 / 10) (1 / 10) (trackSeed 0) [] _ (by norm_num)
        (by norm_num) hp1, hf1,
      railLoop_step _ straightTrack 2 (1 / 10) (1 / 10 + 1 / 10) (straightFrame (11 / 10)) _ _
        (by norm_num) (by norm_num) hp2, hf2]
  · have h := triangleOutward_straight (11 / 10 : ℝ) (1 / 10)
    rw [show (11 / 10 : ℝ) + 1 / 10 = 12 / 10 by norm_num,
      show (1 / 10 : ℝ) / 5 = 1 / 50 by norm_num] at h
    exact h

end Scenarios


/-! ## Theorems: the window of the track parameter -/

section WindowTheorems

variable {K : Type} [LinearOrderedField K] [FloorRing K]

/-- With at least 4 control points every micro-step yields a new budget and camera: it
wraps `u` to 1 exactly when `u > N - 3`, and otherwise adds 0.005 to `u`. -/
theorem microStep_total (sqrt rsqrt : K → K) (cps : List (Vec3 K)) (hN : 4 ≤ cps.length)
    (hN2 : cps.length < 2 ^ 64) (d : K) (c : Camera K) :
    ∃ d' c', microStep sqrt rsqrt cps d c = some (d', c') ∧ c'.onTrack = c.onTrack ∧
      (((cps.length : K) - 3 < c.u ∧ c'.u = 1 ∧ d' = d) ∨
       (¬ (cps.length : K) - 3 < c.u ∧ c'.u = c.u + 1 / 200)) := by
  have hb := trackBound_cast (K := K) hN hN2
  by_cases hu : ((trackBound cps.length : Nat) : K) < c.u
  · refine ⟨d, lapReset c, microStep_reset sqrt rsqrt cps d c hu, rfl, Or.inl ⟨?_, rfl, rfl⟩⟩
    rw [← hb]; exact hu
  · obtain ⟨pA, pB, pC, pD, -, -, -, -, hp⟩ :=
      get_point_eq_some cps (c.u + 1 / 200) (by omega)
    obtain ⟨c', hc', -, hu', -, -, hon⟩ := microStep_advance sqrt rsqrt cps d c _ hu hp
    refine ⟨_, c', hc', hon, Or.inr ⟨?_, hu'⟩⟩
    rw [← hb]; exact hu

/-- With at least 4 control points the loop never fails on an access to the control
points: it returns or it is still running when the bound on the micro-steps is reached. -/
theorem budgetLoop_ne_failed (sqrt rsqrt : K → K) (cps : List (Vec3 K)) (hN : 4 ≤ cps.length)
    (hN2 : cps.length < 2 ^ 64) :
    ∀ (fuel : Nat) (d : K) (c : Camera K),
      budgetLoop sqrt rsqrt cps fuel d c ≠ Outcome.failed := by
  intro fuel
  induction fuel with
  | zero =>
    intro d c
    by_cases hd : 0 < d
    · rw [budgetLoop_zero sqrt rsqrt cps c hd]; exact fun h => Outcome.noConfusion h
    · rw [budgetLoop_done sqrt rsqrt cps 0 c hd]; exact fun h => Outcome.noConfusion h
  | succ fuel ih =>
    intro d c
    by_cases hd : 0 < d
    · obtain ⟨d', c', hs, -, -⟩ := microStep_total sqrt rsqrt cps hN hN2 d c
      rw [budgetLoop_succ sqrt rsqrt cps fuel hd hs]
      exact ih d' c'
    · rw [budgetLoop_done sqrt rsqrt cps _ c hd]; exact fun h => Outcome.noConfusion h

/-- Every multiple of 0.005 in the window is the `u` of a reachable state: the camera gets
there by advancing micro-steps from the state in which it entered the track. -/
theorem reachable_multiple (sqrt rsqrt : K → K) (cps : List (Vec3 K)) (hN : 4 ≤ cps.length)
    (hN2 : cps.length < 2 ^ 64) :
    ∀ n : Nat, (n : K) / 200 ≤ (cps.length : K) - 3 + 1 / 200 →
      ∃ c : Camera K, Reachable sqrt rsqrt cps c ∧ c.u = (n : K) / 200 ∧
        c.onTrack = true := by
  intro n
  induction n with
  | zero =>
    intro _
    refine ⟨enterTrack freshCamera, Reachable.enter freshCamera rfl, ?_, rfl⟩
    simp [enterTrack]
  | succ n ih =>
    intro hn
    have hn' : (n : K) / 200 ≤ (cps.length : K) - 3 := by
      push_cast at hn
      linarith
    obtain ⟨c, hr, hu, hon⟩ := ih (by linarith)
    obtain ⟨d', c', hs, hon', h⟩ := microStep_total sqrt rsqrt cps hN hN2 0 c
    rcases h with ⟨hgt, -, -⟩ | ⟨-, hu'⟩
    · exfalso
      rw [hu] at hgt
      exact absurd hn' (not_le.mpr hgt)
    · refine ⟨c', Reachable.micro c c' 0 d' hr hs, ?_, by rw [hon', hon]⟩
      rw [hu', hu]
      push_cast
      ring

/-- A micro-step keeps the flag `onTrack`. -/
theorem microStep_onTrack (sqrt rsqrt : K → K) (cps : List (Vec3 K)) (hN : 4 ≤ cps.length)
    (hN2 : cps.length < 2 ^ 64) (d d' : K) (c c' : Camera K)
    (hs : microStep sqrt rsqrt cps d c = some (d', c')) : c'.onTrack = c.onTrack := by
  obtain ⟨d2, c2, hs2, hon, -⟩ := microStep_total sqrt rsqrt cps hN hN2 d c
  rw [hs2] at hs
  cases hs
  exact hon

/-- The loop keeps the flag `onTrack`. -/
theorem budgetLoop_onTrack (sqrt rsqrt : K → K) (cps : List (Vec3 K)) (hN : 4 ≤ cps.length)
    (hN2 : cps.length < 2 ^ 64) :
    ∀ (fuel : Nat) (d : K) (c : Camera K) (r : K × Camera K),
      budgetLoop sqrt rsqrt cps fuel d c = Outcome.returned r → r.2.onTrack = c.onTrack := by
  intro fuel
  induction fuel with
  | zero =>
    intro d c r h
    by_cases hd : 0 < d
    · rw [budgetLoop_zero sqrt rsqrt cps c hd] at h; cases h
    · rw [budgetLoop_done sqrt rsqrt cps 0 c hd] at h; cases h; rfl
  | succ fuel ih =>
    intro d c r h
    by_cases hd : 0 < d
    · obtain ⟨d', c', hs, hon, -⟩ := microStep_total sqrt rsqrt cps hN hN2 d c
      rw [budgetLoop_succ sqrt rsqrt cps fuel hd hs] at h
      rw [ih d' c' r h, hon]
    · rw [budgetLoop_done sqrt rsqrt cps _ c hd] at h; cases h; rfl

/-- Every reachable state is on the track. -/
theorem reachable_onTrack (sqrt rsqrt : K → K) (cps : List (Vec3 K)) (hN : 4 ≤ cps.length)
    (hN2 : cps.length < 2 ^ 64) (c : Camera K) (hc : Reachable sqrt rsqrt cps c) :
    c.onTrack = true := by
  induction hc with
  | enter c _ => rfl
  | micro c c' d d' _ hs ih => rw [microStep_onTrack sqrt rsqrt cps hN hN2 d d' c c' hs, ih]
  | call c c' fuel deltaTime _ hcall ih =>
    rw [ProcessTrackMovement_onTrack sqrt rsqrt fuel deltaTime cps c ih] at hcall
    cases hb2 : distanceBudget sqrt deltaTime c with
    | none =>
      rw [hb2] at hcall
      cases hcall
      exact ih
    | some dist =>
      rw [hb2] at hcall
      simp only [] at hcall
      cases hl : budgetLoop sqrt rsqrt cps fuel dist (snapshot c) with
      | returned r =>
        rw [hl] at hcall
        cases hcall
        rw [budgetLoop_onTrack sqrt rsqrt cps hN hN2 fuel dist (snapshot c) r hl]
        exact ih
      | outOfFuel => rw [hl] at hcall; cases hcall
      | failed => rw [hl] at hcall; cases hcall

/-- An on-track call with `deltaTime = 0` returns the snapshot of the camera, whatever the
bound on the micro-steps: the budget is 0 or NaN and the loop body does not run. -/
theorem ProcessTrackMovement_zero_time (sqrt rsqrt : K → K) (fuel : Nat)
    (cps : List (Vec3 K)) (c : Camera K) (h : c.onTrack = true) :
    ProcessTrackMovement sqrt rsqrt fuel 0 cps c = Outcome.returned (snapshot c) := by
  rw [ProcessTrackMovement_onTrack sqrt rsqrt fuel 0 cps c h]
  cases hb2 : distanceBudget sqrt 0 c with
  | none => rfl
  | some dist =>
    have hd : ¬ 0 < dist := by
      simp only [distanceBudget, nsqrt] at hb2
      split_ifs at hb2
      · simp at hb2
      · simp only [Option.map_some', Option.some.injEq, mul_zero, zero_div] at hb2
        rw [← hb2]
        exact lt_irrefl 0
    simp only []
    rw [budgetLoop_done sqrt rsqrt cps fuel (snapshot c) hd]

/-- C18: on a track of at least 4 control points the parameter `u` of the on-track camera
stays in the window `0 ≤ u ≤ (N - 3) + 0.005` in every state reached from the transition
onto the track by micro-steps and calls of `ProcessTrackMovement`.  From every state and
budget a micro-step yields a new state: it wraps `u` to 1, exactly when `u > N - 3`, or it
increases `u` by 0.005; a micro-step from a reachable state leads to a reachable state.  A
call never fails on an access to the control points; the call that takes the camera onto
the track returns the state with `u = 0`, and a call with `deltaTime = 0` from a reachable
state returns with `u` unchanged.  The window is the exact range:
every multiple of 0.005 in it, the upper end `(N - 3) + 0.005` included, is the `u` of a
reachable state. -/
theorem u_in_window (sqrt rsqrt : K → K) (cps : List (Vec3 K)) (hN : 4 ≤ cps.length)
    (hN2 : cps.length < 2 ^ 64) :
    (∀ c : Camera K, Reachable sqrt rsqrt cps c →
      0 ≤ c.u ∧ c.u ≤ (cps.length : K) - 3 + 1 / 200) ∧
    (∀ (d : K) (c : Camera K), ∃ d' c', microStep sqrt rsqrt cps d c = some (d', c') ∧
      (((cps.length : K) - 3 < c.u ∧ c'.u = 1) ∨
       (¬ (cps.length : K) - 3 < c.u ∧ c'.u = c.u + 1 / 200)) ∧
      (Reachable sqrt rsqrt cps c → Reachable sqrt rsqrt cps c' ∧
        0 ≤ c'.u ∧ c'.u ≤ (cps.length : K) - 3 + 1 / 200)) ∧
    (∀ (fuel : Nat) (deltaTime : K) (c : Camera K),
      ProcessTrackMovement sqrt rsqrt fuel deltaTime cps c ≠ Outcome.failed ∧
      (c.onTrack = false →
        ProcessTrackMovement sqrt rsqrt fuel deltaTime cps c = Outcome.returned (enterTrack c) ∧
        Reachable sqrt rsqrt cps (enterTrack c) ∧ (enterTrack c).u = 0) ∧
      (Reachable sqrt rsqrt cps c →
        ProcessTrackMovement sqrt rsqrt fuel 0 cps c = Outcome.returned (snapshot c) ∧
        Reachable sqrt rsqrt cps (snapshot c) ∧ (snapshot c).u = c.u)) ∧
    (∀ n : Nat, (n : K) / 200 ≤ (cps.length : K) - 3 + 1 / 200 →
      ∃ c : Camera K, Reachable sqrt rsqrt cps c ∧ c.u = (n : K) / 200) ∧
    (∃ c : Camera K, Reachable sqrt rsqrt cps c ∧ c.u = (cps.length : K) - 3 + 1 / 200) := by
  have hb := trackBound_cast (K := K) hN hN2
  have h1 : (1 : K) ≤ (cps.length : K) - 3 := by
    rw [← hb]; exact one_le_trackBound hN hN2
  have hwin : ∀ c : Camera K, Reachable sqrt rsqrt cps c →
      0 ≤ c.u ∧ c.u ≤ (cps.length : K) - 3 + 1 / 200 := by
    intro c hc
    induction hc with
    | enter c _ =>
      simp only [enterTrack]
      constructor <;> linarith
    | micro c c' d d' _ hs ih => exact microStep_window sqrt rsqrt cps hN hN2 d d' c c' hs ih
    | call c c' fuel deltaTime _ hcall ih =>
      by_cases hon : c.onTrack = true
      · rw [ProcessTrackMovement_onTrack sqrt rsqrt fuel deltaTime cps c hon] at hcall
        cases hb2 : distanceBudget sqrt deltaTime c with
        | none =>
          rw [hb2] at hcall
          cases hcall
          exact ih
        | some dist =>
          rw [hb2] at hcall
          simp only [] at hcall
          cases hl : budgetLoop sqrt rsqrt cps fuel dist (snapshot c) with
          | returned r =>
            rw [hl] at hcall
            cases hcall
            exact budgetLoop_window sqrt rsqrt cps hN hN2 fuel dist (snapshot c) r hl ih
          | outOfFuel => rw [hl] at hcall; cases hcall
          | failed => rw [hl] at hcall; cases hcall
      · have hoff : c.onTrack = false := by simpa using hon
        simp only [ProcessTrackMovement, hoff, if_true] at hcall
        cases hcall
        simp only [enterTrack]
        constructor <;> linarith
  refine ⟨hwin, ?_, ?_, ?_, ?_⟩
  · intro d c
    obtain ⟨d', c', hs, -, h⟩ := microStep_total sqrt rsqrt cps hN hN2 d c
    refine ⟨d', c', hs, ?_, ?_⟩
    · rcases h with ⟨h1, h2, -⟩ | h
      · exact Or.inl ⟨h1, h2⟩
      · exact Or.inr h
    · intro hr
      have hr' : Reachable sqrt rsqrt cps c' := Reachable.micro c c' d d' hr hs
      exact ⟨hr', hwin c' hr'⟩
  · intro fuel deltaTime c
    refine ⟨?_, ?_, ?_⟩
    · by_cases hon : c.onTrack = true
      · rw [ProcessTrackMovement_onTrack sqrt rsqrt fuel deltaTime cps c hon]
        cases hb2 : distanceBudget sqrt deltaTime c with
        | none => exact fun h => Outcome.noConfusion h
        | some dist =>
          simp only []
          cases hl : budgetLoop sqrt rsqrt cps fuel dist (snapshot c) with
          | returned r => exact fun h => Outcome.noConfusion h
          | outOfFuel => exact fun h => Outcome.noConfusion h
          | failed => exact absurd hl (budgetLoop_ne_failed sqrt rsqrt cps hN hN2 fuel dist _)
      · have hoff : c.onTrack = false := by simpa using hon
        simp only [ProcessTrackMovement, hoff, if_true]
        exact fun h => Outcome.noConfusion h
    · intro hoff
      refine ⟨?_, Reachable.enter c hoff, rfl⟩
      simp only [ProcessTrackMovement, hoff, if_true]
    · intro hr
      have hz := ProcessTrackMovement_zero_time sqrt rsqrt fuel cps c
        (reachable_onTrack sqrt rsqrt cps hN hN2 c hr)
      exact ⟨hz, Reachable.call c (snapshot c) fuel 0 hr hz, rfl⟩
  · intro n hn
    obtain ⟨c, hr, hu, -⟩ := reachable_multiple sqrt rsqrt cps hN hN2 n hn
    exact ⟨c, hr, hu⟩
  · obtain ⟨c, hr, hu, -⟩ := reachable_multiple sqrt rsqrt cps hN hN2
      (200 * (cps.length - 3) + 1) (by
        rw [Nat.cast_add, Nat.cast_mul, Nat.cast_sub (by omega)]
        push_cast
        apply le_of_eq
        ring)
    refine ⟨c, hr, ?_⟩
    rw [hu, Nat.cast_add, Nat.cast_mul, Nat.cast_sub (by omega)]
    push_cast
    ring

end WindowTheorems

/-! ## Theorems: the window of the track parameter on a concrete track -/

section WindowScenario

/-- C18 over the reals, on a track of four control points at `(1,0,0)`: the state with
`u = 1.005`, the upper end of the window, is reachable; the micro-step from it wraps `u` to
1 and the next one advances `u` to 1.005 again; and the call of `ProcessTrackMovement` with
`deltaTime = 1` from the state after the wrap returns a reachable state with `u` in the
window `[0, 1.005]`. -/
theorem u_in_window_flatTrack :
    4 ≤ (flatTrack (⟨1, 0, 0⟩ : Vec3 ℝ)).length ∧
      (flatTrack (⟨1, 0, 0⟩ : Vec3 ℝ)).length < 2 ^ 64 ∧
      ∃ (c1 c2 c3 c4 : Camera ℝ) (d2 d3 : ℝ) (fuel : Nat),
        Reachable (fun x : ℝ => Real.sqrt x) (fun x : ℝ => (Real.sqrt x)⁻¹)
          (flatTrack (⟨1, 0, 0⟩ : Vec3 ℝ)) c1 ∧ c1.u = 201 / 200 ∧
        microStep (fun x : ℝ => Real.sqrt x) (fun x : ℝ => (Real.sqrt x)⁻¹)
          (flatTrack (⟨1, 0, 0⟩ : Vec3 ℝ)) 1 c1 = some (d2, c2) ∧ c2.u = 1 ∧
        microStep (fun x : ℝ => Real.sqrt x) (fun x : ℝ => (Real.sqrt x)⁻¹)
          (flatTrack (⟨1, 0, 0⟩ : Vec3 ℝ)) d2 c2 = some (d3, c3) ∧ c3.u = 201 / 200 ∧
        Reachable (fun x : ℝ => Real.sqrt x) (fun x : ℝ => (Real.sqrt x)⁻¹)
          (flatTrack (⟨1, 0, 0⟩ : Vec3 ℝ)) c3 ∧
        ProcessTrackMovement (fun x : ℝ => Real.sqrt x) (fun x : ℝ => (Real.sqrt x)⁻¹)
          fuel 1 (flatTrack (⟨1, 0, 0⟩ : Vec3 ℝ)) c2 = Outcome.returned c4 ∧
        Reachable (fun x : ℝ => Real.sqrt x) (fun x : ℝ => (Real.sqrt x)⁻¹)
          (flatTrack (⟨1, 0, 0⟩ : Vec3 ℝ)) c4 ∧
        0 ≤ c4.u ∧ c4.u ≤ ((flatTrack (⟨1, 0, 0⟩ : Vec3 ℝ)).length : ℝ) - 3 + 1 / 200 := by
  have hN : 4 ≤ (flatTrack (⟨1, 0, 0⟩ : Vec3 ℝ)).length := by simp [flatTrack]
  have hN2 : (flatTrack (⟨1, 0, 0⟩ : Vec3 ℝ)).length < 2 ^ 64 := by simp [flatTrack]
  have hlen : ((flatTrack (⟨1, 0, 0⟩ : Vec3 ℝ)).length : ℝ) = 4 := by simp [flatTrack]
  have hb : ((trackBound (flatTrack (⟨1, 0, 0⟩ : Vec3 ℝ)).length : Nat) : ℝ) = 1 := by
    simp [flatTrack, trackBound]
  obtain ⟨hwin, hstep, -, hmul, -⟩ := u_in_window (fun x : ℝ => Real.sqrt x)
    (fun x : ℝ => (Real.sqrt x)⁻¹) (flatTrack (⟨1, 0, 0⟩ : Vec3 ℝ)) hN hN2
  obtain ⟨c1, hr1, hu1⟩ := hmul 201 (by rw [hlen]; norm_num)
  have hu1' : c1.u = 201 / 200 := by rw [hu1]; norm_num
  obtain ⟨d2, c2, hs2, hc2, hreach2⟩ := hstep 1 c1
  obtain ⟨hr2, -, -⟩ := hreach2 hr1
  have hu2 : c2.u = 1 := by
    rcases hc2 with ⟨-, h⟩ | ⟨hn, -⟩
    · exact h
    · exfalso; apply hn; rw [hlen, hu1']; norm_num
  obtain ⟨d3, c3, hs3, hc3, hreach3⟩ := hstep d2 c2
  obtain ⟨hr3, -, -⟩ := hreach3 hr2
  have hu3 : c3.u = 201 / 200 := by
    rcases hc3 with ⟨hgt, -⟩ | ⟨-, h⟩
    · exfalso; rw [hlen, hu2] at hgt; norm_num at hgt
    · rw [h, hu2]; norm_num
  have hp2 : c2.Position = 0 := by
    rcases microStep_cases _ _ _ 1 d2 c1 c2 hs2 with ⟨-, -, h⟩ | ⟨hn, -, -, -⟩
    · rw [h]; rfl
    · exfalso; apply hn; rw [hb, hu1']; norm_num
  have hon2 : c2.onTrack = true := reachable_onTrack _ _ _ hN hN2 c2 hr2
  have hret : ∃ fuel c4,
      ProcessTrackMovement (fun x : ℝ => Real.sqrt x) (fun x : ℝ => (Real.sqrt x)⁻¹)
        fuel 1 (flatTrack (⟨1, 0, 0⟩ : Vec3 ℝ)) c2 = Outcome.returned c4 := by
    cases hb2 : distanceBudget (fun x : ℝ => Real.sqrt x) 1 c2 with
    | none =>
      refine ⟨0, snapshot c2, ?_⟩
      rw [ProcessTrackMovement_onTrack _ _ _ _ _ c2 hon2, hb2]
    | some dist =>
      obtain ⟨fuel, r, -, hr⟩ := budgetLoop_returns (fun x : ℝ => Real.sqrt x)
        (fun x : ℝ => (Real.sqrt x)⁻¹) (flatTrack (⟨1, 0, 0⟩ : Vec3 ℝ)) hN hN2
        (fun c => (c.u = 1 ∧ c.Position = 0) ∨ c.u = 1 + 1 / 200) 1
        (by
          intro d c d' c' hc hs
          rcases microStep_cases _ _ _ d d' c c' hs with ⟨-, -, h2⟩ | ⟨hu, h1, -, -⟩
          · left; rw [h2]; exact ⟨rfl, rfl⟩
          · right
            rcases hc with ⟨hcu, -⟩ | hcu
            · rw [h1, hcu]
            · exfalso; apply hu; rw [hb, hcu]; norm_num)
        (by
          intro c p hc hu hp
          rcases hc with ⟨-, hpos⟩ | hcu
          · rw [get_point_flatTrack] at hp
            cases hp
            rw [hpos]
            simp [get_distance]
          · exfalso; apply hu; rw [hb, hcu]; norm_num)
        _ dist (snapshot c2) (Or.inl ⟨hu2, hp2⟩) (le_ceil_toNat_mul _ 1 one_pos)
      refine ⟨fuel, r.2, ?_⟩
      rw [ProcessTrackMovement_onTrack _ _ _ _ _ c2 hon2, hb2]
      simp only [hr]
  obtain ⟨fuel, c4, hcall⟩ := hret
  have hr4 := Reachable.call c2 c4 fuel 1 hr2 hcall
  obtain ⟨hw0, hw1⟩ := hwin c4 hr4
  exact ⟨hN, hN2, c1, c2, c3, c4, d2, d3, fuel, hr1, hu1', hs2, hu2, hs3, hu3, hr3, hcall,
    hr4, hw0, hw1⟩

end WindowScenario


/-! ## Theorems: the connected ribbon -/

section ConnectedTheorems

variable {K : Type} [LinearOrderedField K]

theorem framesAlong_length (rsqrt : K → K) (ps : List (Vec3 K)) :
    ∀ start : Orientation K, (framesAlong rsqrt start ps).length = ps.length := by
  induction ps with
  | nil => intro start; rfl
  | cons p ps ih =>
    intro start
    simp only [framesAlong, List.length_cons, ih]

variable [FloorRing K]

/-- The sampling loop returns the vertices it started with followed by the ribbon of the
frames propagated from `current` along the samples `get_point(u + k * step)`, one for each
of its iterations. -/
theorem railLoop_ribbon_frames (rsqrt : K → K) (cps : List (Vec3 K)) (bound step : K)
    (hN : 0 < cps.length) (hstep : 0 < step) :
    ∀ (n : Nat) (u : K) (current : Orientation K) (vertices : List (Vertex K)),
      (⌈(bound - u) / step⌉).toNat = n →
      ∃ last ps, railLoop rsqrt cps bound step u current vertices
          = some (last, vertices ++ ribbon (current :: framesAlong rsqrt current ps)) ∧
        ps.length = n ∧
        ∀ k : Nat, k < n → get_point cps (u + (k : K) * step) = ps[k]? := by
  intro n
  induction n with
  | zero =>
    intro u current vertices hn
    by_cases hu : u < bound
    · have := ceil_step_measure hu hstep
      omega
    · refine ⟨current, [], ?_, rfl, fun k hk => absurd hk (Nat.not_lt_zero k)⟩
      rw [railLoop]
      simp only [hu, dite_false, framesAlong, ribbon, List.append_nil]
  | succ m ih =>
    intro u current vertices hn
    by_cases hu : u < bound
    · have hm := ceil_step_measure hu hstep
      obtain ⟨pA, pB, pC, pD, -, -, -, -, hp⟩ := get_point_eq_some cps u hN
      rw [railLoop_step rsqrt cps bound step u current vertices _ hu hstep hp]
      obtain ⟨last, ps, hrun, hlen, hget⟩ := ih (u + step)
        (propagate rsqrt current (interpolate pA pB pC pD (1 / 2) (modfFrac u)))
        (makeRailPart vertices current
          (propagate rsqrt current (interpolate pA pB pC pD (1 / 2) (modfFrac u))))
        (by omega)
      refine ⟨last, interpolate pA pB pC pD (1 / 2) (modfFrac u) :: ps, ?_, ?_, ?_⟩
      · rw [hrun, makeRailPart_append, List.append_assoc]
        simp only [framesAlong, ribbon_cons_cons]
      · simp only [List.length_cons, hlen]
      · intro k hk
        cases k with
        | zero =>
          simp only [Nat.cast_zero, zero_mul, add_zero, List.getElem?_cons_zero]
          exact hp
        | succ j =>
          rw [List.getElem?_cons_succ, ← hget j (by omega)]
          congr 1
          push_cast
          ring
    · have := ceil_measure_zero hu hstep
      omega

/-- C20: the ribbon built by `Track::create_track` is connected.  For at least 4 loaded
points and a positive step the mesh is the ribbon of the frames propagated from the seed
frame at `controlPoints[0]` along the samples `get_point(u0 + k * step)`, one segment of 24
vertices for each of the samples below `N - 3`; there is a segment as soon as `u0 < N - 3`
and there are two as soon as `u0 + step < N - 3`.  The first segment starts at the four
corners of the seed frame (its vertices 0, 1, 6, 7 hold `a1`, `a2`, `a3`, `a4`), and for
every pair of consecutive segments `k`, `k + 1` the end corners `b1`, `b2`, `b3`, `b4` of
the segment `k` (its vertices 4, 2, 10, 8) and the start corners `a1`, `a2`, `a3`, `a4` of
the segment `k + 1` (its vertices 0, 1, 6, 7) are the corners of one and the same frame,
the frame propagated to the sample `k`. -/
theorem ribbon_connected (rsqrt : K → K) (u0 step : K) (points : List (Vec3 K))
    (hN : 4 ≤ points.length) (hstep : 0 < step) :
    ∃ (cps : List (Vec3 K)) (vertices : List (Vertex K)) (o : Vec3 K) (ps : List (Vec3 K)),
      create_trackWith rsqrt u0 step points = some (cps, vertices) ∧
      cps = loadControlPoints ⟨-2, 0, -2⟩ [] points ∧
      cps.length = points.length ∧ cps[0]? = some o ∧
      ps.length = sampledSegments (((points.length : Int) - 3 : Int) : K) step u0 ∧
      ps.length = (⌈((((points.length : Int) - 3 : Int) : K) - u0) / step⌉).toNat ∧
      (∀ k : Nat, k < ps.length → get_point cps (u0 + (k : K) * step) = ps[k]?) ∧
      vertices = ribbon (trackSeed o :: framesAlong rsqrt (trackSeed o) ps) ∧
      vertices.length = 24 * ps.length ∧
      (u0 < ((((points.length : Int) - 3 : Int)) : K) → 1 ≤ ps.length) ∧
      (u0 + step < ((((points.length : Int) - 3 : Int)) : K) → 2 ≤ ps.length) ∧
      (1 ≤ ps.length →
        (vertices[0]?).map Vertex.Position = some (railCorner1 (trackSeed o)) ∧
        (vertices[1]?).map Vertex.Position = some (railCorner2 (trackSeed o)) ∧
        (vertices[6]?).map Vertex.Position = some (railCorner3 (trackSeed o)) ∧
        (vertices[7]?).map Vertex.Position = some (railCorner4 (trackSeed o))) ∧
      (∀ k : Nat, k + 2 ≤ ps.length →
        ∃ f, (framesAlong rsqrt (trackSeed o) ps)[k]? = some f ∧
          (vertices[24 * k + 4]?).map Vertex.Position = some (railCorner1 f) ∧
          (vertices[24 * (k + 1) + 0]?).map Vertex.Position = some (railCorner1 f) ∧
          (vertices[24 * k + 2]?).map Vertex.Position = some (railCorner2 f) ∧
          (vertices[24 * (k + 1) + 1]?).map Vertex.Position = some (railCorner2 f) ∧
          (vertices[24 * k + 10]?).map Vertex.Position = some (railCorner3 f) ∧
          (vertices[24 * (k + 1) + 6]?).map Vertex.Position = some (railCorner3 f) ∧
          (vertices[24 * k + 8]?).map Vertex.Position = some (railCorner4 f) ∧
          (vertices[24 * (k + 1) + 7]?).map Vertex.Position = some (railCorner4 f)) := by
  obtain ⟨hlen, o, ho⟩ := loadControlPoints_head points (by omega)
  obtain ⟨last, ps, hrun, hps, hget⟩ := railLoop_ribbon_frames rsqrt
    (loadControlPoints (⟨-2, 0, -2⟩ : Vec3 K) [] points)
    ((((loadControlPoints (⟨-2, 0, -2⟩ : Vec3 K) [] points).length : Int) - 3 : Int) : K)
    step (by omega) hstep _ u0 (trackSeed o) [] rfl
  rw [List.nil_append] at hrun
  have hct := create_trackWith_of_railLoop rsqrt u0 step points o _ _ ho hrun
  rw [hlen] at hps
  have hfl := framesAlong_length rsqrt ps (trackSeed o)
  have hvl : (ribbon (trackSeed o :: framesAlong rsqrt (trackSeed o) ps)).length
      = 24 * ps.length := by
    rw [ribbon_length, List.length_cons, hfl]
    simp
  refine ⟨_, _, o, ps, hct, rfl, hlen, ho, ?_, hps, ?_, rfl, hvl, ?_, ?_, ?_, ?_⟩
  · rw [hps]
    exact (sampledSegments_eq_ceil _ step hstep _ u0 rfl).symm
  · intro k hk
    exact hget k (by rw [hlen]; omega)
  · intro hu
    have := ceil_step_measure hu hstep
    omega
  · intro hu
    have hu1 : u0 < ((((points.length : Int) - 3 : Int)) : K) := by linarith
    have h1 := ceil_step_measure hu1 hstep
    have h2 := ceil_step_measure hu hstep
    omega
  · intro h1
    match ps, h1, hfl with
    | p :: rest, _, _ =>
      have e : ∀ j, j < 24 →
          (ribbon (trackSeed o :: framesAlong rsqrt (trackSeed o) (p :: rest)))[j]?
            = (makeRailPart [] (trackSeed o) (propagate rsqrt (trackSeed o) p))[j]? := by
        intro j hj
        have := ribbon_getElem j hj 0
          (trackSeed o :: framesAlong rsqrt (trackSeed o) (p :: rest)) (trackSeed o)
          (propagate rsqrt (trackSeed o) p) (by simp) (by simp [framesAlong])
        simpa using this
      obtain ⟨c1, c2, c3, c4, -, -, -, -⟩ :=
        makeRailPart_corners (trackSeed o) (propagate rsqrt (trackSeed o) p)
      rw [e 0 (by norm_num), e 1 (by norm_num), e 6 (by norm_num), e 7 (by norm_num)]
      exact ⟨c1, c2, c3, c4⟩
  · intro k hk
    have hk0 : k < (trackSeed o :: framesAlong rsqrt (trackSeed o) ps).length := by
      simp only [List.length_cons, hfl]; omega
    have hk1 : k + 1 < (trackSeed o :: framesAlong rsqrt (trackSeed o) ps).length := by
      simp only [List.length_cons, hfl]; omega
    have hk2 : k + 1 + 1 < (trackSeed o :: framesAlong rsqrt (trackSeed o) ps).length := by
      simp only [List.length_cons, hfl]; omega
    obtain ⟨f0, g0⟩ : ∃ f, (trackSeed o :: framesAlong rsqrt (trackSeed o) ps)[k]? = some f :=
      ⟨_, List.getElem?_eq_getElem hk0⟩
    obtain ⟨f1, g1⟩ :
        ∃ f, (trackSeed o :: framesAlong rsqrt (trackSeed o) ps)[k + 1]? = some f :=
      ⟨_, List.getElem?_eq_getElem hk1⟩
    obtain ⟨f2, g2⟩ :
        ∃ f, (trackSeed o :: framesAlong rsqrt (trackSeed o) ps)[k + 1 + 1]? = some f :=
      ⟨_, List.getElem?_eq_getElem hk2⟩
    obtain ⟨-, -, -, -, b1, b2, b3, b4⟩ := makeRailPart_corners f0 f1
    obtain ⟨a1, a2, a3, a4, -, -, -, -⟩ := makeRailPart_corners f1 f2
    have gf : (framesAlong rsqrt (trackSeed o) ps)[k]? = some f1 := by
      rw [List.getElem?_cons_succ] at g1; exact g1
    refine ⟨f1, gf, ?_, ?_, ?_, ?_, ?_, ?_, ?_, ?_⟩
    · rw [ribbon_getElem 4 (by norm_num) k _ _ _ g0 g1]; exact b1
    · rw [ribbon_getElem 0 (by norm_num) (k + 1) _ _ _ g1 g2]; exact a1
    · rw [ribbon_getElem 2 (by norm_num) k _ _ _ g0 g1]; exact b2
    · rw [ribbon_getElem 1 (by norm_num) (k + 1) _ _ _ g1 g2]; exact a2
    · rw [ribbon_getElem 10 (by norm_num) k _ _ _ g0 g1]; exact b3
    · rw [ribbon_getElem 6 (by norm_num) (k + 1) _ _ _ g1 g2]; exact a3
    · rw [ribbon_getElem 8 (by norm_num) k _ _ _ g0 g1]; exact b4
    · rw [ribbon_getElem 7 (by norm_num) (k + 1) _ _ _ g1 g2]; exact a4

end ConnectedTheorems

/-! ## Theorems: the connected ribbon of the straight track -/

section ConnectedScenario

/-- C20 over the reals, with the constants of the code on the straight track: the mesh has
19 segments, 456 vertices; the first segment starts at the corner `(0, -0.3, -1)` of the
seed frame at `controlPoints[0] = (0,0,0)`; and the end corners of the first segment
(vertices 4, 2, 10, 8) are the start corners of the second (vertices 24, 25, 30, 31), the
corners of the frame at `get_point(0.1) = (1.1, 0, 0)`. -/
theorem ribbon_connected_straightTrack :
    4 ≤ (straightPoints : List (Vec3 ℝ)).length ∧ (0 : ℝ) < 1 / 10 ∧
      ∃ (cps : List (Vec3 ℝ)) (vertices : List (Vertex ℝ)),
        create_track (fun x : ℝ => (Real.sqrt x)⁻¹) straightPoints = some (cps, vertices) ∧
        vertices.length = 456 ∧
        (vertices[0]?).map Vertex.Position =
          some (some (⟨0, -(3 / 10), -1⟩ : Vec3 ℝ)) ∧
        (vertices[4]?).map Vertex.Position =
          some (some (⟨11 / 10, -(3 / 10), 1⟩ : Vec3 ℝ)) ∧
        (vertices[24]?).map Vertex.Position =
          some (some (⟨11 / 10, -(3 / 10), 1⟩ : Vec3 ℝ)) ∧
        (vertices[2]?).map Vertex.Position =
          some (some (⟨11 / 10, -(1 / 10), 1⟩ : Vec3 ℝ)) ∧
        (vertices[25]?).map Vertex.Position =
          some (some (⟨11 / 10, -(1 / 10), 1⟩ : Vec3 ℝ)) ∧
        (vertices[10]?).map Vertex.Position =
          some (some (⟨11 / 10, -(3 / 10), -1⟩ : Vec3 ℝ)) ∧
        (vertices[30]?).map Vertex.Position =
          some (some (⟨11 / 10, -(3 / 10), -1⟩ : Vec3 ℝ)) ∧
        (vertices[8]?).map Vertex.Position =
          some (some (⟨11 / 10, -(1 / 10), -1⟩ : Vec3 ℝ)) ∧
        (vertices[31]?).map Vertex.Position =
          some (some (⟨11 / 10, -(1 / 10), -1⟩ : Vec3 ℝ)) := by
  refine ⟨by decide, by norm_num, ?_⟩
  obtain ⟨cps, vertices, o, ps, hct, hcps, -, ho, -, hlen, hget, -, hvl, -, -, hfirst, hconn⟩ :=
    ribbon_connected (fun x : ℝ => (Real.sqrt x)⁻¹) (1 / 10) (1 / 10)
      (straightPoints : List (Vec3 ℝ)) (by decide) (by norm_num)
  have hn : ps.length = 19 := by
    rw [hlen]
    have e : (((((straightPoints : List (Vec3 ℝ)).length : Int) - 3 : Int) : ℝ) - 1 / 10)
        / (1 / 10) = ((19 : Int) : ℝ) := by
      simp only [straightPoints, List.length_cons, List.length_nil]
      norm_num
    rw [e, Int.ceil_intCast]
    rfl
  rw [loadControlPoints_straightPoints] at hcps
  subst hcps
  have ho' : o = ⟨0, 0, 0⟩ := by
    simp only [straightTrack, List.getElem?_cons_zero, Option.some.injEq] at ho
    exact ho.symm
  subst ho'
  have hp0 : ps[0]? = some (⟨11 / 10, 0, 0⟩ : Vec3 ℝ) := by
    rw [← hget 0 (by omega)]
    simp only [Nat.cast_zero, zero_mul, add_zero]
    rw [get_point_straightTrack (1 / 10) (by norm_num) (by norm_num)]
    norm_num
  obtain ⟨f, hf, b1, a1, b2, a2, b3, a3, b4, a4⟩ := hconn 0 (by omega)
  have hfe : f = straightFrame (11 / 10) := by
    match ps, hp0, hf with
    | p :: rest, hp0, hf =>
      simp only [List.getElem?_cons_zero, Option.some.injEq] at hp0
      subst hp0
      simp only [framesAlong, List.getElem?_cons_zero, Option.some.injEq] at hf
      rw [← hf]
      exact propagate_along_x isInvSqrt_real (trackSeed ⟨0, 0, 0⟩) 0 (11 / 10) rfl rfl
        (by norm_num)
  subst hfe
  obtain ⟨s1, -, -, -⟩ := hfirst (by omega)
  have r0 : railCorner1 (trackSeed (⟨0, 0, 0⟩ : Vec3 ℝ)) = some ⟨0, -(3 / 10), -1⟩ := by
    simp [railCorner1, trackSeed, nsub, nscale, nlift2, Vec3.ext_iff]
  have r1 : railCorner1 (straightFrame (11 / 10 : ℝ)) = some ⟨11 / 10, -(3 / 10), 1⟩ := by
    simp [railCorner1, straightFrame, nsub, nscale, nlift2, Vec3.ext_iff]
  have r2 : railCorner2 (straightFrame (11 / 10 : ℝ)) = some ⟨11 / 10, -(1 / 10), 1⟩ := by
    simp [railCorner2, straightFrame, nsub, nscale, nlift2, Vec3.ext_iff]
  have r3 : railCorner3 (straightFrame (11 / 10 : ℝ)) = some ⟨11 / 10, -(3 / 10), -1⟩ := by
    simp [railCorner3, straightFrame, nsub, nadd, nscale, nlift2, Vec3.ext_iff]
  have r4 : railCorner4 (straightFrame (11 / 10 : ℝ)) = some ⟨11 / 10, -(1 / 10), -1⟩ := by
    simp [railCorner4, straightFrame, nsub, nadd, nscale, nlift2, Vec3.ext_iff]
  rw [r0] at s1
  rw [r1] at b1 a1
  rw [r2] at b2 a2
  rw [r3] at b3 a3
  rw [r4] at b4 a4
  exact ⟨_, vertices, hct, by rw [hvl, hn], s1, b1, a1, b2, a2, b3, a3, b4, a4⟩

end ConnectedScenario

end RollerCoaster
